import Mathlib

/-!
# mkmsgf: message-file compiler (src/src/mkmsgf.c)

A shallow embedding of the source scanner (`setupheader`), of the per-line
parser and its two fixups as they appear in the binary emitter
(`writemsgfile`) and in the textual emitter (`writeasmfile`), of the two
emitter loops, of the text the textual emitter writes (`handleitem` and the
body loop), of the binary file (`writeheader`, `writecountryblock`, the index
and the extension of `writemsgfile`) and of the option loop of `processparams`
with `DecodeLangOpt` and `ProgError`.

Conventions of the embedding.

* A byte is a natural number; character constants are written as their codes
  (`;` 59, space 32, `%` 37, `0` 48, `?` 63, `E` 69, `H` 72, `I` 73, `P` 80,
  `W` 87, CR 13, LF 10).
* A file is the list of its bytes.  A stream is the list of unread bytes
  together with the end-of-file indicator of the C library.
* A memory image is a list of bytes; a position past the stored bytes reads
  as 0 (the buffer is cleared by `memset` before each line is read).  The
  image of the read buffer starts with the four bytes that precede the buffer
  in memory (`Pre`): the placeholder check indexes `readptr` at
  `current_msg_len - 4`, which is below the buffer for short lines, and the
  bytes it finds there are not under the control of the program.
* `mkmsgf.h`, `mkmsgerr.h` and `dlist.h` are not part of the sources at hand:
  `sizeof(FILECOUNTRYINFO)` is a parameter (`fciSize`), and so are
  `ASM_MSG_SIZE`, the bytes of `extfake`, the table `langinfo`, the error codes
  and the images of the two structures `writeheader` sends to the file; the
  integer fields of `MESSAGEINFO` are unbounded.
* The calls of the C library on the output file are taken to succeed, and so
  are the allocations.
-/

namespace Mkmsgf

/-! ## Bytes, C strings and memory images -/

/-- Read one byte of a memory image; positions past the stored bytes hold 0. -/
def peek (m : List Nat) (i : Nat) : Nat := m.getD i 0

/-- Store one byte into a memory image, extending it with zero bytes when the
position lies past the stored bytes. -/
def poke (m : List Nat) (i v : Nat) : List Nat :=
  if i < m.length then m.set i v else m ++ List.replicate (i - m.length) 0 ++ [v]

/-- The C function `strlen` applied to the address `p` of the image: the number
of bytes before the first NUL. -/
def strlen (m : List Nat) (p : Nat) : Nat :=
  ((m.drop p).takeWhile (fun b => b != 0)).length

/-- The bytes `p[0] .. p[n-1]` of the image, as `fwrite(p, 1, n, f)` sends
them to the file. -/
def bytesAt (m : List Nat) (p n : Nat) : List Nat :=
  (List.range n).map (fun k => peek m (p + k))

/-- The C function `strncmp(a, b, n) == 0` on two images read from their
start: the first `n` bytes agree, the comparison stopping at a NUL. -/
def strncmpEq : Nat → List Nat → List Nat → Bool
  | 0, _, _ => true
  | n + 1, a, b =>
    if a.headD 0 != b.headD 0 then false
    else if a.headD 0 == 0 then true
    else strncmpEq n a.tail b.tail

/-- The C predicate `isspace` in the C locale. -/
def isspace (c : Nat) : Bool :=
  c == 32 || c == 9 || c == 10 || c == 11 || c == 12 || c == 13

/-- The C predicate `isdigit`. -/
def isdigit (c : Nat) : Bool := 48 ≤ c && c ≤ 57

/-- The value of the leading decimal digits of a byte string. -/
def digitsValue (s : List Nat) : Nat :=
  (s.takeWhile isdigit).foldl (fun acc c => 10 * acc + (c - 48)) 0

/-- The C function `atoi` on a byte string (read up to its first NUL): leading
white space, an optional sign, then decimal digits. -/
def atoi (s : List Nat) : Int :=
  match ((s.takeWhile (fun b => b != 0)).dropWhile isspace) with
  | 45 :: t => - (digitsValue t : Int)
  | 43 :: t => (digitsValue t : Int)
  | t => (digitsValue t : Int)

/-! ## Streams and `getline` -/

/-- An input stream: the bytes not yet read and the end-of-file indicator. -/
structure Stream where
  rest : List Nat
  eof : Bool
deriving DecidableEq, Repr

/-- The bytes `getline` consumes from the unread bytes: up to and including
the first LF, or all of them when there is no LF. -/
def takeLine : List Nat → List Nat
  | [] => []
  | c :: cs => if c = 10 then [c] else c :: takeLine cs

/-- The unread bytes left after `takeLine`. -/
def dropLine : List Nat → List Nat
  | [] => []
  | c :: cs => if c = 10 then cs else dropLine cs

/-- Whether `getline` ran into the end of the file while reading a line, that
is, whether the unread bytes hold no LF. -/
def hitsEof : List Nat → Bool
  | [] => true
  | c :: cs => if c = 10 then false else hitsEof cs

/-- The function `getline(&buf, &n, fp)` (lines 92-161).  At the end of the
file nothing is stored, the indicator is set and -1 is returned.  Otherwise
the line and a NUL are stored from the start of the buffer, over what the
buffer held, and the number of bytes read is returned; the indicator is set
when the line was ended by the end of the file instead of by LF. -/
def getline (buf : List Nat) (fp : Stream) : Int × List Nat × Stream :=
  match fp.rest with
  | [] => (-1, buf, { rest := [], eof := true })
  | c :: cs =>
    let line := takeLine (c :: cs)
    ((line.length : Int),
     line ++ [0] ++ buf.drop (line.length + 1),
     { rest := dropLine (c :: cs), eof := fp.eof || hitsEof (c :: cs) })

/-! ## The source scanner: `setupheader` (lines 512-628) -/

/-- The ways a compilation stops without a result. -/
inductive Stop where
  /-- The call `exit(99)`: the identifier line is longer than five bytes. -/
  | exit99
  /-- The call `ProgError(.., "MKMSGF: Bad message type.")`, which exits. -/
  | badType
  /-- The statement `return (MKMSG_BAD_TYPE)` of the textual emitter. -/
  | noSpace
  /-- The program reads memory it never wrote (no identifier line at all, or
  an identifier line of a single byte). -/
  | undefinedRead
  /-- The iteration bound of the embedding was reached. -/
  | fuel
deriving DecidableEq, Repr

/-- The fields of `MESSAGEINFO` that `setupheader` fills in. -/
structure MESSAGEINFO where
  identifier : List Nat
  msgstartline : Nat
  numbermsg : Nat
  firstmsg : Option Int
  offsetid : Nat
  indexsize : Nat
  version : Nat
  hdroffset : Nat
  indexoffset : Nat
  countryinfo : Nat
  msgoffset : Nat
  extenblock : Nat
deriving DecidableEq, Repr

/-- The first loop of `setupheader` (lines 528-546): read lines into a fresh
buffer until one does not start with `;`; that line gives the identifier.
Returns the identifier and the stream after the identifier line. -/
def findIdentifier : Nat → Stream → Except Stop (List Nat × Stream)
  | 0, _ => .error .fuel
  | fuel + 1, fp =>
    match getline [] fp with
    | (ret, line, fp1) =>
      if ret < 0 then .error .undefinedRead
      else if peek line 0 != 59 then
        if strlen line 0 > 5 then .error .exit99
        else if ret < 2 then .error .undefinedRead
        else .ok ([peek line 0, peek line 1, peek line 2], fp1)
      else findIdentifier fuel fp1

/-- The second loop of `setupheader` (lines 552-577): count the lines that
start with the identifier, and take the first message number from the first
of them.  The loop is left as soon as the end-of-file indicator is set, before
the line just read is looked at. -/
def countMessages (identifier : List Nat) :
    Nat → List Nat → Stream → Nat → Option Int → Nat × Option Int
  | 0, _, _, numbermsg, firstmsg => (numbermsg, firstmsg)
  | fuel + 1, read_buffer, fp, numbermsg, firstmsg =>
    match getline read_buffer fp with
    | (_, read_buffer1, fp1) =>
      if fp1.eof then (numbermsg, firstmsg)
      else if strncmpEq 3 identifier read_buffer1 then
        countMessages identifier fuel read_buffer1 fp1 (numbermsg + 1)
          (match firstmsg with
           | none => some (atoi [peek read_buffer1 3, peek read_buffer1 4,
                                 peek read_buffer1 5, peek read_buffer1 6])
           | some v => some v)
      else countMessages identifier fuel read_buffer1 fp1 numbermsg firstmsg

/-- The function `setupheader` on the bytes of the input file; `fciSize` is
`sizeof(FILECOUNTRYINFO)`. -/
def setupheader (fciSize : Nat) (input : List Nat) : Except Stop MESSAGEINFO :=
  match findIdentifier (input.length + 1) { rest := input, eof := false } with
  | .error e => .error e
  | .ok (identifier, fp) =>
    let counted := countMessages identifier (input.length + 1) [] fp 0 none
    let numbermsg := counted.1
    let offsetid := if input.length ≤ 40000 then 1 else 0
    let indexsize := if offsetid != 0 then numbermsg * 2 else numbermsg * 4
    let hdroffset := 0x1F
    let countryinfo := hdroffset + indexsize
    .ok { identifier := identifier
          msgstartline := input.length - fp.rest.length
          numbermsg := numbermsg
          firstmsg := counted.2
          offsetid := offsetid
          indexsize := indexsize
          version := 2
          hdroffset := hdroffset
          indexoffset := hdroffset
          countryinfo := countryinfo
          msgoffset := countryinfo + fciSize
          extenblock := 0 }

/-! ## The read buffer and the per-line parser of the two emitters -/

/-- The four bytes that precede the read buffer in memory; `b1` is the byte
just below `read_buffer[0]`, `b4` the byte four positions below it. -/
structure Pre where
  b4 : Nat
  b3 : Nat
  b2 : Nat
  b1 : Nat
deriving DecidableEq, Repr

/-- The memory image of the read buffer: the four bytes below it, then the
buffer.  `read_buffer[i]` is at position `4 + i` of the image. -/
def image (pre : Pre) (read_buffer : List Nat) : List Nat :=
  [pre.b4, pre.b3, pre.b2, pre.b1] ++ read_buffer

/-- The four bytes below the buffer, read back from an image. -/
def preOf (m : List Nat) : Pre :=
  { b4 := peek m 0, b3 := peek m 1, b2 := peek m 2, b1 := peek m 3 }

/-- What the head of the loop body decides for one line. -/
inductive Start where
  /-- The line starts with `;` and is skipped. -/
  | comment
  /-- The compilation stops. -/
  | stop (e : Stop)
  /-- The line is processed: whether it is a new-message line, the image after
  the stores of the head, and `readptr` as a position of the image. -/
  | run (newmsg : Bool) (m : List Nat) (readptr : Nat)
deriving DecidableEq, Repr

/-- The test `read_buffer[7] != 'E' && .. != 'H' && .. != 'I' && .. != 'P' &&
.. != 'W' && .. != '?'` (lines 740-742 and 1005-1007). -/
def badTypeLetter (c : Nat) : Bool :=
  c != 69 && c != 72 && c != 73 && c != 80 && c != 87 && c != 63

/-- The head of the loop body of `writemsgfile` (lines 999-1056) on the image
of the read buffer. -/
def startMsg (identifier : List Nat) (m : List Nat) : Start :=
  if peek m 4 != 59 then
    if strncmpEq 3 identifier (m.drop 4) then
      if badTypeLetter (peek m (4 + 7)) then .stop .badType
      else if peek m (4 + 7) == 63 then
        .run true (image (preOf m) [63, 13, 10, 0]) 4
      else if peek m (4 + 9) != 32 then
        .run true (poke m (4 + 8) (peek m (4 + 7))) (4 + 8)
      else
        .run true (poke m (4 + 9) (peek m (4 + 7))) (4 + 9)
    else .run false m 4
  else .comment

/-- The head of the loop body of `writeasmfile` (lines 734-784) on the image
of the read buffer. -/
def startAsm (identifier : List Nat) (m : List Nat) : Start :=
  if peek m 4 != 59 then
    if strncmpEq 3 identifier (m.drop 4) then
      if badTypeLetter (peek m (4 + 7)) then .stop .badType
      else if peek m (4 + 7) == 63 then
        .run true (image (preOf m) [13, 10, 0]) 4
      else if peek m (4 + 9) != 32 then .stop .noSpace
      else .run true m (4 + 10)
    else .run false m 4
  else .comment

/-- The second check of `writemsgfile` (lines 1065-1074): the line-ending
fixup.  Returns the image and the new `current_msg_len`. -/
def fixLineEndMsg (m : List Nat) (readptr len : Nat) : List Nat × Nat :=
  if len != 0 && peek m (readptr + len - 1) != 10 && peek m (readptr + len - 2) != 13 then
    let m1 := poke m (readptr + len - 1) 13
    let m2 := poke m1 (readptr + len) 10
    let m3 := poke m2 (readptr + len + 1) 0
    (m3, strlen m3 readptr)
  else (m, len)

/-- The second check of `writeasmfile` (lines 793-802): the same fixup without
the test of `current_msg_len`. -/
def fixLineEndAsm (m : List Nat) (readptr len : Nat) : List Nat × Nat :=
  if peek m (readptr + len - 1) != 10 && peek m (readptr + len - 2) != 13 then
    let m1 := poke m (readptr + len - 1) 13
    let m2 := poke m1 (readptr + len) 10
    let m3 := poke m2 (readptr + len + 1) 0
    (m3, strlen m3 readptr)
  else (m, len)

/-- The third check of both emitters (lines 811-821 and 1083-1093): the
placeholder fixup.  Returns the image and the new `current_msg_len`. -/
def fixPlaceholder (m : List Nat) (readptr len : Nat) : List Nat × Nat :=
  if peek m (readptr + len - 3) == 48 && peek m (readptr + len - 4) == 37 then
    let m1 := poke m (readptr + len - 1) 0
    let m2 := poke m1 (readptr + len - 2) 0
    let m3 := poke m2 (readptr + len - 3) 0
    let m4 := poke m3 (readptr + len - 4) 0
    (m4, strlen m4 readptr)
  else (m, len)

/-- The two fixups of `writemsgfile` after `current_msg_len = strlen(readptr)`
(lines 1058-1093). -/
def normalizeMsg (m : List Nat) (readptr : Nat) : List Nat × Nat :=
  let r := fixLineEndMsg m readptr (strlen m readptr)
  fixPlaceholder r.1 readptr r.2

/-- The two fixups of `writeasmfile` after `current_msg_len = strlen(readptr)`
(lines 786-821). -/
def normalizeAsm (m : List Nat) (readptr : Nat) : List Nat × Nat :=
  let r := fixLineEndAsm m readptr (strlen m readptr)
  fixPlaceholder r.1 readptr r.2

/-- What one pass of the loop body does with a line. -/
inductive Outcome where
  /-- Nothing is emitted for a comment line. -/
  | comment
  /-- The compilation stops. -/
  | stop (e : Stop)
  /-- The line is emitted: whether it is a new-message line, the bytes
  emitted for it, and the four bytes below the buffer afterwards. -/
  | emit (newmsg : Bool) (bytes : List Nat) (pre : Pre)
deriving DecidableEq, Repr

/-- One line through the loop body of `writemsgfile` (lines 999-1096): the
bytes are those handed to `fwrite(readptr, 1, current_msg_len, fpo)`. -/
def lineMsg (identifier : List Nat) (pre : Pre) (read_buffer : List Nat) : Outcome :=
  match startMsg identifier (image pre read_buffer) with
  | .comment => .comment
  | .stop e => .stop e
  | .run newmsg m readptr =>
    let r := normalizeMsg m readptr
    .emit newmsg (bytesAt r.1 readptr r.2) (preOf r.1)

/-- One line through the loop body of `writeasmfile` (lines 734-821): the
bytes are those the loop `while (*readptr)` walks over (lines 849-869). -/
def lineAsm (identifier : List Nat) (pre : Pre) (read_buffer : List Nat) : Outcome :=
  match startAsm identifier (image pre read_buffer) with
  | .comment => .comment
  | .stop e => .stop e
  | .run newmsg m readptr =>
    let r := normalizeAsm m readptr
    .emit newmsg (bytesAt r.1 readptr (strlen r.1 readptr)) (preOf r.1)

/-! ## The loop of the binary emitter: `writemsgfile` (lines 930-1105) -/

/-- One call of `fwrite` on the output file: the file position at which the
bytes go, whether the line was a new-message line, and the bytes. -/
structure Written where
  pos : Nat
  newmsg : Bool
  bytes : List Nat
deriving DecidableEq, Repr

/-- The state of the loop of `writemsgfile`.  `index` is `index_buffer` seen
as its entries (`numbermsg` of them, 2 or 4 bytes each); `stray` lists the
stores `small_index[k] = v` or `large_index[k] = v` whose slot `k` is not an
entry of `index_buffer`; `writes` lists the calls of `fwrite`, in order. -/
structure MsgRun where
  fpi : Stream
  pre : Pre
  fpo : Nat
  index : List Nat
  stray : List (Nat × Nat)
  msg_num_check : Nat
  writes : List Written
deriving DecidableEq, Repr

/-- The casts `(uint16_t)index_position` and `(uint32_t)index_position`
(lines 987-990). -/
def castIndex (offsetid pos : Nat) : Nat :=
  if offsetid != 0 then pos % 65536 else pos % 4294967296

/-- The store of the current output position into slot `msg_num_check` of the
index buffer (lines 984-990). -/
def storeIndex (offsetid : Nat) (st : MsgRun) : MsgRun :=
  if st.msg_num_check < st.index.length then
    { st with index := st.index.set st.msg_num_check (castIndex offsetid st.fpo) }
  else
    { st with stray := st.stray ++ [(st.msg_num_check, castIndex offsetid st.fpo)] }

/-- The loop `while (!feof(fpi))` of `writemsgfile` (lines 976-1099).  Each
pass clears the buffer, stores the output position into the index, calls
`getline` twice (lines 993 and 994) and runs the loop body on what the buffer
then holds.  The test `!getline(..) & feof(fpi)` of line 994 needs the second
call to return 0, which `getline` never does (it returns -1 or the positive
number of bytes read). -/
def msgLoop (identifier : List Nat) (offsetid : Nat) : Nat → MsgRun → Except Stop MsgRun
  | 0, _ => .error .fuel
  | fuel + 1, st =>
    if st.fpi.eof then .ok st
    else
      let st1 := storeIndex offsetid st
      match getline [] st.fpi with
      | (_, buf1, fp1) =>
        match getline buf1 fp1 with
        | (ret2, buf2, fp2) =>
          if ret2 == 0 && fp2.eof then .ok { st1 with fpi := fp2 }
          else
            match lineMsg identifier st.pre buf2 with
            | .comment => msgLoop identifier offsetid fuel { st1 with fpi := fp2 }
            | .stop e => .error e
            | .emit newmsg bytes pre1 =>
              msgLoop identifier offsetid fuel
                { fpi := fp2
                  pre := pre1
                  fpo := st1.fpo + bytes.length
                  index := st1.index
                  stray := st1.stray
                  msg_num_check := if newmsg then st1.msg_num_check + 1 else st1.msg_num_check
                  writes := st1.writes ++ [{ pos := st1.fpo, newmsg := newmsg, bytes := bytes }] }

/-- The function `writemsgfile` up to the patch of the index region (lines
930-1105): the input is read from `msgstartline`, the output is written from
`msgoffset`, and after the loop the `numbermsg` entries of `index` are written
over the index region at `indexoffset`.  The result is the final loop state:
`index` is the index region of the finished file and each element of `writes`
gives bytes of the message area with their file offset.  The allocations of
the function are taken to succeed. -/
def writemsgfile (info : MESSAGEINFO) (pre : Pre) (input : List Nat) : Except Stop MsgRun :=
  msgLoop info.identifier info.offsetid (input.length + 2)
    { fpi := { rest := input.drop info.msgstartline, eof := false }
      pre := pre
      fpo := info.msgoffset
      index := List.replicate info.numbermsg 0
      stray := []
      msg_num_check := 0
      writes := [] }

/-- The binary compilation of `processparams` (lines 373-420): `setupheader`,
then `writemsgfile` on its result. -/
def compileMsg (fciSize : Nat) (pre : Pre) (input : List Nat) : Except Stop (MESSAGEINFO × MsgRun) :=
  match setupheader fciSize input with
  | .error e => .error e
  | .ok info =>
    match writemsgfile info pre input with
    | .error e => .error e
    | .ok run => .ok (info, run)

/-! ## The loop of the textual emitter: `writeasmfile` (lines 694-894) -/

/-- One processed line of the textual emitter: the value of `msg_num_check`
used for its label look-ups and for its `DB` heading (lines 826 and 845-847),
whether it was a new-message line, and the body the loop of lines 849-869
walks over. -/
structure AsmItem where
  num : Int
  newmsg : Bool
  body : List Nat
deriving DecidableEq, Repr

/-- The state of the loop of `writeasmfile`. -/
structure AsmRun where
  fpi : Stream
  pre : Pre
  msg_num_check : Int
  items : List AsmItem
deriving DecidableEq, Repr

/-- The loop `while (TRUE)` of `writeasmfile` (lines 721-883): one call of
`getline` per pass, the loop is left when the end-of-file indicator is set,
and `msg_num_check` is incremented at the end of the block of line 734, for
every line that is not a comment. -/
def asmLoop (identifier : List Nat) : Nat → AsmRun → Except Stop AsmRun
  | 0, _ => .error .fuel
  | fuel + 1, st =>
    match getline [] st.fpi with
    | (_, buf, fp1) =>
      if fp1.eof then .ok { st with fpi := fp1 }
      else
        match lineAsm identifier st.pre buf with
        | .comment => asmLoop identifier fuel { st with fpi := fp1 }
        | .stop e => .error e
        | .emit newmsg bytes pre1 =>
          asmLoop identifier fuel
            { fpi := fp1
              pre := pre1
              msg_num_check := st.msg_num_check + 1
              items := st.items ++ [{ num := st.msg_num_check, newmsg := newmsg, body := bytes }] }

/-- The function `writeasmfile` seen through the lines it processes: the input
is read from `msgstartline` and `msg_num_check` starts at `firstmsg`. -/
def writeasmfile (info : MESSAGEINFO) (pre : Pre) (input : List Nat) : Except Stop AsmRun :=
  match info.firstmsg with
  | none => .error .undefinedRead
  | some firstmsg =>
    asmLoop info.identifier (input.length + 1)
      { fpi := { rest := input.drop info.msgstartline, eof := false }
        pre := pre
        msg_num_check := firstmsg
        items := [] }

/-- The textual compilation of `processparams` (lines 373-403): `setupheader`,
then `writeasmfile` on its result. -/
def compileAsm (fciSize : Nat) (pre : Pre) (input : List Nat) : Except Stop (MESSAGEINFO × AsmRun) :=
  match setupheader fciSize input with
  | .error e => .error e
  | .ok info =>
    match writeasmfile info pre input with
    | .error e => .error e
    | .ok run => .ok (info, run)

/-! ## The text written by the textual emitter (lines 671-692 and 823-881) -/

/-- One entry of the list `msgids`: the label and the number stored with it by
`InsertItem` (lines 1282-1289 and 1321-1328).  The type `TAG` of the number is
declared in `dlist.h`, which is not part of the sources at hand; it is taken
as an integer that `==` compares by value with `num`. -/
structure MsgId where
  name : List Nat
  tag : Int
deriving DecidableEq, Repr

/-- The fields `num`, `type` and `skip` of `Param` (lines 662-669); the field
`f` is the output file, to which the text goes. -/
structure Param where
  num : Int
  type : Nat
  skip : Nat
deriving DecidableEq, Repr

/-- The bytes `%s` prints for a label: up to its first NUL. -/
def cstring (s : List Nat) : List Nat := s.takeWhile (fun b => b != 0)

/-- The text of line 679: TAB `PUBLIC TXT_` label CR LF `TXT_` label TAB
`LABEL` TAB `WORD` CR LF. -/
def publicText (label : List Nat) : List Nat :=
  [9, 80, 85, 66, 76, 73, 67, 32, 84, 88, 84, 95] ++ cstring label ++
  [13, 10, 84, 88, 84, 95] ++ cstring label ++
  [9, 76, 65, 66, 69, 76, 9, 87, 79, 82, 68, 13, 10]

/-- The text of line 682: TAB `DW` TAB `END_` label ` - TXT_` label ` - 2`
CR LF. -/
def lengthText (label : List Nat) : List Nat :=
  [9, 68, 87, 9, 69, 78, 68, 95] ++ cstring label ++
  [32, 45, 32, 84, 88, 84, 95] ++ cstring label ++ [32, 45, 32, 50, 13, 10]

/-- The text of line 687: `END_` label TAB `LABEL` TAB `WORD` CR LF TAB `DB`
TAB `0` LF CR. -/
def endText (label : List Nat) : List Nat :=
  [69, 78, 68, 95] ++ cstring label ++
  [9, 76, 65, 66, 69, 76, 9, 87, 79, 82, 68, 13, 10, 9, 68, 66, 9, 48, 10, 13]

/-- The function `handleitem` (lines 671-692) on one entry of the list: the
text it writes and the parameter block it leaves. -/
def handleitem (object : List Nat) (objectTag : Int) (p : Param) : List Nat × Param :=
  if p.num == objectTag then
    let out0 := if p.type == 0 then publicText object else []
    let r1 : List Nat × Param :=
      if p.type == 1 && p.skip == 0 then (lengthText object, { p with skip := 1 }) else ([], p)
    let r2 : List Nat × Param :=
      if r1.2.type == 2 && r1.2.skip == 0 then (endText object, { r1.2 with skip := 1 })
      else ([], r1.2)
    (out0 ++ r1.1 ++ r2.1, r2.2)
  else ([], p)

/-- Modelled from the spec: `ForEachItem` belongs to the list library
(`dlist.h` and its implementation), which is not part of the sources at hand;
only its calls are (lines 829, 838 and 875).  It is taken to call `handleitem`
on every entry of the list, from the first to the last, with the same
parameter block. -/
def ForEachItem : List MsgId → Param → List Nat × Param
  | [], p => ([], p)
  | m :: ms, p =>
    let r := handleitem m.name m.tag p
    let rest := ForEachItem ms r.2
    (r.1 ++ rest.1, rest.2)

/-- The decimal digits of a natural number, as character codes. -/
def decimalDigits (n : Nat) : List Nat := (Nat.toDigits 10 n).map Char.toNat

/-- The conversion `%04d` of `printf`: at least four characters, filled with
`0` after the sign. -/
def printf04d (n : Int) : List Nat :=
  if n < 0 then
    45 :: (List.replicate (3 - (decimalDigits n.natAbs).length) 48 ++ decimalDigits n.natAbs)
  else
    List.replicate (4 - (decimalDigits n.toNat).length) 48 ++ decimalDigits n.toNat

/-- The text of lines 845-847: TAB `DB` TAB quote, the three identifier
characters, the number as `%04d`, `: ` quote CR LF TAB `DB` TAB quote. -/
def headingText (identifier : List Nat) (num : Int) : List Nat :=
  [9, 68, 66, 9, 39] ++ [peek identifier 0, peek identifier 1, peek identifier 2] ++
  printf04d num ++ [58, 32, 39, 13, 10, 9, 68, 66, 9, 39]

/-- What one pass of the loop of lines 849-869 sends to the file, and what
line 870 sends after it. -/
inductive Piece where
  /-- The call `fputc(*readptr, fpo)` of line 865: one body byte, inside the
  quotes of the literal that is open. -/
  | char (c : Nat)
  /-- The text of line 853: quote CR LF TAB `DB` TAB quote. -/
  | split
  /-- The text of line 859: quote `, 0DH, 0AH` CR LF. -/
  | crlf
  /-- The text of line 870: quote CR LF. -/
  | close
deriving DecidableEq, Repr

/-- The loop of lines 849-869 followed by line 870, on the body bytes from
`readptr` to the first NUL and the current value of `outlen`; `size` is the
constant `ASM_MSG_SIZE` of `mkmsgf.h`. -/
def emitBody (size : Nat) : List Nat → Int → List Piece
  | [], outlen => if outlen != 0 then [.close] else []
  | 13 :: 10 :: rest, outlen =>
    if outlen > (size : Int) then .split :: .crlf :: emitBody size rest 0
    else .crlf :: emitBody size rest 0
  | c :: rest, outlen =>
    if outlen > (size : Int) then .split :: .char c :: emitBody size rest 1
    else .char c :: emitBody size rest (outlen + 1)

/-- The bytes of one piece. -/
def Piece.bytes : Piece → List Nat
  | .char c => [c]
  | .split => [39, 13, 10, 9, 68, 66, 9, 39]
  | .crlf => [39, 44, 32, 48, 68, 72, 44, 32, 48, 65, 72, 13, 10]
  | .close => [39, 13, 10]

/-- The bytes of a sequence of pieces. -/
def render (ps : List Piece) : List Nat := ps.flatMap Piece.bytes

/-- The text written for one processed line (lines 823-881): the labels of
the entries whose number is `num`, their length words, the heading, the
body, and the end labels.  `skip` is the value the field `skip` of the
parameter block holds at line 829, where it has not been assigned. -/
def itemText (size : Nat) (identifier : List Nat) (msgids : List MsgId) (skip : Nat)
    (it : AsmItem) : List Nat :=
  (ForEachItem msgids { num := it.num, type := 0, skip := skip }).1 ++
  (ForEachItem msgids { num := it.num, type := 1, skip := 0 }).1 ++
  headingText identifier it.num ++
  render (emitBody size it.body 1) ++
  (ForEachItem msgids { num := it.num, type := 2, skip := 0 }).1

/-- The output file of `writeasmfile`: the text of the processed lines, in
order. -/
def asmText (size : Nat) (identifier : List Nat) (msgids : List MsgId) (skip : Nat)
    (items : List AsmItem) : List Nat :=
  items.flatMap (itemText size identifier msgids skip)

/-! ## The header, the country block and the finished binary file -/

/-- The `width` bytes of a value stored with the low byte first. -/
def leBytes (width v : Nat) : List Nat :=
  (List.range width).map (fun k => v / 256 ^ k % 256)

/-- Writing bytes to a file from position `pos` on, as `fseek(f, pos,
SEEK_SET)` followed by `fwrite` or by calls of `fputc` does: bytes in the file
are replaced, bytes past its end make it longer. -/
def writeAt : List Nat → Nat → List Nat → List Nat
  | file, _, [] => file
  | file, pos, b :: bs => writeAt (poke file pos b) (pos + 1) bs

/-- The function `writecountryblock` (lines 1158-1190): `sizeof
(FILECOUNTRYINFO)` bytes of the structure are appended to the file.  The
layout of the structure is declared in `mkmsgf.h`, which is not part of the
sources at hand: `cntryheader` is the image of the structure after the
assignments of lines 1170-1183. -/
def writecountryblock (fciSize : Nat) (cntryheader : List Nat) (file : List Nat) : List Nat :=
  file ++ bytesAt cntryheader 0 fciSize

/-- The function `writeheader` (lines 1206-1257): the first `hdroffset` bytes
of the header structure, `indexsize` zero bytes, and the country block.  The
layout of `MSGHEADER` is declared in `mkmsgf.h`: `msgheader` is the image of
the structure after the assignments of lines 1224-1239.  The allocations are
taken to succeed, also the one of line 1244 when `indexsize` is 0. -/
def writeheader (fciSize : Nat) (msgheader cntryheader : List Nat) (info : MESSAGEINFO) :
    List Nat :=
  writecountryblock fciSize cntryheader
    (bytesAt msgheader 0 info.hdroffset ++ List.replicate info.indexsize 0)

/-- The bytes of `index_buffer` as lines 1104-1105 send them to the file:
each entry with its low byte first, 2 bytes wide when `offsetid` is not 0 and
4 bytes wide otherwise. -/
def indexBytes (offsetid : Nat) (index : List Nat) : List Nat :=
  index.flatMap (leBytes (if offsetid != 0 then 2 else 4))

/-- The extension of lines 1112-1144: the file is reopened, its length is
kept as a 32-bit value, the four bytes of `extfake` are appended, and the
value is written at offset 0x16 of the header with its low byte first (the
byte order of the machines the program is built for).  The calls of the C
library are taken to succeed and the stream opened at line 1135 to be written
out when the program ends. -/
def appendExtension (extfake : List Nat) (file : List Nat) : List Nat :=
  writeAt (writeAt file file.length (bytesAt extfake 0 4)) 0x16
    (leBytes 4 (file.length % 4294967296))

/-- The output file at the end of `writemsgfile` (lines 930-1155): the file
left by `writeheader`, the calls of `fwrite` of the loop at their positions,
the index written over the index region (lines 1103-1105), and the extension
when `fakeextend` is not 0. -/
def finishMsgFile (extfake : List Nat) (fakeextend : Nat) (info : MESSAGEINFO)
    (headerFile : List Nat) (run : MsgRun) : List Nat :=
  let body := run.writes.foldl (fun f w => writeAt f w.pos w.bytes) headerFile
  let indexed := writeAt body info.indexoffset (indexBytes info.offsetid run.index)
  if fakeextend != 0 then appendExtension extfake indexed else indexed

/-! ## The command line: `processparams` (lines 180-427) -/

/-- The ways the program ends without an output file of a finished
compilation. -/
inductive Halt where
  /-- A call of `exit` with this status. -/
  | exit (status : Int)
  /-- A stop of one of the compilation functions. -/
  | stop (s : Stop)
  /-- The call `atoi(NULL)`: `strtok` found no token. -/
  | nullToken
deriving DecidableEq, Repr

/-- The function `ProgError` (lines 1559-1575): it returns when `exnum` is
negative and calls `exit(exnum)` otherwise. -/
def ProgError (exnum : Int) : Except Halt Unit :=
  if exnum < 0 then .ok () else .error (.exit exnum)

/-- The call `strtok(s, ",")` on the bytes from the current position to the
end of the string: the token, and the bytes after the comma that ended it. -/
def strtokComma (s : List Nat) : Option (List Nat × List Nat) :=
  match s.dropWhile (fun b => b == 44) with
  | [] => none
  | t => some (t.takeWhile (fun b => b != 44), (t.dropWhile (fun b => b != 44)).drop 1)

/-- The language fields of `MESSAGEINFO`. -/
structure Lang where
  langfamilyID : Int
  langversionID : Int
  langfamilyIDcode : Nat
deriving DecidableEq, Repr

/-- The loop of lines 1440-1445 over the entries 1 to 34 of `langinfo`: the
last entry whose family and sub id are the given ones, 0 when there is
none. -/
def findLang (langinfo : Nat → Int × Int) (family sub : Int) : Nat :=
  (List.range 34).foldl
    (fun code k =>
      if (langinfo (k + 1)).1 == family && (langinfo (k + 1)).2 == sub then k + 1 else code) 0

/-- The function `DecodeLangOpt` (lines 1420-1451): the value it returns and
the language fields it leaves, or nothing when it passes a null pointer to
`atoi`.  The table `langinfo` (family and sub id of each entry) and the two
error codes come from headers that are not part of the sources at hand. -/
def DecodeLangOpt (langOutRange subidOutRange : Int) (langinfo : Nat → Int × Int)
    (dargs : List Nat) : Option (Int × Lang) :=
  let s := cstring dargs
  let ids : Option (Int × Int) :=
    if s.contains 44 then
      match strtokComma s with
      | none => none
      | some (family, rest) =>
        match strtokComma rest with
        | none => none
        | some (sub, _) => some (atoi family, atoi sub)
    else some (atoi s, 1)
  match ids with
  | none => none
  | some (family, sub) =>
    if family < 1 || family > 34 then
      some (langOutRange, { langfamilyID := family, langversionID := sub, langfamilyIDcode := 0 })
    else if findLang langinfo family sub == 0 then
      some (subidOutRange, { langfamilyID := family, langversionID := sub, langfamilyIDcode := 0 })
    else
      some (1, { langfamilyID := family, langversionID := sub,
                 langfamilyIDcode := findLang langinfo family sub })

/-- One option of the command line, as `getopt` returns it (line 239). -/
inductive Opt where
  /-- The option `d` or `D` with its argument. -/
  | D (arg : List Nat)
  /-- The option `e` or `E`. -/
  | E
  /-- The option `p` or `P` with its argument. -/
  | P (arg : List Nat)
  /-- The option `l` or `L` with its argument. -/
  | L (arg : List Nat)
  /-- The option `v` or `V`. -/
  | V
  /-- The option `h` or `H`, and `?`, which `getopt` returns for an option it
  does not know. -/
  | H
  /-- The option `a` or `A`. -/
  | A
  /-- The option `i` or `I` with its argument. -/
  | I (arg : List Nat)
  /-- The option `c` or `C`. -/
  | C
  /-- The option `q` or `Q`. -/
  | Q
deriving DecidableEq, Repr

/-- The variables the option loop of `processparams` sets (lines 194-204 and
236): `codepages` holds the first `codepagesnumber` elements of the array. -/
structure Options where
  fakeextend : Nat
  codepages : List Int
  langfamilyID : Int
  langversionID : Int
  proclang : Nat
  asm_format_output : Nat
  c_format_output : Nat
  includePath : Option (List Nat)
deriving DecidableEq, Repr

/-- The values of lines 194-204 and 236. -/
def Options.start : Options :=
  { fakeextend := 0, codepages := [], langfamilyID := 0, langversionID := 0, proclang := 0,
    asm_format_output := 0, c_format_output := 0, includePath := none }

/-- The fields of `FILECOUNTRYINFO` that `writecountryblock` assigns from
`MESSAGEINFO` (lines 1170-1177).  `codepages` holds the elements the loop of
lines 1176-1177 assigns, in order; the buffer comes from `calloc`, so the
other elements of the array are 0.  The file name and the filler of lines
1179-1183 do not depend on the options and are left to the layout. -/
structure FILECOUNTRYINFO where
  bytesperchar : Nat
  country : Nat
  langfamilyID : Int
  langversionID : Int
  codepagesnumber : Nat
  codepages : List Int
deriving DecidableEq, Repr

/-- The assignments of lines 1170-1177 of `writecountryblock`: `bytesperchar`
is 1 (line 199), `country` is 0 (line 624), the language fields and the
codepages are those the option loop left. -/
def countryFields (o : Options) : FILECOUNTRYINFO :=
  { bytesperchar := 1
    country := 0
    langfamilyID := o.langfamilyID
    langversionID := o.langversionID
    codepagesnumber := o.codepages.length
    codepages := (List.range o.codepages.length).map (fun x => o.codepages.getD x 0) }

/-- What the headers and the surroundings of a run supply: the size of
`FILECOUNTRYINFO`, `ASM_MSG_SIZE`, the bytes of `extfake`, the table
`langinfo`, three error codes, the images of the two structures written by
`writeheader` (given the fields they are filled from), the list `msgids` left
by `parseincludes`, the bytes below the read buffer and the value found in the
unassigned field `skip`. -/
structure Env where
  fciSize : Nat
  asmMsgSize : Nat
  extfake : List Nat
  langinfo : Nat → Int × Int
  getoptError : Int
  langOutRange : Int
  subidOutRange : Int
  msgheader : MESSAGEINFO → List Nat
  cntryheader : FILECOUNTRYINFO → List Nat
  msgids : List MsgId
  pre : Pre
  skip : Nat

/-- One pass of the `switch` of lines 241-310. -/
def handleOption (env : Env) (o : Options) : Opt → Except Halt Options
  | .D _ => do
    ProgError env.getoptError
    pure o
  | .E => pure { o with fakeextend := 1 }
  | .P arg =>
    if o.codepages.length < 16 then pure { o with codepages := o.codepages ++ [atoi arg] }
    else do
      ProgError env.getoptError
      pure o
  | .L arg => do
    if o.proclang != 0 then ProgError env.getoptError
    match DecodeLangOpt env.langOutRange env.subidOutRange env.langinfo arg with
    | none => throw .nullToken
    | some (ret, lang) =>
      pure { o with langfamilyID := lang.langfamilyID, langversionID := lang.langversionID,
                    proclang := (ret % 256).toNat }
  | .V => pure o
  | .H => throw (.exit 0)
  | .A => pure { o with asm_format_output := o.asm_format_output + 1 }
  | .I arg => pure { o with includePath := some arg }
  | .C => pure { o with c_format_output := o.c_format_output + 1 }
  | .Q => pure o

/-- The option loop of lines 239-311. -/
def scanOptions (env : Env) : List Opt → Options → Except Halt Options
  | [], o => pure o
  | opt :: opts, o =>
    match handleOption env o opt with
    | .error e => .error e
    | .ok o1 => scanOptions env opts o1

/-- The output file of a finished compilation. -/
inductive Artifact where
  /-- The binary message file. -/
  | binary (bytes : List Nat)
  /-- The assembler source. -/
  | text (bytes : List Nat)
deriving DecidableEq, Repr

/-- The compilation of lines 373-421 with the options set: `setupheader`,
then the textual emitter when `asm_format_output` or `c_format_output` is not
0, and `writeheader` followed by `writemsgfile` otherwise. -/
def compile (env : Env) (o : Options) (input : List Nat) : Except Halt Artifact :=
  match setupheader env.fciSize input with
  | .error e => .error (.stop e)
  | .ok info =>
    if o.asm_format_output != 0 || o.c_format_output != 0 then
      match writeasmfile info env.pre input with
      | .error e => .error (.stop e)
      | .ok run =>
        .ok (.text (asmText env.asmMsgSize info.identifier env.msgids env.skip run.items))
    else
      match writemsgfile info env.pre input with
      | .error e => .error (.stop e)
      | .ok run =>
        .ok (.binary (finishMsgFile env.extfake o.fakeextend info
          (writeheader env.fciSize (env.msgheader info)
            (env.cntryheader (countryFields o)) info) run))

/-- The function `processparams` (lines 180-427) on the options of the
command line and the bytes of the input file: the option loop, then the
compilation.  The file names are taken to be in order. -/
def processparams (env : Env) (opts : List Opt) (input : List Nat) : Except Halt Artifact :=
  match scanOptions env opts Options.start with
  | .error e => .error e
  | .ok o => compile env o input

/-! ## Definitions used to state the properties -/

/-- The lines of a file, each with its terminator; the last line may have
none. -/
def splitLines : List Nat → List (List Nat)
  | [] => []
  | c :: cs =>
    match splitLines cs with
    | [] => [[c]]
    | l :: ls => if c = 10 then [c] :: l :: ls else (c :: l) :: ls

/-- Follows the words of the specification (sections 4.1 and 8): the number of
lines that do not begin with `;` and whose first 3 characters equal the
component identifier, among the lines that follow the identifier line. -/
def specMessageCount (identifier : List Nat) (linesAfterIdentifier : List (List Nat)) : Nat :=
  (linesAfterIdentifier.filter (fun l => l.headD 0 != 59 && l.take 3 == identifier)).length

/-- The kinds of line the loop bodies distinguish (lines 734-784 and
999-1056). -/
inductive Kind where
  /-- The line starts with `;`. -/
  | comment
  /-- The line starts with the identifier and column 7 is none of E, H, I, P, W, `?`. -/
  | badType
  /-- The line starts with the identifier and column 7 is `?`. -/
  | question
  /-- The line starts with the identifier, column 7 is one of E, H, I, P, W and
  column 9 is a space. -/
  | spaced
  /-- The line starts with the identifier, column 7 is one of E, H, I, P, W and
  column 9 is not a space. -/
  | unspaced
  /-- Any other line. -/
  | continuation
deriving DecidableEq, Repr

/-- The kind of the line held by the read buffer, by the tests of the source
in their order. -/
def kindOf (identifier : List Nat) (read_buffer : List Nat) : Kind :=
  if peek read_buffer 0 != 59 then
    if strncmpEq 3 identifier read_buffer then
      if badTypeLetter (peek read_buffer 7) then .badType
      else if peek read_buffer 7 == 63 then .question
      else if peek read_buffer 9 != 32 then .unspaced
      else .spaced
    else .continuation
  else .comment

/-- Agreement of the outcome of the binary loop body with the outcome of the
textual loop body on one line: both skip, both stop the same way, or both
emit; on a new-message line the binary bytes are the type letter `t` followed
by the textual body, on a continuation line they are the textual body. -/
def Agree (t : Nat) : Outcome → Outcome → Prop
  | .comment, .comment => True
  | .stop e1, .stop e2 => e1 = e2
  | .emit true b1 p1, .emit true b2 p2 => b1 = t :: b2 ∧ p1 = p2
  | .emit false b1 p1, .emit false b2 p2 => b1 = b2 ∧ p1 = p2
  | _, _ => False

/-- The calls of `fwrite` made for new-message lines, in order: each starts
the body of one message. -/
def bodiesOf (writes : List Written) : List Written := writes.filter (fun w => w.newmsg)

/-- Invariant of the loop of `writemsgfile`: `msg_num_check` counts the
new-message lines handled so far, and every one of them whose slot is an entry
of the index buffer has its output position (after the cast) in that entry. -/
def IndexOk (offsetid : Nat) (index : List Nat) (msg_num_check : Nat)
    (writes : List Written) : Prop :=
  msg_num_check = (bodiesOf writes).length ∧
  ∀ j w, (bodiesOf writes)[j]? = some w → j < index.length →
    index[j]? = some (castIndex offsetid w.pos)

/-- The input file `ABC` LF `;c` LF `ABC0001E: a` CR LF `ABC0002E: bc`: a
comment, a message, and a last message line without terminator. -/
def inputOpenEnd : List Nat :=
  [65, 66, 67, 10, 59, 99, 10,
   65, 66, 67, 48, 48, 48, 49, 69, 58, 32, 97, 13, 10,
   65, 66, 67, 48, 48, 48, 50, 69, 58, 32, 98, 99]

/-- The input file `ABC` LF `ABC0001E: a` CR LF `ABC0002E: b`: two message
lines, the last one without terminator. -/
def inputLastOpen : List Nat :=
  [65, 66, 67, 10,
   65, 66, 67, 48, 48, 48, 49, 69, 58, 32, 97, 13, 10,
   65, 66, 67, 48, 48, 48, 50, 69, 58, 32, 98]

/-- The input file `ABC` LF `ABC0001E: a` CR LF `ABC0002E: b` CR LF: two
message lines, both terminated. -/
def inputTwoMessages : List Nat :=
  [65, 66, 67, 10,
   65, 66, 67, 48, 48, 48, 49, 69, 58, 32, 97, 13, 10,
   65, 66, 67, 48, 48, 48, 50, 69, 58, 32, 98, 13, 10]

/-- The input file `ABC` LF `ABC0001E: a` CR LF `more` CR LF `ABC0002E: b`
CR LF: a message with one continuation line, then a second message. -/
def inputContinued : List Nat :=
  [65, 66, 67, 10,
   65, 66, 67, 48, 48, 48, 49, 69, 58, 32, 97, 13, 10,
   109, 111, 114, 101, 13, 10,
   65, 66, 67, 48, 48, 48, 50, 69, 58, 32, 98, 13, 10]

/-- The input file of the scenario of the specification: `ABC` LF
`ABC0001E: Hello world%0` CR LF. -/
def inputHello : List Nat :=
  [65, 66, 67, 10,
   65, 66, 67, 48, 48, 48, 49, 69, 58, 32,
   72, 101, 108, 108, 111, 32, 119, 111, 114, 108, 100, 37, 48, 13, 10]

/-- The line `ABC0001E: Hi%0` CR LF. -/
def lineHiPlaceholder : List Nat :=
  [65, 66, 67, 48, 48, 48, 49, 69, 58, 32, 72, 105, 37, 48, 13, 10]

/-- The line `ABC0001E: Hi` LF, ended by a bare LF. -/
def lineHiBareLf : List Nat :=
  [65, 66, 67, 48, 48, 48, 49, 69, 58, 32, 72, 105, 10]

/-- The line `ABC0001E: Hi` without any terminator. -/
def lineHiOpen : List Nat :=
  [65, 66, 67, 48, 48, 48, 49, 69, 58, 32, 72, 105]

/-- The line `ABC0001E:Hello` CR LF, without the space of column 9. -/
def lineNoSpace : List Nat :=
  [65, 66, 67, 48, 48, 48, 49, 69, 58, 72, 101, 108, 108, 111, 13, 10]

/-- The line `ABC0001?: anything` CR LF. -/
def lineQuestion : List Nat :=
  [65, 66, 67, 48, 48, 48, 49, 63, 58, 32, 97, 110, 121, 116, 104, 105, 110, 103, 13, 10]

/-- The line `ABC0001E: Hello world%0` CR LF of the scenario. -/
def lineHello : List Nat :=
  [65, 66, 67, 48, 48, 48, 49, 69, 58, 32,
   72, 101, 108, 108, 111, 32, 119, 111, 114, 108, 100, 37, 48, 13, 10]

/-- Four zero bytes below the read buffer. -/
def preZero : Pre := { b4 := 0, b3 := 0, b2 := 0, b1 := 0 }

/-- The first line of a file that does not begin with `;`, with its
terminator. -/
def firstNonComment (input : List Nat) : Option (List Nat) :=
  (splitLines input).find? (fun l => l.headD 0 != 59)

/-- The input file `AB` LF `AB0001E: x` CR LF: the first line has two
characters. -/
def inputShortId : List Nat :=
  [65, 66, 10, 65, 66, 48, 48, 48, 49, 69, 58, 32, 120, 13, 10]

/-- The input file `ABCD` LF `ABCD001E: x` CR LF: the first line has four
characters. -/
def inputLongId : List Nat :=
  [65, 66, 67, 68, 10, 65, 66, 67, 68, 48, 48, 49, 69, 58, 32, 120, 13, 10]

/-- The input file `ABC` LF `ABC0007E: x`: the only message line has no
terminator. -/
def inputFirstOpen : List Nat :=
  [65, 66, 67, 10, 65, 66, 67, 48, 48, 48, 55, 69, 58, 32, 120]

/-- The input file `ABC` LF `ABC0001X: a` CR LF: a message line of type `X`. -/
def inputBadType : List Nat :=
  [65, 66, 67, 10, 65, 66, 67, 48, 48, 48, 49, 88, 58, 32, 97, 13, 10]

/-- The line `ABC0001X: a` CR LF. -/
def lineBadType : List Nat :=
  [65, 66, 67, 48, 48, 48, 49, 88, 58, 32, 97, 13, 10]

/-- A header image used in evaluations: 31 bytes of value 7. -/
def headerSample : List Nat := List.replicate 31 7

/-- A country block image used in evaluations: 302 bytes of value 9. -/
def countrySample : List Nat := List.replicate 302 9

/-- The numbers of body bytes between the quotes of the successive string
literals of a body: a literal is ended by the text of line 853, of line 859 or
of line 870; `n` counts the bytes of the literal that is open. -/
def chunkSizes : List Piece → Nat → List Nat
  | [], n => if n = 0 then [] else [n]
  | .char _ :: ps, n => chunkSizes ps (n + 1)
  | _ :: ps, n => n :: chunkSizes ps 0

/-- The input file `ABC` LF `ABC0001E: Hi` LF: one message line, ended by a
bare LF. -/
def inputBareLf : List Nat :=
  [65, 66, 67, 10, 65, 66, 67, 48, 48, 48, 49, 69, 58, 32, 72, 105, 10]

/-- The input file `ABC` LF `ABC0001E: aaaaaaa` CR LF: one message line with a
text of seven characters. -/
def inputSevenChars : List Nat :=
  [65, 66, 67, 10, 65, 66, 67, 48, 48, 48, 49, 69, 58, 32,
   97, 97, 97, 97, 97, 97, 97, 13, 10]

/-- An environment used in evaluations: a country block of 302 bytes,
`ASM_MSG_SIZE` 60, a language table whose only entry is family 1 with sub id
1, the error codes 1, 2 and 3, an empty list `msgids`. -/
def envSample : Env :=
  { fciSize := 302
    asmMsgSize := 60
    extfake := [1, 2, 3, 4]
    langinfo := fun k => if k = 1 then (1, 1) else (0, 0)
    getoptError := 1
    langOutRange := 2
    subidOutRange := 3
    msgheader := fun _ => headerSample
    cntryheader := fun _ => countrySample
    msgids := []
    pre := preZero
    skip := 0 }

/-- The option argument `99,1`. -/
def argFamily99 : List Nat := [57, 57, 44, 49]

/-- The option argument `1,7`. -/
def argSub7 : List Nat := [49, 44, 55]

/-- The offsets from `readptr`, among `current_msg_len - 1` and
`current_msg_len - 2`, at which the second check of `writemsgfile` (lines
1065-1068) reads and stores, in the order of the accesses; `&&` stops at the
first test that fails. -/
def touchedLineEndMsg (m : List Nat) (readptr len : Nat) : List Int :=
  if len != 0 then
    if peek m (readptr + len - 1) != 10 then
      if peek m (readptr + len - 2) != 13 then
        [(len : Int) - 1, (len : Int) - 2, (len : Int) - 1]
      else [(len : Int) - 1, (len : Int) - 2]
    else [(len : Int) - 1]
  else []

/-- The same offsets for the second check of `writeasmfile` (lines 793-796),
which does not test `current_msg_len`. -/
def touchedLineEndAsm (m : List Nat) (readptr len : Nat) : List Int :=
  if peek m (readptr + len - 1) != 10 then
    if peek m (readptr + len - 2) != 13 then
      [(len : Int) - 1, (len : Int) - 2, (len : Int) - 1]
    else [(len : Int) - 1, (len : Int) - 2]
  else [(len : Int) - 1]

/-- The offsets from `readptr` at which the third check of both emitters
(lines 811-817 and 1083-1089) reads and stores, in the order of the
accesses. -/
def touchedPlaceholder (m : List Nat) (readptr len : Nat) : List Int :=
  if peek m (readptr + len - 3) == 48 then
    if peek m (readptr + len - 4) == 37 then
      [(len : Int) - 3, (len : Int) - 4, (len : Int) - 1, (len : Int) - 2, (len : Int) - 3,
       (len : Int) - 4]
    else [(len : Int) - 3, (len : Int) - 4]
  else [(len : Int) - 3]

/-- The offsets from `readptr` that the two fixups of `writemsgfile` touch for
one line (lines 1058-1093); an offset below 0 lies before the body slice. -/
def touchedMsg (identifier : List Nat) (pre : Pre) (read_buffer : List Nat) : List Int :=
  match startMsg identifier (image pre read_buffer) with
  | .run _ m readptr =>
    touchedLineEndMsg m readptr (strlen m readptr) ++
    touchedPlaceholder (fixLineEndMsg m readptr (strlen m readptr)).1 readptr
      (fixLineEndMsg m readptr (strlen m readptr)).2
  | _ => []

/-- The offsets from `readptr` that the two fixups of `writeasmfile` touch for
one line (lines 786-821). -/
def touchedAsm (identifier : List Nat) (pre : Pre) (read_buffer : List Nat) : List Int :=
  match startAsm identifier (image pre read_buffer) with
  | .run _ m readptr =>
    touchedLineEndAsm m readptr (strlen m readptr) ++
    touchedPlaceholder (fixLineEndAsm m readptr (strlen m readptr)).1 readptr
      (fixLineEndAsm m readptr (strlen m readptr)).2
  | _ => []

/-- The input file `ABC` LF `;c` LF `ABC0001E: a` CR LF: a comment and one
message, every line terminated. -/
def inputCommentMessage : List Nat :=
  [65, 66, 67, 10, 59, 99, 10, 65, 66, 67, 48, 48, 48, 49, 69, 58, 32, 97, 13, 10]

/-- The input file `ABC` LF `ABC0001E: a` CR LF `0` CR LF: a message and a
continuation line that holds the character `0`. -/
def inputShortContinuation : List Nat :=
  [65, 66, 67, 10, 65, 66, 67, 48, 48, 48, 49, 69, 58, 32, 97, 13, 10, 48, 13, 10]

/-- Four bytes below the read buffer of which the nearest is `%`. -/
def prePercent : Pre := { b4 := 0, b3 := 0, b2 := 0, b1 := 37 }

/-- The calls of `fwrite` of a run lie one after the other from `start` on
and end at or before the output position `fpo`; those made for a new-message
line are not empty. -/
def Laid (start : Nat) (writes : List Written) (fpo : Nat) : Prop :=
  List.Pairwise (fun w w1 => w.pos + w.bytes.length ≤ w1.pos) writes ∧
  (∀ w, w ∈ writes →
    start ≤ w.pos ∧ w.pos + w.bytes.length ≤ fpo ∧ (w.newmsg = true → w.bytes ≠ [])) ∧
  start ≤ fpo

/-- The input file `ABC` LF `;c` LF `foo` CR LF `;c` LF `ABC0001E: a` CR LF:
a text line stands before the first message line. -/
def inputOrphan : List Nat :=
  [65, 66, 67, 10, 59, 99, 10, 102, 111, 111, 13, 10, 59, 99, 10,
   65, 66, 67, 48, 48, 48, 49, 69, 58, 32, 97, 13, 10]

/-- The arguments of the codepage options of a command line, in order. -/
def codepageArgs : List Opt → List (List Nat)
  | [] => []
  | .P arg :: opts => arg :: codepageArgs opts
  | _ :: opts => codepageArgs opts

/-- The option arguments `437` and `850`. -/
def argsTwoCodepages : List Opt := [.P [52, 51, 55], .P [56, 53, 48]]

/-- The input file `ABC` LF `;c` LF `ABC0001E: a` CR LF `;c` LF
`ABC0002E: b` CR LF: two messages, each after a comment line. -/
def inputTwoWritten : List Nat :=
  [65, 66, 67, 10,
   59, 99, 10,
   65, 66, 67, 48, 48, 48, 49, 69, 58, 32, 97, 13, 10,
   59, 99, 10,
   65, 66, 67, 48, 48, 48, 50, 69, 58, 32, 98, 13, 10]

/-- The input file `ABC` LF `;c` LF `ABC0001E` LF: a message line that ends
right after its type letter. -/
def inputLetterOnly : List Nat :=
  [65, 66, 67, 10,
   59, 99, 10,
   65, 66, 67, 48, 48, 48, 49, 69, 10]

/-! ## Auxiliary lemmas on memory images and C strings -/

theorem peek_poke (m : List Nat) (i v j : Nat) :
    peek (poke m i v) j = if j = i then v else peek m j := by
  unfold peek poke
  by_cases h : i < m.length
  · simp only [h, if_true, List.getD_eq_getElem?_getD, List.getElem?_set]
    by_cases hj : j = i
    · subst hj; simp [h]
    · have : ¬ i = j := fun e => hj e.symm
      simp [hj, this]
  · simp only [h, if_false, List.getD_eq_getElem?_getD]
    have hle : m.length ≤ i := Nat.le_of_not_lt h
    by_cases hj : j = i
    · subst hj
      simp [List.getElem?_append_right, hle]
    · simp only [hj, if_false]
      by_cases h1 : j < m.length
      · rw [List.append_assoc, List.getElem?_append_left h1]
      · have h2 : m.length ≤ j := Nat.le_of_not_lt h1
        rw [List.append_assoc, List.getElem?_append_right h2, List.getElem?_eq_none h2]
        simp only [Option.getD_none]
        by_cases h3 : j - m.length < i - m.length
        · rw [List.getElem?_append_left (by simpa using h3)]
          simp [List.getElem?_replicate, h3]
        · have h4 : i - m.length ≤ j - m.length := Nat.le_of_not_lt h3
          rw [List.getElem?_append_right (by simpa using h4)]
          have : j - m.length - (List.replicate (i - m.length) 0).length ≠ 0 := by
            simp; omega
          rcases Nat.exists_eq_succ_of_ne_zero this with ⟨k, hk⟩
          rw [hk]; simp

theorem peek_nil (i : Nat) : peek [] i = 0 := by simp [peek]

theorem peek_cons_zero (a : Nat) (m : List Nat) : peek (a :: m) 0 = a := by simp [peek]

theorem peek_cons_succ (a : Nat) (m : List Nat) (i : Nat) : peek (a :: m) (i + 1) = peek m i := by
  simp [peek]

theorem peek_drop (m : List Nat) (p k : Nat) : peek (m.drop p) k = peek m (p + k) := by
  simp [peek, List.getD_eq_getElem?_getD, List.getElem?_drop]

theorem peek_append_left (a b : List Nat) (i : Nat) (h : i < a.length) :
    peek (a ++ b) i = peek a i := by
  simp [peek, List.getD_eq_getElem?_getD, List.getElem?_append_left h]

theorem peek_append_right (a b : List Nat) (i : Nat) :
    peek (a ++ b) (a.length + i) = peek b i := by
  simp [peek, List.getD_eq_getElem?_getD, List.getElem?_append_right]

/-- The bytes of the leading run of a list, up to its first zero byte, are not
zero. -/
theorem run_nonzero (d : List Nat) :
    ∀ k, k < (d.takeWhile (fun b => b != 0)).length → peek d k ≠ 0 := by
  induction d with
  | nil => intro k h; simp at h
  | cons a d ih =>
    intro k h
    by_cases ha : a = 0
    · simp [List.takeWhile, ha] at h
    · have hs : (List.takeWhile (fun b => b != 0) (a :: d)).length
          = (List.takeWhile (fun b => b != 0) d).length + 1 := by
        rw [List.takeWhile_cons]
        have : (a != 0) = true := by simpa using ha
        simp [this]
      cases k with
      | zero => simpa [peek_cons_zero] using ha
      | succ k =>
        rw [peek_cons_succ]
        apply ih
        omega

theorem run_stops (d : List Nat) :
    peek d (d.takeWhile (fun b => b != 0)).length = 0 := by
  induction d with
  | nil => simp [peek]
  | cons a d ih =>
    by_cases ha : a = 0
    · simp [List.takeWhile, ha, peek]
    · have hs : (List.takeWhile (fun b => b != 0) (a :: d)).length
          = (List.takeWhile (fun b => b != 0) d).length + 1 := by
        rw [List.takeWhile_cons]
        have : (a != 0) = true := by simpa using ha
        simp [this]
      rw [hs, peek_cons_succ]; exact ih

theorem strlen_nonzero (m : List Nat) (p k : Nat) (h : k < strlen m p) : peek m (p + k) ≠ 0 := by
  rw [← peek_drop]; exact run_nonzero _ k h

theorem strlen_stops (m : List Nat) (p : Nat) : peek m (p + strlen m p) = 0 := by
  rw [← peek_drop]; exact run_stops _

theorem strlen_eq (m : List Nat) (p n : Nat) (h1 : ∀ k, k < n → peek m (p + k) ≠ 0)
    (h2 : peek m (p + n) = 0) : strlen m p = n := by
  rcases Nat.lt_trichotomy (strlen m p) n with h | h | h
  · exact absurd (strlen_stops m p) (h1 _ h)
  · exact h
  · exact absurd h2 (strlen_nonzero m p n h)

theorem bytesAt_length (m : List Nat) (p n : Nat) : (bytesAt m p n).length = n := by
  simp [bytesAt]

theorem bytesAt_congr (m m' : List Nat) (p p' n : Nat)
    (h : ∀ k, k < n → peek m (p + k) = peek m' (p' + k)) : bytesAt m p n = bytesAt m' p' n := by
  unfold bytesAt
  apply List.map_congr_left
  intro k hk
  exact h k (List.mem_range.mp hk)

theorem bytesAt_succ (m : List Nat) (p n : Nat) :
    bytesAt m p (n + 1) = peek m p :: bytesAt m (p + 1) n := by
  unfold bytesAt
  rw [List.range_succ_eq_map]
  simp [List.map_map, Function.comp_def, Nat.add_assoc, Nat.add_comm 1]

theorem bytesAt_zero (m : List Nat) (p : Nat) : bytesAt m p 0 = [] := by simp [bytesAt]

theorem bytesAt_list (m l : List Nat) (p : Nat)
    (h : ∀ k, k < l.length → peek m (p + k) = peek l k) : bytesAt m p l.length = l := by
  induction l generalizing p with
  | nil => simp [bytesAt]
  | cons a l ih =>
    rw [List.length_cons, bytesAt_succ]
    have h0 := h 0 (by simp)
    simp only [Nat.add_zero, peek_cons_zero] at h0
    rw [h0, ih (p + 1)]
    intro k hk
    have := h (k + 1) (by simp; omega)
    rw [peek_cons_succ] at this
    rw [← this]; congr 1; omega

theorem peek_bytesAt (m : List Nat) (p n k : Nat) (h : k < n) :
    peek (bytesAt m p n) k = peek m (p + k) := by
  simp [peek, bytesAt, List.getD_eq_getElem?_getD, List.getElem?_map, List.getElem?_range h]

theorem peek_of_bytesAt_eq (m l : List Nat) (p n k : Nat) (h : bytesAt m p n = l) (hk : k < n) :
    peek m (p + k) = peek l k := by
  rw [← h, peek_bytesAt m p n k hk]

theorem fixLineEndMsg_of_lf (m : List Nat) (rp len : Nat) (h : peek m (rp + len - 1) = 10) :
    fixLineEndMsg m rp len = (m, len) := by
  simp [fixLineEndMsg, h]

theorem fixLineEndAsm_of_lf (m : List Nat) (rp len : Nat) (h : peek m (rp + len - 1) = 10) :
    fixLineEndAsm m rp len = (m, len) := by
  simp [fixLineEndAsm, h]

/-- The image after the four stores of the placeholder fixup. -/
theorem peek_cut (m : List Nat) (q j : Nat) :
    peek (poke (poke (poke (poke m (q + 3) 0) (q + 2) 0) (q + 1) 0) q 0) j
      = if q ≤ j ∧ j < q + 4 then 0 else peek m j := by
  simp only [peek_poke]
  by_cases h0 : j = q
  · simp [h0]
  by_cases h1 : j = q + 1
  · simp [h1]
  by_cases h2 : j = q + 2
  · simp [h2]
  by_cases h3 : j = q + 3
  · simp [h3]
  have : ¬ (q ≤ j ∧ j < q + 4) := by omega
  simp [h0, h1, h2, h3, this]

theorem fixPlaceholder_fires (m : List Nat) (rp n : Nat)
    (hn : strlen m rp = n + 4)
    (h0 : peek m (rp + n) = 37) (h1 : peek m (rp + n + 1) = 48) :
    (fixPlaceholder m rp (n + 4)).2 = n ∧
    (∀ j, peek (fixPlaceholder m rp (n + 4)).1 j
        = if rp + n ≤ j ∧ j < rp + n + 4 then 0 else peek m j) := by
  have e1 : rp + (n + 4) - 1 = rp + n + 3 := by omega
  have e2 : rp + (n + 4) - 2 = rp + n + 2 := by omega
  have e3 : rp + (n + 4) - 3 = rp + n + 1 := by omega
  have e4 : rp + (n + 4) - 4 = rp + n := by omega
  have hp : ∀ j, peek (poke (poke (poke (poke m (rp + n + 3) 0) (rp + n + 2) 0) (rp + n + 1) 0)
      (rp + n) 0) j = if rp + n ≤ j ∧ j < rp + n + 4 then 0 else peek m j := peek_cut m (rp + n)
  unfold fixPlaceholder
  simp only [e1, e2, e3, e4, h0, h1, beq_self_eq_true, Bool.and_self, if_true]
  refine ⟨?_, hp⟩
  apply strlen_eq
  · intro k hk
    rw [hp]
    have : ¬ (rp + n ≤ rp + k ∧ rp + k < rp + n + 4) := by omega
    simp only [this, if_false]
    exact strlen_nonzero m rp k (by omega)
  · rw [hp]; simp

theorem peek_image_buf (pre : Pre) (buf : List Nat) (i : Nat) :
    peek (image pre buf) (4 + i) = peek buf i := by
  have : 4 + i = i + 1 + 1 + 1 + 1 := by omega
  rw [this]
  simp [image, peek_cons_succ]

theorem drop_image (pre : Pre) (buf : List Nat) : (image pre buf).drop 4 = buf := by
  simp [image]

theorem preOf_image (pre : Pre) (buf : List Nat) : preOf (image pre buf) = pre := by
  cases pre
  simp [preOf, image, peek]

theorem preOf_congr (m m' : List Nat) (h : ∀ j, j ≤ 3 → peek m j = peek m' j) :
    preOf m = preOf m' := by
  simp [preOf, h 0 (by omega), h 1 (by omega), h 2 (by omega), h 3 (by omega)]

theorem fixLineEndAsm_fire (m : List Nat) (rp len q q2 : Nat)
    (e1 : rp + len - 1 = q) (e2 : rp + len - 2 = q2) (e0 : rp + len = q + 1)
    (h1 : peek m q ≠ 10) (h2 : peek m q2 ≠ 13) :
    fixLineEndAsm m rp len =
      (poke (poke (poke m q 13) (q + 1) 10) (q + 2) 0,
       strlen (poke (poke (poke m q 13) (q + 1) 10) (q + 2) 0) rp) := by
  have e3 : rp + len + 1 = q + 2 := by omega
  unfold fixLineEndAsm
  rw [e1, e2, e3, e0]
  simp [h1, h2]

theorem fixLineEndMsg_fire (m : List Nat) (rp len q q2 : Nat) (h0 : len ≠ 0)
    (e1 : rp + len - 1 = q) (e2 : rp + len - 2 = q2) (e0 : rp + len = q + 1)
    (h1 : peek m q ≠ 10) (h2 : peek m q2 ≠ 13) :
    fixLineEndMsg m rp len =
      (poke (poke (poke m q 13) (q + 1) 10) (q + 2) 0,
       strlen (poke (poke (poke m q 13) (q + 1) 10) (q + 2) 0) rp) := by
  have e3 : rp + len + 1 = q + 2 := by omega
  unfold fixLineEndMsg
  rw [e1, e2, e3, e0]
  simp [h0, h1, h2]

theorem fixLineEndAsm_skip (m : List Nat) (rp len : Nat)
    (h : peek m (rp + len - 1) = 10 ∨ peek m (rp + len - 2) = 13) :
    fixLineEndAsm m rp len = (m, len) := by
  rcases h with h | h <;> simp [fixLineEndAsm, h]

theorem fixLineEndMsg_skip (m : List Nat) (rp len : Nat)
    (h : peek m (rp + len - 1) = 10 ∨ peek m (rp + len - 2) = 13) :
    fixLineEndMsg m rp len = (m, len) := by
  rcases h with h | h <;> simp [fixLineEndMsg, h]

theorem fixLineEndMsg_eq_asm (m : List Nat) (rp len : Nat) (h0 : len ≠ 0) :
    fixLineEndMsg m rp len = fixLineEndAsm m rp len := by
  simp [fixLineEndMsg, fixLineEndAsm, h0]

theorem fixPlaceholder_skip (m : List Nat) (rp len : Nat)
    (h : ¬ (peek m (rp + len - 3) = 48 ∧ peek m (rp + len - 4) = 37)) :
    fixPlaceholder m rp len = (m, len) := by
  unfold fixPlaceholder
  have : (peek m (rp + len - 3) == 48 && peek m (rp + len - 4) == 37) = false := by
    rw [Bool.and_eq_false_iff]
    by_cases h3 : peek m (rp + len - 3) = 48
    · right; simpa using fun h4 => h ⟨h3, h4⟩
    · left; simpa using h3
  simp [this]

theorem fixPlaceholder_fire (m : List Nat) (rp len q : Nat) (e : rp + len = q + 4)
    (h3 : peek m (q + 1) = 48) (h4 : peek m q = 37) :
    fixPlaceholder m rp len =
      (poke (poke (poke (poke m (q + 3) 0) (q + 2) 0) (q + 1) 0) q 0,
       strlen (poke (poke (poke (poke m (q + 3) 0) (q + 2) 0) (q + 1) 0) q 0) rp) := by
  have e1 : rp + len - 1 = q + 3 := by omega
  have e2 : rp + len - 2 = q + 2 := by omega
  have e3 : rp + len - 3 = q + 1 := by omega
  have e4 : rp + len - 4 = q := by omega
  unfold fixPlaceholder
  rw [e1, e2, e3, e4]
  simp [h3, h4]

/-- Two images that differ at position 13 only, where the second holds the
non-zero byte `t`: the C string at 13 of the second is `t` followed by the
C string at 14 of the first. -/
theorem strlen_link (mA mB : List Nat) (t : Nat)
    (hl : ∀ j, peek mB j = if j = 13 then t else peek mA j) (ht0 : t ≠ 0) :
    strlen mB 13 = strlen mA 14 + 1 := by
  apply strlen_eq
  · intro k hk
    rw [hl]
    cases k with
    | zero => simpa using ht0
    | succ k =>
      have : ¬ (13 + (k + 1) = 13) := by omega
      simp only [this, if_false]
      have e : 13 + (k + 1) = 14 + k := by omega
      rw [e]
      exact strlen_nonzero mA 14 k (by omega)
  · rw [hl]
    have : ¬ (13 + (strlen mA 14 + 1) = 13) := by omega
    simp only [this, if_false]
    have e : 13 + (strlen mA 14 + 1) = 14 + strlen mA 14 := by omega
    rw [e]
    exact strlen_stops mA 14

theorem bytes_link (mA mB : List Nat) (t n : Nat)
    (hl : ∀ j, peek mB j = if j = 13 then t else peek mA j) :
    bytesAt mB 13 (n + 1) = t :: bytesAt mA 14 n := by
  rw [bytesAt_succ]
  congr 1
  · rw [hl]; simp
  · apply bytesAt_congr
    intro k _
    rw [hl]
    have : ¬ (13 + 1 + k = 13) := by omega
    simp [this]

theorem link_poke (mA mB : List Nat) (t i v : Nat) (hi : i ≠ 13)
    (hl : ∀ j, peek mB j = if j = 13 then t else peek mA j) :
    ∀ j, peek (poke mB i v) j = if j = 13 then t else peek (poke mA i v) j := by
  intro j
  rw [peek_poke, peek_poke, hl]
  by_cases h : j = 13
  · have : ¬ j = i := by omega
    simp [h, this, hi.symm]
  · simp [h]

/-- The line-ending fixup on a message line with a space at column 9: the
binary emitter (cursor at 13, type letter stored there) and the textual
emitter (cursor at 14) stay linked. -/
theorem lineEnd_link (mA mB : List Nat) (t : Nat)
    (hl : ∀ j, peek mB j = if j = 13 then t else peek mA j)
    (ht0 : t ≠ 0) (ht13 : t ≠ 13) (hs : peek mA 13 = 32) (hL : 1 ≤ strlen mA 14) :
    (∀ j, peek (fixLineEndMsg mB 13 (strlen mB 13)).1 j
        = if j = 13 then t else peek (fixLineEndAsm mA 14 (strlen mA 14)).1 j) ∧
    (fixLineEndAsm mA 14 (strlen mA 14)).2 = strlen (fixLineEndAsm mA 14 (strlen mA 14)).1 14 ∧
    (fixLineEndMsg mB 13 (strlen mB 13)).2 = (fixLineEndAsm mA 14 (strlen mA 14)).2 + 1 ∧
    1 ≤ (fixLineEndAsm mA 14 (strlen mA 14)).2 ∧
    (∀ j, j ≤ 13 → peek (fixLineEndAsm mA 14 (strlen mA 14)).1 j = peek mA j) := by
  have hB : strlen mB 13 = strlen mA 14 + 1 := strlen_link mA mB t hl ht0
  rw [hB]
  generalize hLd : strlen mA 14 = L at *
  have e1 : 14 + L - 1 = 13 + L := by omega
  have e2 : 14 + L - 2 = 12 + L := by omega
  have e3 : 13 + (L + 1) - 1 = 13 + L := by omega
  have e4 : 13 + (L + 1) - 2 = 12 + L := by omega
  have e5 : 13 + (L + 1) = 14 + L := by omega
  have pB1 : peek mB (13 + L) = peek mA (13 + L) := by
    rw [hl]; have : ¬ (13 + L = 13) := by omega
    simp [this]
  by_cases c : peek mA (13 + L) = 10 ∨ peek mA (12 + L) = 13
  · -- neither emitter changes the line
    have cB : peek mB (13 + L) = 10 ∨ peek mB (12 + L) = 13 := by
      rcases c with c | c
      · left; rw [pB1]; exact c
      · right
        rw [hl]
        have : ¬ (12 + L = 13) := by
          intro h
          have hL1 : L = 1 := by omega
          rw [hL1] at c
          rw [hs] at c
          omega
        simpa [this] using c
    rw [fixLineEndAsm_skip mA 14 L (by rw [e1, e2]; exact c),
      fixLineEndMsg_skip mB 13 (L + 1) (by rw [e3, e4]; exact cB)]
    exact ⟨hl, hLd.symm, rfl, hL, fun _ _ => rfl⟩
  · -- both emitters rewrite the end of the line
    have c1 : peek mA (13 + L) ≠ 10 := fun h => c (Or.inl h)
    have c2 : peek mA (12 + L) ≠ 13 := fun h => c (Or.inr h)
    have cB2 : peek mB (12 + L) ≠ 13 := by
      rw [hl]
      by_cases h : 12 + L = 13
      · simpa [h] using ht13
      · simpa [h] using c2
    have FA := fixLineEndAsm_fire mA 14 L (13 + L) (12 + L) e1 e2 (by omega) c1 c2
    have FB := fixLineEndMsg_fire mB 13 (L + 1) (13 + L) (12 + L) (by omega) e3 e4 (by omega)
        (by rw [pB1]; exact c1) cB2
    have hA1 : (fixLineEndAsm mA 14 L).1
        = poke (poke (poke mA (13 + L) 13) (13 + L + 1) 10) (13 + L + 2) 0 := by rw [FA]
    have hA2 : (fixLineEndAsm mA 14 L).2
        = strlen (poke (poke (poke mA (13 + L) 13) (13 + L + 1) 10) (13 + L + 2) 0) 14 := by
      rw [FA]
    have hB1 : (fixLineEndMsg mB 13 (L + 1)).1
        = poke (poke (poke mB (13 + L) 13) (13 + L + 1) 10) (13 + L + 2) 0 := by rw [FB]
    have hB2 : (fixLineEndMsg mB 13 (L + 1)).2
        = strlen (poke (poke (poke mB (13 + L) 13) (13 + L + 1) 10) (13 + L + 2) 0) 13 := by
      rw [FB]
    rw [hA1, hA2, hB1, hB2]
    have hl3 : ∀ j, peek (poke (poke (poke mB (13 + L) 13) (13 + L + 1) 10) (13 + L + 2) 0) j
        = if j = 13 then t
          else peek (poke (poke (poke mA (13 + L) 13) (13 + L + 1) 10) (13 + L + 2) 0) j := by
      apply link_poke _ _ t _ _ (by omega)
      apply link_poke _ _ t _ _ (by omega)
      apply link_poke _ _ t _ _ (by omega)
      exact hl
    have hA3 : strlen (poke (poke (poke mA (13 + L) 13) (13 + L + 1) 10) (13 + L + 2) 0) 14
        = L + 1 := by
      apply strlen_eq
      · intro k hk
        simp only [peek_poke]
        split_ifs with h1 h2 h3
        · omega
        · omega
        · omega
        · exact strlen_nonzero mA 14 k (by rw [hLd]; omega)
      · simp only [peek_poke]
        have : 14 + (L + 1) = 13 + L + 2 := by omega
        simp [this]
    refine ⟨hl3, rfl, ?_, ?_, ?_⟩
    · exact strlen_link _ _ t hl3 ht0
    · rw [hA3]; omega
    · intro j hj
      simp only [peek_poke]
      have h1 : ¬ j = 13 + L + 2 := by omega
      have h2 : ¬ j = 13 + L + 1 := by omega
      have h3 : ¬ j = 13 + L := by omega
      simp [h1, h2, h3]

/-- The placeholder fixup on a message line with a space at column 9: the two
emitters stay linked, and nothing below position 11 of the image changes. -/
theorem placeholder_link (mA mB : List Nat) (t n : Nat)
    (hl : ∀ j, peek mB j = if j = 13 then t else peek mA j)
    (ht0 : t ≠ 0) (ht48 : t ≠ 48) (ht37 : t ≠ 37)
    (hs : peek mA 13 = 32) (h7 : peek mA 11 = t)
    (hn : n = strlen mA 14) (hL : 1 ≤ n) :
    (∀ j, peek (fixPlaceholder mB 13 (n + 1)).1 j
        = if j = 13 then t else peek (fixPlaceholder mA 14 n).1 j) ∧
    (fixPlaceholder mA 14 n).2 = strlen (fixPlaceholder mA 14 n).1 14 ∧
    (fixPlaceholder mB 13 (n + 1)).2 = (fixPlaceholder mA 14 n).2 + 1 ∧
    (∀ j, j ≤ 3 → peek (fixPlaceholder mA 14 n).1 j = peek mA j) := by
  have e3 : 14 + n - 3 = 11 + n := by omega
  have e4 : 14 + n - 4 = 10 + n := by omega
  have f3 : 13 + (n + 1) - 3 = 11 + n := by omega
  have f4 : 13 + (n + 1) - 4 = 10 + n := by omega
  by_cases c : peek mA (11 + n) = 48 ∧ peek mA (10 + n) = 37
  · -- the placeholder is found by both; it lies inside the text
    obtain ⟨c3, c4⟩ := c
    have hn4 : 4 ≤ n := by
      by_contra hlt
      have : n = 1 ∨ n = 2 ∨ n = 3 := by omega
      rcases this with h | h | h
      · rw [h] at c4; rw [h7] at c4; exact ht37 c4
      · rw [h] at c3; rw [hs] at c3; omega
      · rw [h] at c4; rw [hs] at c4; omega
    have cB3 : peek mB (11 + n) = 48 := by
      rw [hl]; have : ¬ (11 + n = 13) := by omega
      simpa [this] using c3
    have cB4 : peek mB (10 + n) = 37 := by
      rw [hl]; have : ¬ (10 + n = 13) := by omega
      simpa [this] using c4
    have FA := fixPlaceholder_fire mA 14 n (10 + n) (by omega)
      (by rw [show 10 + n + 1 = 11 + n by omega]; exact c3) c4
    have FB := fixPlaceholder_fire mB 13 (n + 1) (10 + n) (by omega)
      (by rw [show 10 + n + 1 = 11 + n by omega]; exact cB3) cB4
    have hA1 : (fixPlaceholder mA 14 n).1
        = poke (poke (poke (poke mA (10 + n + 3) 0) (10 + n + 2) 0) (10 + n + 1) 0)
            (10 + n) 0 := by rw [FA]
    have hA2 : (fixPlaceholder mA 14 n).2
        = strlen (poke (poke (poke (poke mA (10 + n + 3) 0) (10 + n + 2) 0) (10 + n + 1) 0)
            (10 + n) 0) 14 := by rw [FA]
    have hB1 : (fixPlaceholder mB 13 (n + 1)).1
        = poke (poke (poke (poke mB (10 + n + 3) 0) (10 + n + 2) 0) (10 + n + 1) 0)
            (10 + n) 0 := by rw [FB]
    have hB2 : (fixPlaceholder mB 13 (n + 1)).2
        = strlen (poke (poke (poke (poke mB (10 + n + 3) 0) (10 + n + 2) 0) (10 + n + 1) 0)
            (10 + n) 0) 13 := by rw [FB]
    rw [hA1, hA2, hB1, hB2]
    have hl4 : ∀ j, peek (poke (poke (poke (poke mB (10 + n + 3) 0) (10 + n + 2) 0)
          (10 + n + 1) 0) (10 + n) 0) j
        = if j = 13 then t
          else peek (poke (poke (poke (poke mA (10 + n + 3) 0) (10 + n + 2) 0)
            (10 + n + 1) 0) (10 + n) 0) j := by
      apply link_poke _ _ t _ _ (by omega)
      apply link_poke _ _ t _ _ (by omega)
      apply link_poke _ _ t _ _ (by omega)
      apply link_poke _ _ t _ _ (by omega)
      exact hl
    refine ⟨hl4, rfl, ?_, ?_⟩
    · exact strlen_link _ _ t hl4 ht0
    · intro j hj
      simp only [peek_poke]
      have h1 : ¬ j = 10 + n + 3 := by omega
      have h2 : ¬ j = 10 + n + 2 := by omega
      have h3 : ¬ j = 10 + n + 1 := by omega
      have h4 : ¬ j = 10 + n := by omega
      simp [h1, h2, h3, h4]
  · -- no placeholder for either
    have cB : ¬ (peek mB (11 + n) = 48 ∧ peek mB (10 + n) = 37) := by
      rintro ⟨b3, b4⟩
      rw [hl] at b3 b4
      by_cases h11 : 11 + n = 13
      · simp only [h11, if_true] at b3; exact ht48 b3
      by_cases h10 : 10 + n = 13
      · simp only [h10, if_true] at b4; exact ht37 b4
      simp only [h11, h10, if_false] at b3 b4
      exact c ⟨b3, b4⟩
    rw [fixPlaceholder_skip mA 14 n (by rw [e3, e4]; exact c),
      fixPlaceholder_skip mB 13 (n + 1) (by rw [f3, f4]; exact cB)]
    exact ⟨hl, hn, rfl, fun _ _ => rfl⟩

/-- A message line with a type letter `t` among E, H, I, P, W at column 7, a
space at column 9 and a text that is not empty: the bytes of the binary
emitter are `t` followed by the body of the textual emitter, and the bytes
below the buffer are left as they were. -/
theorem spaced_link (m : List Nat) (t : Nat)
    (h7 : peek m 11 = t) (hs : peek m 13 = 32)
    (ht : t = 69 ∨ t = 72 ∨ t = 73 ∨ t = 80 ∨ t = 87)
    (hL : peek m 14 ≠ 0) :
    bytesAt (normalizeMsg (poke m 13 t) 13).1 13 (normalizeMsg (poke m 13 t) 13).2
      = t :: bytesAt (normalizeAsm m 14).1 14 (strlen (normalizeAsm m 14).1 14) ∧
    preOf (normalizeMsg (poke m 13 t) 13).1 = preOf m ∧
    preOf (normalizeAsm m 14).1 = preOf m := by
  have ht0 : t ≠ 0 := by omega
  have ht13 : t ≠ 13 := by omega
  have ht48 : t ≠ 48 := by omega
  have ht37 : t ≠ 37 := by omega
  have hl : ∀ j, peek (poke m 13 t) j = if j = 13 then t else peek m j := by
    intro j; rw [peek_poke]
  have hL1 : 1 ≤ strlen m 14 := by
    by_contra h
    have h0 : strlen m 14 = 0 := by omega
    have := strlen_stops m 14
    rw [h0] at this
    exact hL this
  obtain ⟨l1, a1, b1, n1, k1⟩ := lineEnd_link m (poke m 13 t) t hl ht0 ht13 hs hL1
  have hs1 : peek (fixLineEndAsm m 14 (strlen m 14)).1 13 = 32 := by
    rw [k1 13 (by omega)]; exact hs
  have h71 : peek (fixLineEndAsm m 14 (strlen m 14)).1 11 = t := by
    rw [k1 11 (by omega)]; exact h7
  obtain ⟨l2, a2, b2, k2⟩ := placeholder_link _ _ t _ l1 ht0 ht48 ht37 hs1 h71 a1 n1
  have hM : normalizeMsg (poke m 13 t) 13
      = fixPlaceholder (fixLineEndMsg (poke m 13 t) 13 (strlen (poke m 13 t) 13)).1 13
          ((fixLineEndAsm m 14 (strlen m 14)).2 + 1) := by
    simp only [normalizeMsg]
    rw [b1]
  have hA : normalizeAsm m 14
      = fixPlaceholder (fixLineEndAsm m 14 (strlen m 14)).1 14
          (fixLineEndAsm m 14 (strlen m 14)).2 := rfl
  rw [hM, hA, b2, ← a2]
  refine ⟨bytes_link _ _ t _ l2, ?_, ?_⟩
  · apply preOf_congr
    intro j hj
    rw [l2]
    have : ¬ j = 13 := by omega
    simp only [this, if_false]
    rw [k2 j hj, k1 j (by omega)]
  · apply preOf_congr
    intro j hj
    rw [k2 j hj, k1 j (by omega)]

theorem peek_mem (l : List Nat) (k : Nat) (h : k < l.length) : peek l k ∈ l := by
  have : peek l k = l[k] := by
    simp [peek, List.getD_eq_getElem?_getD, List.getElem?_eq_getElem h]
  rw [this]
  exact List.getElem_mem h

theorem peek_past (l : List Nat) (k : Nat) (h : l.length ≤ k) : peek l k = 0 := by
  simp [peek, List.getD_eq_getElem?_getD, List.getElem?_eq_none h]

/-- The C string made of the non-zero bytes `l`, stored at the end of an
image. -/
theorem strlen_text (m l : List Nat) (p : Nat) (hl : ∀ x, x ∈ l → x ≠ 0)
    (hp : ∀ k, peek m (p + k) = peek l k) : strlen m p = l.length := by
  apply strlen_eq
  · intro k hk
    rw [hp]
    exact hl _ (peek_mem l k hk)
  · rw [hp]
    exact peek_past l _ (Nat.le_refl _)

theorem strncmpEq_self (a0 a1 a2 : Nat) (rest : List Nat) :
    strncmpEq 3 [a0, a1, a2] (a0 :: a1 :: a2 :: rest) = true := by
  by_cases h0 : a0 = 0 <;> by_cases h1 : a1 = 0 <;> by_cases h2 : a2 = 0 <;>
    simp [strncmpEq, h0, h1, h2]

/-- Both emitters return `current_msg_len` equal to `strlen(readptr)`. -/
theorem normalizeAsm_len (m : List Nat) (rp : Nat) :
    (normalizeAsm m rp).2 = strlen (normalizeAsm m rp).1 rp := by
  have h1 : (fixLineEndAsm m rp (strlen m rp)).2
      = strlen (fixLineEndAsm m rp (strlen m rp)).1 rp := by
    unfold fixLineEndAsm
    split <;> rfl
  simp only [normalizeAsm]
  generalize fixLineEndAsm m rp (strlen m rp) = r at h1
  unfold fixPlaceholder
  split
  · rfl
  · exact h1

theorem normalizeMsg_eq_asm (m : List Nat) (rp : Nat) (h : strlen m rp ≠ 0) :
    normalizeMsg m rp = normalizeAsm m rp := by
  simp only [normalizeMsg, normalizeAsm, fixLineEndMsg_eq_asm m rp _ h]

theorem normalizeAsm_plain (m : List Nat) (rp n : Nat) (hlen : strlen m rp = n + 2)
    (hlf : peek m (rp + n + 1) = 10)
    (hno : ¬ (peek m (rp + n - 1) = 48 ∧ peek m (rp + n - 2) = 37)) :
    normalizeAsm m rp = (m, n + 2) := by
  have e1 : rp + (n + 2) - 1 = rp + n + 1 := by omega
  have e3 : rp + (n + 2) - 3 = rp + n - 1 := by omega
  have e4 : rp + (n + 2) - 4 = rp + n - 2 := by omega
  simp only [normalizeAsm]
  rw [hlen, fixLineEndAsm_skip m rp (n + 2) (Or.inl (by rw [e1]; exact hlf))]
  exact fixPlaceholder_skip m rp (n + 2) (by rw [e3, e4]; exact hno)

theorem normalizeAsm_placeholder (m : List Nat) (rp n : Nat) (hlen : strlen m rp = n + 4)
    (h3 : peek m (rp + n + 3) = 10) :
    normalizeAsm m rp = fixPlaceholder m rp (n + 4) := by
  have e1 : rp + (n + 4) - 1 = rp + n + 3 := by omega
  simp only [normalizeAsm]
  rw [hlen, fixLineEndAsm_skip m rp (n + 4) (Or.inl (by rw [e1]; exact h3))]

/-- A list of at least two bytes whose last two are `%` and `0`. -/
theorem ends_placeholder (body : List Nat) (h2 : 2 ≤ body.length)
    (hx : peek body (body.length - 2) = 37) (hy : peek body (body.length - 1) = 48) :
    ∃ b, body = b ++ [37, 48] := by
  refine ⟨body.take (body.length - 2), ?_⟩
  have hd : body.drop (body.length - 2) = [37, 48] := by
    have hlen : (body.drop (body.length - 2)).length = 2 := by
      rw [List.length_drop]; omega
    obtain ⟨x, y, hxy⟩ := List.length_eq_two.mp hlen
    have px : peek (body.drop (body.length - 2)) 0 = 37 := by
      rw [peek_drop]; exact hx
    have py : peek (body.drop (body.length - 2)) 1 = 48 := by
      rw [peek_drop]
      have : body.length - 2 + 1 = body.length - 1 := by omega
      rw [this]; exact hy
    rw [hxy] at px py ⊢
    simp [peek] at px py
    rw [px, py]
  rw [← hd, List.take_append_drop]

/-- The image of a message line: ten bytes (identifier, number, type letter,
column 8, space), then the text. -/
theorem peek_line_text (pre : Pre) (a0 a1 a2 d0 d1 d2 d3 t c s : Nat) (text : List Nat)
    (k : Nat) :
    peek (image pre ([a0, a1, a2, d0, d1, d2, d3, t, c, s] ++ text)) (14 + k) = peek text k := by
  have e : 14 + k = 4 + (10 + k) := by omega
  rw [e, peek_image_buf]
  exact peek_append_right [a0, a1, a2, d0, d1, d2, d3, t, c, s] text k

theorem peek_line_head (pre : Pre) (a0 a1 a2 d0 d1 d2 d3 t c s : Nat) (text : List Nat) :
    peek (image pre ([a0, a1, a2, d0, d1, d2, d3, t, c, s] ++ text)) 4 = a0 ∧
    peek (image pre ([a0, a1, a2, d0, d1, d2, d3, t, c, s] ++ text)) 11 = t ∧
    peek (image pre ([a0, a1, a2, d0, d1, d2, d3, t, c, s] ++ text)) 12 = c ∧
    peek (image pre ([a0, a1, a2, d0, d1, d2, d3, t, c, s] ++ text)) 13 = s := by
  simp [image, peek]

theorem badTypeLetter_letter (t : Nat) (ht : t = 69 ∨ t = 87 ∨ t = 73 ∨ t = 72 ∨ t = 80) :
    badTypeLetter t = false ∧ (t == 63) = false := by
  rcases ht with h | h | h | h | h <;> subst h <;> decide

theorem letter_of_not_bad (t : Nat) (h : badTypeLetter t = false) (hq : t ≠ 63) :
    t = 69 ∨ t = 72 ∨ t = 73 ∨ t = 80 ∨ t = 87 := by
  unfold badTypeLetter at h
  simp only [Bool.and_eq_false_iff, bne_eq_false_iff_eq] at h
  omega

theorem question_msg (identifier : List Nat) (pre : Pre) (read_buffer : List Nat)
    (hc : peek read_buffer 0 ≠ 59) (hid : strncmpEq 3 identifier read_buffer = true)
    (hq : peek read_buffer 7 = 63) :
    lineMsg identifier pre read_buffer = .emit true [63, 13, 10] pre := by
  have s4 : peek (image pre read_buffer) 4 = peek read_buffer 0 := peek_image_buf pre read_buffer 0
  unfold lineMsg startMsg
  rw [s4, peek_image_buf, drop_image, hid, hq, preOf_image]
  have hc' : (peek read_buffer 0 != 59) = true := by simpa using hc
  simp only [hc', if_true]
  cases pre with
  | mk b4 b3 b2 b1 =>
    simp [badTypeLetter, normalizeMsg, fixLineEndMsg, fixPlaceholder, strlen, image, peek,
      bytesAt, preOf, List.range, List.range.loop]

theorem question_asm (identifier : List Nat) (pre : Pre) (read_buffer : List Nat)
    (hc : peek read_buffer 0 ≠ 59) (hid : strncmpEq 3 identifier read_buffer = true)
    (hq : peek read_buffer 7 = 63) (hp : ¬ (pre.b1 = 48 ∧ pre.b2 = 37)) :
    lineAsm identifier pre read_buffer = .emit true [13, 10] pre := by
  have s4 : peek (image pre read_buffer) 4 = peek read_buffer 0 := peek_image_buf pre read_buffer 0
  unfold lineAsm startAsm
  rw [s4, peek_image_buf, drop_image, hid, hq, preOf_image]
  have hc' : (peek read_buffer 0 != 59) = true := by simpa using hc
  simp only [hc', if_true]
  cases pre with
  | mk b4 b3 b2 b1 =>
    have hp' : ¬ (b1 = 48 ∧ b2 = 37) := hp
    simp [badTypeLetter, normalizeAsm, fixLineEndAsm, fixPlaceholder, strlen, image, peek,
      bytesAt, preOf, List.range, List.range.loop, hp']

theorem startMsg_spaced (identifier : List Nat) (pre : Pre) (rb : List Nat)
    (hc : peek rb 0 ≠ 59) (hid : strncmpEq 3 identifier rb = true)
    (hb : badTypeLetter (peek rb 7) = false) (hq : peek rb 7 ≠ 63) (hs : peek rb 9 = 32) :
    startMsg identifier (image pre rb) = .run true (poke (image pre rb) 13 (peek rb 7)) 13 := by
  have s4 : peek (image pre rb) 4 = peek rb 0 := peek_image_buf pre rb 0
  unfold startMsg
  rw [s4, peek_image_buf, peek_image_buf, drop_image, hid, hb, hs]
  have hc' : (peek rb 0 != 59) = true := by simpa using hc
  have hq' : (peek rb 7 == 63) = false := by simpa using hq
  simp [hc', hq']

theorem startAsm_spaced (identifier : List Nat) (pre : Pre) (rb : List Nat)
    (hc : peek rb 0 ≠ 59) (hid : strncmpEq 3 identifier rb = true)
    (hb : badTypeLetter (peek rb 7) = false) (hq : peek rb 7 ≠ 63) (hs : peek rb 9 = 32) :
    startAsm identifier (image pre rb) = .run true (image pre rb) 14 := by
  have s4 : peek (image pre rb) 4 = peek rb 0 := peek_image_buf pre rb 0
  unfold startAsm
  rw [s4, peek_image_buf, peek_image_buf, drop_image, hid, hb, hs]
  have hc' : (peek rb 0 != 59) = true := by simpa using hc
  have hq' : (peek rb 7 == 63) = false := by simpa using hq
  simp [hc', hq']

/-- A message line with a space at column 9 and a text that is not empty: the
textual emitter emits the normalized text of column 10, the binary emitter the
type letter followed by the same bytes. -/
theorem spaced_lines (identifier : List Nat) (pre : Pre) (rb : List Nat)
    (hc : peek rb 0 ≠ 59) (hid : strncmpEq 3 identifier rb = true)
    (hb : badTypeLetter (peek rb 7) = false) (hq : peek rb 7 ≠ 63) (hs : peek rb 9 = 32)
    (hL : peek rb 10 ≠ 0) :
    lineAsm identifier pre rb
      = .emit true (bytesAt (normalizeAsm (image pre rb) 14).1 14
          (strlen (normalizeAsm (image pre rb) 14).1 14)) pre ∧
    lineMsg identifier pre rb
      = .emit true (peek rb 7 :: bytesAt (normalizeAsm (image pre rb) 14).1 14
          (strlen (normalizeAsm (image pre rb) 14).1 14)) pre := by
  have h7 : peek (image pre rb) 11 = peek rb 7 := peek_image_buf pre rb 7
  have h13 : peek (image pre rb) 13 = 32 := by
    rw [show (13 : Nat) = 4 + 9 from rfl, peek_image_buf]; exact hs
  have h14 : peek (image pre rb) 14 ≠ 0 := by
    rw [show (14 : Nat) = 4 + 10 from rfl, peek_image_buf]; exact hL
  obtain ⟨k1, k2, k3⟩ := spaced_link (image pre rb) (peek rb 7) h7 h13
    (letter_of_not_bad _ hb hq) h14
  constructor
  · unfold lineAsm
    rw [startAsm_spaced identifier pre rb hc hid hb hq hs]
    simp only [k3, preOf_image]
  · unfold lineMsg
    rw [startMsg_spaced identifier pre rb hc hid hb hq hs]
    simp only [k1, k2, preOf_image]

theorem continuation_lines (identifier : List Nat) (pre : Pre) (rb : List Nat)
    (hc : peek rb 0 ≠ 59) (hid : strncmpEq 3 identifier rb = false) (h0 : peek rb 0 ≠ 0) :
    lineAsm identifier pre rb
      = .emit false (bytesAt (normalizeAsm (image pre rb) 4).1 4
          (strlen (normalizeAsm (image pre rb) 4).1 4)) (preOf (normalizeAsm (image pre rb) 4).1) ∧
    lineMsg identifier pre rb
      = .emit false (bytesAt (normalizeAsm (image pre rb) 4).1 4
          (strlen (normalizeAsm (image pre rb) 4).1 4)) (preOf (normalizeAsm (image pre rb) 4).1) := by
  have s4 : peek (image pre rb) 4 = peek rb 0 := peek_image_buf pre rb 0
  have hc' : (peek rb 0 != 59) = true := by simpa using hc
  have hlen : strlen (image pre rb) 4 ≠ 0 := by
    intro h
    have := strlen_stops (image pre rb) 4
    rw [h] at this
    exact h0 (by rw [← s4]; exact this)
  constructor
  · unfold lineAsm startAsm
    rw [s4, drop_image, hid]
    simp only [hc', if_true, Bool.false_eq_true, if_false]
  · unfold lineMsg startMsg
    rw [s4, drop_image, hid]
    simp only [hc', if_true, Bool.false_eq_true, if_false]
    rw [normalizeMsg_eq_asm _ _ hlen, normalizeAsm_len]

theorem peek_append_cr_lf (body : List Nat) :
    peek (body ++ [13, 10]) body.length = 13 ∧ peek (body ++ [13, 10]) (body.length + 1) = 10 :=
  ⟨peek_append_right body [13, 10] 0, peek_append_right body [13, 10] 1⟩

/-- The textual body of a text `body` CR LF stored at position 14, below a
space, when `body` does not end in `%0`. -/
theorem asm_text_plain (m body : List Nat) (hb : ∀ x, x ∈ body → x ≠ 0)
    (hp : ∀ k, peek m (14 + k) = peek (body ++ [13, 10]) k) (h13 : peek m 13 = 32)
    (hne : ∀ b, body ≠ b ++ [37, 48]) :
    bytesAt (normalizeAsm m 14).1 14 (strlen (normalizeAsm m 14).1 14) = body ++ [13, 10] := by
  have hnz : ∀ x, x ∈ body ++ [13, 10] → x ≠ 0 := by
    intro x hx
    rcases List.mem_append.mp hx with h | h
    · exact hb x h
    · simp at h; omega
  have hlen : strlen m 14 = body.length + 2 := by
    rw [strlen_text m (body ++ [13, 10]) 14 hnz hp]; simp
  have hlf : peek m (14 + body.length + 1) = 10 := by
    rw [Nat.add_assoc, hp]; exact (peek_append_cr_lf body).2
  have hno : ¬ (peek m (14 + body.length - 1) = 48 ∧ peek m (14 + body.length - 2) = 37) := by
    rintro ⟨h48, h37⟩
    by_cases h2 : 2 ≤ body.length
    · have e1 : 14 + body.length - 1 = 14 + (body.length - 1) := by omega
      have e2 : 14 + body.length - 2 = 14 + (body.length - 2) := by omega
      rw [e1, hp, peek_append_left body _ _ (by omega)] at h48
      rw [e2, hp, peek_append_left body _ _ (by omega)] at h37
      obtain ⟨b, hbb⟩ := ends_placeholder body h2 h37 h48
      exact hne b hbb
    · have : body.length = 0 ∨ body.length = 1 := by omega
      rcases this with h | h
      · rw [h] at h48; rw [h13] at h48; omega
      · rw [h] at h37; rw [h13] at h37; omega
  have hN := normalizeAsm_plain m 14 body.length hlen hlf hno
  rw [hN]
  show bytesAt m 14 (strlen m 14) = body ++ [13, 10]
  rw [hlen]
  have key := bytesAt_list m (body ++ [13, 10]) 14 (fun k _ => hp k)
  have hl : (body ++ [13, 10]).length = body.length + 2 := by simp
  rw [hl] at key
  exact key

/-- The textual body of a text `body` `%0` CR LF stored at position 14. -/
theorem asm_text_placeholder (m body : List Nat) (hb : ∀ x, x ∈ body → x ≠ 0)
    (hp : ∀ k, peek m (14 + k) = peek (body ++ [37, 48, 13, 10]) k) :
    bytesAt (normalizeAsm m 14).1 14 (strlen (normalizeAsm m 14).1 14) = body := by
  have hnz : ∀ x, x ∈ body ++ [37, 48, 13, 10] → x ≠ 0 := by
    intro x hx
    rcases List.mem_append.mp hx with h | h
    · exact hb x h
    · simp at h; omega
  have hlen : strlen m 14 = body.length + 4 := by
    rw [strlen_text m (body ++ [37, 48, 13, 10]) 14 hnz hp]; simp
  have h0 : peek m (14 + body.length) = 37 := by
    rw [hp]; exact peek_append_right body _ 0
  have h1 : peek m (14 + body.length + 1) = 48 := by
    rw [Nat.add_assoc, hp]; exact peek_append_right body _ 1
  have h3 : peek m (14 + body.length + 3) = 10 := by
    rw [Nat.add_assoc, hp]; exact peek_append_right body _ 3
  obtain ⟨f2, fp⟩ := fixPlaceholder_fires m 14 body.length hlen h0 h1
  rw [← normalizeAsm_len, normalizeAsm_placeholder m 14 body.length hlen h3, f2]
  apply bytesAt_list
  intro k hk
  rw [fp]
  have : ¬ (14 + body.length ≤ 14 + k ∧ 14 + k < 14 + body.length + 4) := by omega
  simp only [this, if_false]
  rw [hp, peek_append_left body _ k hk]

theorem kindOf_cases (identifier rb : List Nat) :
    (kindOf identifier rb = .comment ∧ peek rb 0 = 59) ∨
    (kindOf identifier rb = .continuation ∧ peek rb 0 ≠ 59 ∧
      strncmpEq 3 identifier rb = false) ∨
    (kindOf identifier rb = .badType ∧ peek rb 0 ≠ 59 ∧ strncmpEq 3 identifier rb = true ∧
      badTypeLetter (peek rb 7) = true) ∨
    (kindOf identifier rb = .question ∧ peek rb 0 ≠ 59 ∧ strncmpEq 3 identifier rb = true ∧
      peek rb 7 = 63) ∨
    (kindOf identifier rb = .unspaced ∧ peek rb 0 ≠ 59 ∧ strncmpEq 3 identifier rb = true ∧
      badTypeLetter (peek rb 7) = false ∧ peek rb 7 ≠ 63 ∧ peek rb 9 ≠ 32) ∨
    (kindOf identifier rb = .spaced ∧ peek rb 0 ≠ 59 ∧ strncmpEq 3 identifier rb = true ∧
      badTypeLetter (peek rb 7) = false ∧ peek rb 7 ≠ 63 ∧ peek rb 9 = 32) := by
  unfold kindOf
  by_cases h0 : peek rb 0 = 59
  · left; simp [h0]
  · right
    by_cases h1 : strncmpEq 3 identifier rb = true
    · right
      by_cases h2 : badTypeLetter (peek rb 7) = true
      · left; simp [h0, h1, h2]
      · right
        have h2' : badTypeLetter (peek rb 7) = false := by simpa using h2
        by_cases h3 : peek rb 7 = 63
        · left
          have hb63 : badTypeLetter 63 = false := by decide
          simp [h0, h1, h3, hb63]
        · right
          by_cases h4 : peek rb 9 = 32
          · right; simp [h0, h1, h2', h3, h4]
          · left; simp [h0, h1, h2', h3, h4]
    · left
      have h1' : strncmpEq 3 identifier rb = false := by simpa using h1
      simp [h0, h1']

theorem comment_lines (identifier : List Nat) (pre : Pre) (rb : List Nat)
    (hc : peek rb 0 = 59) :
    lineMsg identifier pre rb = .comment ∧ lineAsm identifier pre rb = .comment := by
  have s4 : peek (image pre rb) 4 = peek rb 0 := peek_image_buf pre rb 0
  constructor
  · unfold lineMsg startMsg; rw [s4, hc]; simp
  · unfold lineAsm startAsm; rw [s4, hc]; simp

theorem badType_lines (identifier : List Nat) (pre : Pre) (rb : List Nat)
    (hc : peek rb 0 ≠ 59) (hid : strncmpEq 3 identifier rb = true)
    (hb : badTypeLetter (peek rb 7) = true) :
    lineMsg identifier pre rb = .stop .badType ∧ lineAsm identifier pre rb = .stop .badType := by
  have s4 : peek (image pre rb) 4 = peek rb 0 := peek_image_buf pre rb 0
  have hc' : (peek rb 0 != 59) = true := by simpa using hc
  constructor
  · unfold lineMsg startMsg; rw [s4, peek_image_buf, drop_image, hid, hb]; simp [hc']
  · unfold lineAsm startAsm; rw [s4, peek_image_buf, drop_image, hid, hb]; simp [hc']

theorem unspaced_lines (identifier : List Nat) (pre : Pre) (rb : List Nat)
    (hc : peek rb 0 ≠ 59) (hid : strncmpEq 3 identifier rb = true)
    (hb : badTypeLetter (peek rb 7) = false) (hq : peek rb 7 ≠ 63) (hs : peek rb 9 ≠ 32) :
    lineAsm identifier pre rb = .stop .noSpace ∧
    ∃ bytes p, lineMsg identifier pre rb = .emit true bytes p := by
  have s4 : peek (image pre rb) 4 = peek rb 0 := peek_image_buf pre rb 0
  have hc' : (peek rb 0 != 59) = true := by simpa using hc
  have hq' : (peek rb 7 == 63) = false := by simpa using hq
  have hs' : (peek rb 9 != 32) = true := by simpa using hs
  constructor
  · unfold lineAsm startAsm
    rw [s4, peek_image_buf, peek_image_buf, drop_image, hid, hb, hq', hs']; simp [hc']
  · unfold lineMsg startMsg
    rw [s4, peek_image_buf, peek_image_buf, drop_image, hid, hb, hq', hs']
    simp only [hc', if_true, Bool.false_eq_true, if_false]
    exact ⟨_, _, rfl⟩

/-- A message line made of an identifier, four bytes, a type letter among E,
W, I, H, P, one byte, a space and a text that starts with a non-zero byte. -/
theorem wellformed_lines (a0 a1 a2 d0 d1 d2 d3 t c : Nat) (text : List Nat) (pre : Pre)
    (hc : a0 ≠ 59) (ht : t = 69 ∨ t = 87 ∨ t = 73 ∨ t = 72 ∨ t = 80)
    (h0 : peek text 0 ≠ 0) :
    lineAsm [a0, a1, a2] pre ([a0, a1, a2, d0, d1, d2, d3, t, c, 32] ++ text)
      = .emit true
          (bytesAt (normalizeAsm (image pre ([a0, a1, a2, d0, d1, d2, d3, t, c, 32] ++ text)) 14).1
            14 (strlen (normalizeAsm
              (image pre ([a0, a1, a2, d0, d1, d2, d3, t, c, 32] ++ text)) 14).1 14)) pre ∧
    lineMsg [a0, a1, a2] pre ([a0, a1, a2, d0, d1, d2, d3, t, c, 32] ++ text)
      = .emit true
          (t :: bytesAt
            (normalizeAsm (image pre ([a0, a1, a2, d0, d1, d2, d3, t, c, 32] ++ text)) 14).1
            14 (strlen (normalizeAsm
              (image pre ([a0, a1, a2, d0, d1, d2, d3, t, c, 32] ++ text)) 14).1 14)) pre := by
  have p0 : peek ([a0, a1, a2, d0, d1, d2, d3, t, c, 32] ++ text) 0 = a0 := by simp [peek]
  have p7 : peek ([a0, a1, a2, d0, d1, d2, d3, t, c, 32] ++ text) 7 = t := by simp [peek]
  have p9 : peek ([a0, a1, a2, d0, d1, d2, d3, t, c, 32] ++ text) 9 = 32 := by simp [peek]
  have p10 : peek ([a0, a1, a2, d0, d1, d2, d3, t, c, 32] ++ text) 10 = peek text 0 :=
    peek_append_right [a0, a1, a2, d0, d1, d2, d3, t, c, 32] text 0
  have hid : strncmpEq 3 [a0, a1, a2] ([a0, a1, a2, d0, d1, d2, d3, t, c, 32] ++ text) = true :=
    strncmpEq_self a0 a1 a2 _
  obtain ⟨hb, hq⟩ := badTypeLetter_letter t ht
  have key := spaced_lines [a0, a1, a2] pre ([a0, a1, a2, d0, d1, d2, d3, t, c, 32] ++ text)
    (by rw [p0]; exact hc) hid (by rw [p7]; exact hb)
    (by rw [p7]; simpa using hq) p9 (by rw [p10]; exact h0)
  rw [p7] at key
  exact key

/-! ## The loops: index entries and sequence numbers -/

theorem storeIndex_fields (offsetid : Nat) (st : MsgRun) :
    (storeIndex offsetid st).writes = st.writes ∧
    (storeIndex offsetid st).fpo = st.fpo ∧
    (storeIndex offsetid st).msg_num_check = st.msg_num_check ∧
    (storeIndex offsetid st).index.length = st.index.length := by
  unfold storeIndex
  split
  · exact ⟨rfl, rfl, rfl, by simp⟩
  · exact ⟨rfl, rfl, rfl, rfl⟩

theorem storeIndex_slot (offsetid : Nat) (st : MsgRun)
    (h : st.msg_num_check < st.index.length) :
    (storeIndex offsetid st).index[st.msg_num_check]? = some (castIndex offsetid st.fpo) := by
  unfold storeIndex
  rw [if_pos h]
  simp [List.getElem?_set, h]

theorem storeIndex_other (offsetid : Nat) (st : MsgRun) (j : Nat) (h : j ≠ st.msg_num_check) :
    (storeIndex offsetid st).index[j]? = st.index[j]? := by
  unfold storeIndex
  split
  · show (st.index.set st.msg_num_check _)[j]? = _
    rw [List.getElem?_set_ne (Ne.symm h)]
  · rfl

theorem bodiesOf_append (writes : List Written) (w : Written) :
    bodiesOf (writes ++ [w]) = if w.newmsg then bodiesOf writes ++ [w] else bodiesOf writes := by
  unfold bodiesOf
  rw [List.filter_append]
  cases hw : w.newmsg <;> simp [List.filter, hw]

/-- One pass of the loop keeps the invariant: the position is stored into slot
`msg_num_check`, then the line is emitted at that position. -/
theorem indexOk_step (offsetid : Nat) (st : MsgRun) (newmsg : Bool) (bytes : List Nat)
    (h : IndexOk offsetid st.index st.msg_num_check st.writes) :
    IndexOk offsetid (storeIndex offsetid st).index
      (if newmsg then (storeIndex offsetid st).msg_num_check + 1
        else (storeIndex offsetid st).msg_num_check)
      ((storeIndex offsetid st).writes ++
        [{ pos := (storeIndex offsetid st).fpo, newmsg := newmsg, bytes := bytes }]) := by
  obtain ⟨h1, h2⟩ := h
  obtain ⟨sw, sf, sm, sl⟩ := storeIndex_fields offsetid st
  rw [sw, sf, sm]
  have old : ∀ j w, (bodiesOf st.writes)[j]? = some w → j < (storeIndex offsetid st).index.length →
      (storeIndex offsetid st).index[j]? = some (castIndex offsetid w.pos) := by
    intro j w hj hjl
    have hjlt : j < (bodiesOf st.writes).length := by
      by_contra hge
      rw [List.getElem?_eq_none (Nat.le_of_not_lt hge)] at hj
      cases hj
    rw [storeIndex_other offsetid st j (by omega)]
    exact h2 j w hj (by rw [← sl]; exact hjl)
  cases newmsg with
  | false =>
    refine ⟨?_, ?_⟩
    · rw [bodiesOf_append]; simpa using h1
    · intro j w hj hjl
      rw [bodiesOf_append] at hj
      exact old j w (by simpa using hj) hjl
  | true =>
    refine ⟨?_, ?_⟩
    · rw [bodiesOf_append]; simp [h1]
    · intro j w hj hjl
      rw [bodiesOf_append] at hj
      simp only [if_true] at hj
      by_cases hjb : j < (bodiesOf st.writes).length
      · rw [List.getElem?_append_left hjb] at hj
        exact old j w hj hjl
      · have hge : (bodiesOf st.writes).length ≤ j := Nat.le_of_not_lt hjb
        rw [List.getElem?_append_right hge] at hj
        have hj0 : j - (bodiesOf st.writes).length = 0 := by
          by_contra hne
          obtain ⟨k, hk⟩ := Nat.exists_eq_succ_of_ne_zero hne
          rw [hk] at hj
          simp at hj
        rw [hj0] at hj
        simp only [List.getElem?_cons_zero, Option.some.injEq] at hj
        have hjm : j = st.msg_num_check := by omega
        rw [hjm, ← hj]
        exact storeIndex_slot offsetid st (by rw [← sl, ← hjm]; exact hjl)

theorem indexOk_store (offsetid : Nat) (st : MsgRun)
    (h : IndexOk offsetid st.index st.msg_num_check st.writes) :
    IndexOk offsetid (storeIndex offsetid st).index (storeIndex offsetid st).msg_num_check
      (storeIndex offsetid st).writes := by
  obtain ⟨h1, h2⟩ := h
  obtain ⟨sw, _, sm, sl⟩ := storeIndex_fields offsetid st
  rw [sw, sm]
  refine ⟨h1, ?_⟩
  intro j w hj hjl
  have hjlt : j < (bodiesOf st.writes).length := by
    by_contra hge
    rw [List.getElem?_eq_none (Nat.le_of_not_lt hge)] at hj
    cases hj
  rw [storeIndex_other offsetid st j (by omega)]
  exact h2 j w hj (by rw [← sl]; exact hjl)

/-- The loop of `writemsgfile` keeps the invariant and the size of the index
buffer. -/
theorem msgLoop_indexOk (identifier : List Nat) (offsetid : Nat) :
    ∀ (fuel : Nat) (st st' : MsgRun),
      IndexOk offsetid st.index st.msg_num_check st.writes →
      msgLoop identifier offsetid fuel st = .ok st' →
      IndexOk offsetid st'.index st'.msg_num_check st'.writes ∧
      st'.index.length = st.index.length := by
  intro fuel
  induction fuel with
  | zero => intro st st' _ h; simp [msgLoop] at h
  | succ fuel ih =>
    intro st st' hc h
    have hs := indexOk_store offsetid st hc
    obtain ⟨_, _, _, sl⟩ := storeIndex_fields offsetid st
    unfold msgLoop at h
    split at h
    · cases h; exact ⟨hc, rfl⟩
    · simp only at h
      split at h
      · cases h
        exact ⟨hs, sl⟩
      · split at h
        · have key := fun hh => ih _ st' hh h
          obtain ⟨r1, r2⟩ := key hs
          exact ⟨r1, by rw [r2]; exact sl⟩
        · cases h
        · rename_i newmsg bytes pre1 _
          have key := fun hh => ih _ st' hh h
          obtain ⟨r1, r2⟩ := key (indexOk_step offsetid st newmsg bytes hc)
          exact ⟨r1, by rw [r2]; exact sl⟩

/-- For every input and every message count and layout, after `writemsgfile`
each message body written whose 0-based position is an entry of the index
buffer has its file offset, cast to the entry width, in that entry. -/
theorem writemsgfile_index (info : MESSAGEINFO) (pre : Pre) (input : List Nat) (run : MsgRun)
    (h : writemsgfile info pre input = .ok run) :
    run.index.length = info.numbermsg ∧
    ∀ j w, (bodiesOf run.writes)[j]? = some w → j < info.numbermsg →
      run.index[j]? = some (castIndex info.offsetid w.pos) := by
  unfold writemsgfile at h
  have h0 : IndexOk info.offsetid (List.replicate info.numbermsg 0) 0 [] := by
    refine ⟨rfl, ?_⟩
    intro j w hj _
    simp [bodiesOf] at hj
  obtain ⟨⟨_, r2⟩, r3⟩ := msgLoop_indexOk info.identifier info.offsetid _ _ run h0 h
  simp only [List.length_replicate] at r3
  refine ⟨r3, ?_⟩
  intro j w hj hjn
  exact r2 j w hj (by rw [r3]; exact hjn)

/-- The loop of `writeasmfile` numbers the lines it emits consecutively: the
item at position `i` carries the number `first + i`, new-message line or
not. -/
theorem asmLoop_numbers (identifier : List Nat) (first : Int) :
    ∀ (fuel : Nat) (st st' : AsmRun),
      st.msg_num_check = first + (st.items.length : Int) →
      (∀ (i : Nat) (it : AsmItem), st.items[i]? = some it → it.num = first + (i : Int)) →
      asmLoop identifier fuel st = .ok st' →
      st'.msg_num_check = first + (st'.items.length : Int) ∧
      (∀ (i : Nat) (it : AsmItem), st'.items[i]? = some it → it.num = first + (i : Int)) := by
  intro fuel
  induction fuel with
  | zero => intro st st' _ _ h; simp [asmLoop] at h
  | succ fuel ih =>
    intro st st' h1 h2 h
    unfold asmLoop at h
    generalize getline [] st.fpi = g at h
    obtain ⟨ret, buf, fp1⟩ := g
    simp only at h
    by_cases he : fp1.eof = true
    · rw [if_pos he] at h; cases h; exact ⟨h1, h2⟩
    · rw [if_neg he] at h
      cases hl : lineAsm identifier st.pre buf with
      | comment =>
        rw [hl] at h
        simp only at h
        have key := fun a b => ih _ st' a b h
        exact key h1 h2
      | stop e =>
        rw [hl] at h
        cases h
      | emit newmsg bytes pre1 =>
        rw [hl] at h
        simp only at h
        have key := fun a b => ih _ st' a b h
        apply key
        · show st.msg_num_check + 1
            = first + (((st.items ++
                [({ num := st.msg_num_check, newmsg := newmsg, body := bytes } : AsmItem)]).length
                  : Nat) : Int)
          rw [h1, List.length_append]
          simp only [List.length_cons, List.length_nil]
          push_cast
          omega
        · intro i it hi
          have hi' : (st.items ++
              [({ num := st.msg_num_check, newmsg := newmsg, body := bytes } : AsmItem)])[i]?
                = some it := hi
          by_cases hlt : i < st.items.length
          · rw [List.getElem?_append_left hlt] at hi'
            exact h2 i it hi'
          · have hge : st.items.length ≤ i := Nat.le_of_not_lt hlt
            rw [List.getElem?_append_right hge] at hi'
            have hj0 : i - st.items.length = 0 := by
              by_contra hne
              obtain ⟨k, hk⟩ := Nat.exists_eq_succ_of_ne_zero hne
              rw [hk] at hi'
              simp at hi'
            rw [hj0] at hi'
            simp only [List.getElem?_cons_zero, Option.some.injEq] at hi'
            rw [← hi']
            show st.msg_num_check = first + (i : Int)
            rw [h1]
            have : i = st.items.length := by omega
            rw [this]

/-- For every input, the number `writeasmfile` uses for the line it emits at
position `i` (new-message lines and continuation lines alike) is
`firstmsg + i`. -/
theorem writeasmfile_numbers (info : MESSAGEINFO) (pre : Pre) (input : List Nat) (run : AsmRun)
    (firstmsg : Int) (hf : info.firstmsg = some firstmsg)
    (h : writeasmfile info pre input = .ok run) :
    ∀ (i : Nat) (it : AsmItem), run.items[i]? = some it → it.num = firstmsg + (i : Int) := by
  unfold writeasmfile at h
  rw [hf] at h
  simp only at h
  exact (asmLoop_numbers info.identifier firstmsg _ _ run (by simp) (by simp) h).2

/-! ## The scanner: the message count on inputs whose lines are terminated -/

theorem splitLines_cons (c : Nat) (cs : List Nat) :
    splitLines (c :: cs) = takeLine (c :: cs) :: splitLines (dropLine (c :: cs)) := by
  induction cs generalizing c with
  | nil =>
    by_cases h : c = 10 <;> simp [splitLines, takeLine, dropLine, h]
  | cons d ds ih =>
    have hd := ih d
    by_cases h : c = 10
    · simp only [splitLines, takeLine, dropLine, h, if_true] at hd ⊢
      rw [hd]
    · have e1 : splitLines (c :: d :: ds)
          = (match splitLines (d :: ds) with
            | [] => [[c]]
            | l :: ls => if c = 10 then [c] :: l :: ls else (c :: l) :: ls) := rfl
      rw [e1, hd]
      simp [takeLine, dropLine, h]

theorem dropLine_length (rest : List Nat) : (dropLine rest).length ≤ rest.length := by
  induction rest with
  | nil => simp [dropLine]
  | cons c cs ih =>
    by_cases h : c = 10
    · simp [dropLine, h]
    · simp only [dropLine, h, if_false, List.length_cons]; omega

theorem dropLine_suffix (rest : List Nat) : dropLine rest <:+ rest := by
  induction rest with
  | nil => exact List.suffix_refl _
  | cons c cs ih =>
    by_cases h : c = 10
    · simp only [dropLine, h, if_true]; exact List.suffix_cons _ _
    · simp only [dropLine, h, if_false]
      exact ih.trans (List.suffix_cons _ _)

theorem hitsEof_false_of_last (rest : List Nat)
    (h : (takeLine rest).getLast? = some 10) : hitsEof rest = false := by
  induction rest with
  | nil => simp [takeLine] at h
  | cons c cs ih =>
    by_cases hc : c = 10
    · simp [hitsEof, hc]
    · simp only [hitsEof, hc, if_false]
      apply ih
      simp only [takeLine, hc, if_false] at h
      cases hcs : takeLine cs with
      | nil => rw [hcs] at h; simp at h; exact absurd h hc
      | cons x xs => rw [hcs] at h; simpa [List.getLast?_cons_cons] using h

/-- The test `strncmp(identifier, read_buffer, 3) == 0` on a buffer that holds
a line and its NUL, for an identifier of three non-zero bytes: the first three
bytes of the line are the identifier. -/
theorem strncmpEq_line (a b c : Nat) (line junk : List Nat)
    (ha : a ≠ 0) (hb : b ≠ 0) (hc : c ≠ 0) :
    strncmpEq 3 [a, b, c] (line ++ [0] ++ junk) = (line.take 3 == [a, b, c]) := by
  match line with
  | [] => simp [strncmpEq, ha]
  | [x] =>
    by_cases h : a = x
    · subst h; simp [strncmpEq, ha, hb]
    · simp [strncmpEq, h]
  | [x, y] =>
    by_cases h : a = x
    · subst h
      by_cases h2 : b = y
      · subst h2; simp [strncmpEq, ha, hb, hc]
      · simp [strncmpEq, ha, h2]
    · simp [strncmpEq, h]
  | x :: y :: z :: rest =>
    by_cases h : a = x
    · subst h
      by_cases h2 : b = y
      · subst h2
        by_cases h3 : c = z
        · subst h3; simp [strncmpEq, ha, hb]
        · have h3' : ¬ z = c := fun e => h3 e.symm
          simp [strncmpEq, ha, hb, h3, h3']
      · have h2' : ¬ y = b := fun e => h2 e.symm
        simp [strncmpEq, ha, h2, h2']
    · have h' : ¬ x = a := fun e => h e.symm
      simp [strncmpEq, h, h']

/-- The counting loop of `setupheader` on unread bytes all of whose lines end
in LF: the count grows by the number of lines that start with the
identifier. -/
theorem countMessages_terminated (a b c : Nat) (ha : a ≠ 0) (hb : b ≠ 0) (hc : c ≠ 0)
    (h59 : a ≠ 59) :
    ∀ (fuel : Nat) (rest buf : List Nat) (n : Nat) (f : Option Int),
      rest.length < fuel →
      (∀ l, l ∈ splitLines rest → l.getLast? = some 10) →
      (countMessages [a, b, c] fuel buf { rest := rest, eof := false } n f).1
        = n + specMessageCount [a, b, c] (splitLines rest) := by
  intro fuel
  induction fuel with
  | zero => intro rest buf n f h; omega
  | succ fuel ih =>
    intro rest buf n f hlen hterm
    cases rest with
    | nil => simp [countMessages, getline, splitLines, specMessageCount]
    | cons x xs =>
      have hsplit := splitLines_cons x xs
      have hlast : (takeLine (x :: xs)).getLast? = some 10 :=
        hterm _ (by rw [hsplit]; exact List.mem_cons_self _ _)
      have heof : hitsEof (x :: xs) = false := hitsEof_false_of_last _ hlast
      have hrec : ∀ l, l ∈ splitLines (dropLine (x :: xs)) → l.getLast? = some 10 := by
        intro l hl
        exact hterm l (by rw [hsplit]; exact List.mem_cons_of_mem _ hl)
      have hlen2 : (dropLine (x :: xs)).length < fuel := by
        have hh : (dropLine (x :: xs)).length ≤ xs.length := by
          by_cases h10 : x = 10
          · simp [dropLine, h10]
          · simp only [dropLine, h10, if_false]; exact dropLine_length xs
        simp only [List.length_cons] at hlen
        omega
      have hcmp := strncmpEq_line a b c (takeLine (x :: xs))
        (buf.drop ((takeLine (x :: xs)).length + 1)) ha hb hc
      have hspec : specMessageCount [a, b, c] (splitLines (x :: xs))
          = (if (takeLine (x :: xs)).take 3 == [a, b, c] then 1 else 0)
            + specMessageCount [a, b, c] (splitLines (dropLine (x :: xs))) := by
        rw [hsplit]
        unfold specMessageCount
        rw [List.filter_cons]
        by_cases hm : (takeLine (x :: xs)).take 3 == [a, b, c]
        · have hh : ((takeLine (x :: xs)).headD 0 != 59) = true := by
            have e := beq_iff_eq.mp hm
            cases ht : takeLine (x :: xs) with
            | nil => rw [ht] at e; simp at e
            | cons y ys =>
              rw [ht] at e
              simp only [List.take_succ_cons, List.cons.injEq] at e
              simp only [List.headD_cons, bne_iff_ne, ne_eq]
              rw [e.1]; exact h59
          have hp : (fun l : List Nat => l.headD 0 != 59 && l.take 3 == [a, b, c])
              (takeLine (x :: xs)) = true := by
            show ((takeLine (x :: xs)).headD 0 != 59
              && (takeLine (x :: xs)).take 3 == [a, b, c]) = true
            rw [hh, hm]; rfl
          rw [if_pos hp, if_pos hm, List.length_cons]
          omega
        · have hp : ¬ ((fun l : List Nat => l.headD 0 != 59 && l.take 3 == [a, b, c])
              (takeLine (x :: xs)) = true) := by
            show ¬ (((takeLine (x :: xs)).headD 0 != 59
              && (takeLine (x :: xs)).take 3 == [a, b, c]) = true)
            rw [Bool.and_eq_true]
            exact fun h => hm h.2
          rw [if_neg hp, if_neg hm]
          omega
      unfold countMessages
      simp only [getline, heof, Bool.or_false, Bool.false_eq_true, if_false]
      rw [hcmp, hspec]
      by_cases hm : (takeLine (x :: xs)).take 3 == [a, b, c]
      · simp only [hm, if_true]
        rw [ih _ _ _ _ hlen2 hrec]
        omega
      · simp only [hm, Bool.false_eq_true, if_false]
        rw [ih _ _ _ _ hlen2 hrec]
        omega

theorem dropLine_of_hitsEof (rest : List Nat) (h : hitsEof rest = true) : dropLine rest = [] := by
  induction rest with
  | nil => rfl
  | cons c cs ih =>
    by_cases hc : c = 10
    · simp [hitsEof, hc] at h
    · simp only [hitsEof, hc, if_false] at h
      simp only [dropLine, hc, if_false]
      exact ih h

/-- What `getline` leaves of the stream: a suffix of the unread bytes, empty
when the end-of-file indicator is set. -/
theorem getline_stream (buf : List Nat) (fp : Stream) (h : fp.eof = true → fp.rest = []) :
    (getline buf fp).2.2.rest <:+ fp.rest ∧
    ((getline buf fp).2.2.eof = true → (getline buf fp).2.2.rest = []) := by
  unfold getline
  cases hr : fp.rest with
  | nil => exact ⟨List.suffix_refl _, fun _ => rfl⟩
  | cons c cs =>
    refine ⟨dropLine_suffix _, ?_⟩
    intro he
    simp only [Bool.or_eq_true] at he
    rcases he with he | he
    · have := h he
      rw [hr] at this
      cases this
    · exact dropLine_of_hitsEof _ he

theorem findIdentifier_stream :
    ∀ (fuel : Nat) (fp0 : Stream) (id : List Nat) (fp : Stream),
      (fp0.eof = true → fp0.rest = []) →
      findIdentifier fuel fp0 = .ok (id, fp) →
      fp.rest <:+ fp0.rest ∧ (fp.eof = true → fp.rest = []) ∧ peek id 0 ≠ 59 := by
  intro fuel
  induction fuel with
  | zero => intro fp0 id fp _ h; simp [findIdentifier] at h
  | succ fuel ih =>
    intro fp0 id fp h0 h
    obtain ⟨g1, g2⟩ := getline_stream [] fp0 h0
    unfold findIdentifier at h
    generalize getline [] fp0 = g at h g1 g2
    obtain ⟨ret, line, fp1⟩ := g
    simp only at h g1 g2
    by_cases hr : ret < 0
    · rw [if_pos hr] at h; cases h
    · rw [if_neg hr] at h
      by_cases hc : (peek line 0 != 59) = true
      · rw [if_pos hc] at h
        by_cases h5 : strlen line 0 > 5
        · rw [if_pos h5] at h; cases h
        · rw [if_neg h5] at h
          by_cases h2 : ret < 2
          · rw [if_pos h2] at h; cases h
          · rw [if_neg h2] at h
            simp only [Except.ok.injEq, Prod.mk.injEq] at h
            obtain ⟨hid, hfp⟩ := h
            subst hid; subst hfp
            refine ⟨g1, g2, ?_⟩
            simpa [peek] using hc
      · rw [if_neg hc] at h
        obtain ⟨r1, r2, r3⟩ := ih fp1 id fp g2 h
        exact ⟨r1.trans g1, r2, r3⟩

theorem drop_of_suffix (s l : List Nat) (h : s <:+ l) : l.drop (l.length - s.length) = s := by
  obtain ⟨t, rfl⟩ := h
  have : (t ++ s).length - s.length = t.length := by simp
  rw [this, List.drop_left]

/-- For every input that `setupheader` accepts, with an identifier of three
non-zero bytes, and all of whose lines after the identifier line end in LF:
the message count stored equals the number of lines after the identifier line
that start with the identifier. -/
theorem setupheader_count_terminated (fciSize : Nat) (input : List Nat) (info : MESSAGEINFO)
    (h : setupheader fciSize input = .ok info)
    (hid : ∀ x, x ∈ info.identifier → x ≠ 0)
    (hterm : ∀ l, l ∈ splitLines (input.drop info.msgstartline) → l.getLast? = some 10) :
    info.numbermsg
      = specMessageCount info.identifier (splitLines (input.drop info.msgstartline)) := by
  unfold setupheader at h
  cases hf : findIdentifier (input.length + 1) { rest := input, eof := false } with
  | error e => rw [hf] at h; cases h
  | ok r =>
    obtain ⟨id, fp⟩ := r
    rw [hf] at h
    simp only [Except.ok.injEq] at h
    subst h
    simp only at hid hterm ⊢
    obtain ⟨s1, s2, s3⟩ := findIdentifier_stream _ _ id fp (by intro h; cases h) hf
    have hdrop : input.drop (input.length - fp.rest.length) = fp.rest := drop_of_suffix _ _ s1
    rw [hdrop] at hterm ⊢
    -- the identifier is three bytes read from the line
    have hshape : ∃ a b c, id = [a, b, c] := by
      clear hterm hid
      generalize input.length + 1 = fuel at hf
      generalize ({ rest := input, eof := false } : Stream) = fp0 at hf
      induction fuel generalizing fp0 with
      | zero => simp [findIdentifier] at hf
      | succ fuel ih =>
        unfold findIdentifier at hf
        generalize getline [] fp0 = g at hf
        obtain ⟨ret, line, fp1⟩ := g
        simp only at hf
        by_cases hr : ret < 0
        · rw [if_pos hr] at hf; cases hf
        · rw [if_neg hr] at hf
          by_cases hc : (peek line 0 != 59) = true
          · rw [if_pos hc] at hf
            by_cases h5 : strlen line 0 > 5
            · rw [if_pos h5] at hf; cases hf
            · rw [if_neg h5] at hf
              by_cases h2 : ret < 2
              · rw [if_pos h2] at hf; cases hf
              · rw [if_neg h2] at hf
                simp only [Except.ok.injEq, Prod.mk.injEq] at hf
                exact ⟨_, _, _, hf.1.symm⟩
          · rw [if_neg hc] at hf
            exact ih fp1 hf
    obtain ⟨a, b, c, rfl⟩ := hshape
    have ha : a ≠ 0 := hid a (by simp)
    have hb : b ≠ 0 := hid b (by simp)
    have hc : c ≠ 0 := hid c (by simp)
    have h59 : a ≠ 59 := by simpa [peek] using s3
    cases he : fp.eof with
    | true =>
      have hrest := s2 he
      have hfp : fp = { rest := [], eof := true } := by
        cases fp; simp only at hrest he; rw [hrest, he]
      rw [hfp]
      simp [countMessages, getline, splitLines, specMessageCount]
    | false =>
      have hfp : fp = { rest := fp.rest, eof := false } := by
        cases fp; simp only at he; rw [he]
      rw [hfp]
      have hlen : fp.rest.length < input.length + 1 := by
        have := s1.length_le
        simp only at this
        omega
      rw [countMessages_terminated a b c ha hb hc h59 _ _ _ _ _ hlen hterm]
      simp

/-! ## The scanner: the identifier line and the first message number -/

theorem takeLine_ne_nil (c : Nat) (cs : List Nat) : takeLine (c :: cs) ≠ [] := by
  by_cases h : c = 10 <;> simp [takeLine, h]

theorem peek_line_nul (l : List Nat) (k : Nat) : peek (l ++ [0] ++ []) k = peek l k := by
  rw [List.append_nil]
  by_cases h : k < l.length
  · exact peek_append_left _ _ _ h
  · rw [peek_past l k (by omega)]
    by_cases h2 : k = l.length
    · subst h2
      have := peek_append_right l [0] 0
      simpa using this
    · exact peek_past _ _ (by simp; omega)

theorem strlen_line_nul (l : List Nat) : strlen (l ++ [0] ++ []) 0 = strlen l 0 := by
  have h1 := strlen_stops l 0
  apply strlen_eq
  · intro k hk
    rw [peek_line_nul]
    exact strlen_nonzero l 0 k hk
  · rw [peek_line_nul]; exact h1

/-- The first loop of `setupheader` on the first line that does not begin with
`;`: a line of more than five bytes before its first NUL ends the program with
status 99, any other line of at least two bytes gives the identifier. -/
theorem findIdentifier_first :
    ∀ (fuel : Nat) (rest : List Nat) (eof : Bool) (line : List Nat),
      rest.length < fuel →
      (splitLines rest).find? (fun l => l.headD 0 != 59) = some line →
      (5 < strlen line 0 → findIdentifier fuel { rest := rest, eof := eof } = .error .exit99) ∧
      (strlen line 0 ≤ 5 → 2 ≤ line.length →
        ∃ fp, findIdentifier fuel { rest := rest, eof := eof }
          = .ok ([peek line 0, peek line 1, peek line 2], fp)) := by
  intro fuel
  induction fuel with
  | zero => intro rest eof line h; omega
  | succ fuel ih =>
    intro rest eof line hlen hfind
    cases rest with
    | nil => simp [splitLines] at hfind
    | cons x xs =>
      rw [splitLines_cons, List.find?_cons] at hfind
      have hne := takeLine_ne_nil x xs
      have hret : ¬ (((takeLine (x :: xs)).length : Int) < 0) := by omega
      have hhead : (takeLine (x :: xs)).headD 0 = peek (takeLine (x :: xs)) 0 := by
        cases ht : takeLine (x :: xs) with
        | nil => exact absurd ht hne
        | cons y ys => simp [peek]
      rw [hhead] at hfind
      have hlen2 : (dropLine (x :: xs)).length < fuel := by
        have hh : (dropLine (x :: xs)).length ≤ xs.length := by
          by_cases h10 : x = 10
          · simp [dropLine, h10]
          · simp only [dropLine, h10, if_false]; exact dropLine_length xs
        simp only [List.length_cons] at hlen
        omega
      unfold findIdentifier
      simp only [getline, List.drop_nil]
      rw [if_neg hret, strlen_line_nul, peek_line_nul, peek_line_nul, peek_line_nul]
      by_cases hp : (peek (takeLine (x :: xs)) 0 != 59) = true
      · rw [hp] at hfind
        simp only [Option.some.injEq] at hfind
        rw [if_pos hp, hfind]
        constructor
        · intro h5
          rw [if_pos h5]
        · intro h5 h2
          rw [if_neg (by omega)]
          have : ¬ ((line.length : Int) < 2) := by omega
          rw [if_neg this]
          exact ⟨_, rfl⟩
      · have hp' : (peek (takeLine (x :: xs)) 0 != 59) = false := by
          simpa using hp
        rw [hp'] at hfind
        rw [if_neg hp]
        exact ih _ _ line hlen2 hfind

theorem atoi_digits (c0 c1 c2 c3 : Nat) (h0 : isdigit c0 = true) (h1 : isdigit c1 = true)
    (h2 : isdigit c2 = true) (h3 : isdigit c3 = true) :
    atoi [c0, c1, c2, c3]
      = ((1000 * (c0 - 48) + 100 * (c1 - 48) + 10 * (c2 - 48) + (c3 - 48) : Nat) : Int) := by
  have b0 : 48 ≤ c0 ∧ c0 ≤ 57 := by simpa [isdigit] using h0
  have b1 : 48 ≤ c1 ∧ c1 ≤ 57 := by simpa [isdigit] using h1
  have b2 : 48 ≤ c2 ∧ c2 ≤ 57 := by simpa [isdigit] using h2
  have b3 : 48 ≤ c3 ∧ c3 ≤ 57 := by simpa [isdigit] using h3
  have n0 : (c0 != 0) = true := by simp; omega
  have n1 : (c1 != 0) = true := by simp; omega
  have n2 : (c2 != 0) = true := by simp; omega
  have n3 : (c3 != 0) = true := by simp; omega
  have s0 : isspace c0 = false := by
    simp only [isspace, Bool.or_eq_false_iff, beq_eq_false_iff_ne, ne_eq]
    omega
  have e : ((([c0, c1, c2, c3] : List Nat).takeWhile (fun b => b != 0)).dropWhile isspace)
      = [c0, c1, c2, c3] := by
    simp [List.takeWhile_cons, List.dropWhile_cons, n0, n1, n2, n3, s0]
  unfold atoi
  rw [e]
  have hv : digitsValue [c0, c1, c2, c3]
      = 1000 * (c0 - 48) + 100 * (c1 - 48) + 10 * (c2 - 48) + (c3 - 48) := by
    simp only [digitsValue, List.takeWhile_cons, h0, h1, h2, h3, if_true, List.takeWhile_nil,
      List.foldl_cons, List.foldl_nil]
    omega
  split
  · rename_i t heq
    simp only [List.cons.injEq] at heq
    omega
  · rename_i t heq
    simp only [List.cons.injEq] at heq
    omega
  · rw [hv]


theorem countMessages_keeps (identifier : List Nat) :
    ∀ (fuel : Nat) (buf : List Nat) (fp : Stream) (n : Nat) (v : Int),
      (countMessages identifier fuel buf fp n (some v)).2 = some v := by
  intro fuel
  induction fuel with
  | zero => intro buf fp n v; rfl
  | succ fuel ih =>
    intro buf fp n v
    unfold countMessages
    generalize getline buf fp = g
    obtain ⟨ret, buf1, fp1⟩ := g
    simp only
    by_cases he : fp1.eof = true
    · rw [if_pos he]
    · rw [if_neg he]
      by_cases hm : strncmpEq 3 identifier buf1 = true
      · rw [if_pos hm]; exact ih _ _ _ _
      · rw [if_neg hm]; exact ih _ _ _ _

theorem peek_line_buffer (l junk : List Nat) (k : Nat) (h : k < l.length) :
    peek (l ++ [0] ++ junk) k = peek l k := by
  rw [List.append_assoc]
  exact peek_append_left _ _ _ h

/-- The counting loop of `setupheader` on unread bytes whose first line that
starts with the identifier ends in LF: the first message number is read from
columns 3 to 6 of that line. -/
theorem countMessages_first (a b c : Nat) (ha : a ≠ 0) (hb : b ≠ 0) (hc : c ≠ 0) :
    ∀ (fuel : Nat) (rest buf : List Nat) (n : Nat) (line : List Nat),
      rest.length < fuel →
      (splitLines rest).find? (fun l => l.take 3 == [a, b, c]) = some line →
      line.getLast? = some 10 →
      7 ≤ line.length →
      (countMessages [a, b, c] fuel buf { rest := rest, eof := false } n none).2
        = some (atoi [peek line 3, peek line 4, peek line 5, peek line 6]) := by
  intro fuel
  induction fuel with
  | zero => intro rest buf n line h; omega
  | succ fuel ih =>
    intro rest buf n line hlen hfind hlf h7
    cases rest with
    | nil => simp [splitLines] at hfind
    | cons x xs =>
      rw [splitLines_cons, List.find?_cons] at hfind
      have hlen2 : (dropLine (x :: xs)).length < fuel := by
        have hh : (dropLine (x :: xs)).length ≤ xs.length := by
          by_cases h10 : x = 10
          · simp [dropLine, h10]
          · simp only [dropLine, h10, if_false]; exact dropLine_length xs
        simp only [List.length_cons] at hlen
        omega
      have hcmp := strncmpEq_line a b c (takeLine (x :: xs))
        (buf.drop ((takeLine (x :: xs)).length + 1)) ha hb hc
      by_cases hm : ((takeLine (x :: xs)).take 3 == [a, b, c]) = true
      · rw [hm] at hfind
        simp only [Option.some.injEq] at hfind
        have heof : hitsEof (x :: xs) = false :=
          hitsEof_false_of_last _ (by rw [hfind]; exact hlf)
        unfold countMessages
        simp only [getline, heof, Bool.or_false, Bool.false_eq_true, if_false]
        rw [hcmp, hm, if_pos rfl, countMessages_keeps, hfind,
          peek_line_buffer _ _ 3 (by omega), peek_line_buffer _ _ 4 (by omega),
          peek_line_buffer _ _ 5 (by omega), peek_line_buffer _ _ 6 (by omega)]
      · have hm' : ((takeLine (x :: xs)).take 3 == [a, b, c]) = false := by simpa using hm
        rw [hm'] at hfind
        have heof : hitsEof (x :: xs) = false := by
          cases hh : hitsEof (x :: xs) with
          | false => rfl
          | true =>
            rw [dropLine_of_hitsEof _ hh] at hfind
            simp [splitLines] at hfind
        unfold countMessages
        simp only [getline, heof, Bool.or_false, Bool.false_eq_true, if_false]
        rw [hcmp, hm']
        simp only [Bool.false_eq_true, if_false]
        exact ih _ _ _ line hlen2 hfind hlf h7

/-- What `setupheader` returns, in terms of its two loops. -/
theorem setupheader_parts (fciSize : Nat) (input : List Nat) (info : MESSAGEINFO)
    (h : setupheader fciSize input = .ok info) :
    ∃ a b c fp,
      findIdentifier (input.length + 1) { rest := input, eof := false } = .ok ([a, b, c], fp) ∧
      info.identifier = [a, b, c] ∧
      input.drop info.msgstartline = fp.rest ∧
      info.numbermsg = (countMessages [a, b, c] (input.length + 1) [] fp 0 none).1 ∧
      info.firstmsg = (countMessages [a, b, c] (input.length + 1) [] fp 0 none).2 ∧
      info.offsetid = (if input.length ≤ 40000 then 1 else 0) ∧
      info.indexsize = (if input.length ≤ 40000 then info.numbermsg * 2 else info.numbermsg * 4) ∧
      info.hdroffset = 0x1F ∧ info.indexoffset = 0x1F ∧
      info.countryinfo = 0x1F + info.indexsize ∧
      info.msgoffset = 0x1F + info.indexsize + fciSize := by
  unfold setupheader at h
  cases hf : findIdentifier (input.length + 1) { rest := input, eof := false } with
  | error e => rw [hf] at h; cases h
  | ok r =>
    obtain ⟨id, fp⟩ := r
    rw [hf] at h
    simp only [Except.ok.injEq] at h
    subst h
    obtain ⟨s1, _, _⟩ := findIdentifier_stream _ _ id fp (by intro h; cases h) hf
    have hdrop : input.drop (input.length - fp.rest.length) = fp.rest := drop_of_suffix _ _ s1
    have hshape : ∃ a b c, id = [a, b, c] := by
      generalize input.length + 1 = fuel at hf
      generalize ({ rest := input, eof := false } : Stream) = fp0 at hf
      clear s1 hdrop
      induction fuel generalizing fp0 with
      | zero => simp [findIdentifier] at hf
      | succ fuel ih =>
        unfold findIdentifier at hf
        generalize getline [] fp0 = g at hf
        obtain ⟨ret, line, fp1⟩ := g
        simp only at hf
        by_cases hr : ret < 0
        · rw [if_pos hr] at hf; cases hf
        · rw [if_neg hr] at hf
          by_cases hc : (peek line 0 != 59) = true
          · rw [if_pos hc] at hf
            by_cases h5 : strlen line 0 > 5
            · rw [if_pos h5] at hf; cases hf
            · rw [if_neg h5] at hf
              by_cases h2 : ret < 2
              · rw [if_pos h2] at hf; cases hf
              · rw [if_neg h2] at hf
                simp only [Except.ok.injEq, Prod.mk.injEq] at hf
                exact ⟨_, _, _, hf.1.symm⟩
          · rw [if_neg hc] at hf
            exact ih fp1 hf
    obtain ⟨a, b, c, rfl⟩ := hshape
    refine ⟨a, b, c, fp, rfl, rfl, hdrop, rfl, rfl, rfl, ?_, rfl, rfl, rfl, rfl⟩
    by_cases h4 : input.length ≤ 40000
    · simp [h4]
    · simp [h4]

/-- For every input that `setupheader` accepts, with an identifier of three
non-zero bytes: when the first line after the identifier line that starts with
the identifier ends in LF and has decimal digits in columns 3 to 6, the first
message number stored is the value of these digits. -/
theorem setupheader_firstmsg_terminated (fciSize : Nat) (input : List Nat) (info : MESSAGEINFO)
    (line : List Nat)
    (h : setupheader fciSize input = .ok info)
    (hid : ∀ x, x ∈ info.identifier → x ≠ 0)
    (hfind : (splitLines (input.drop info.msgstartline)).find?
      (fun l => l.take 3 == info.identifier) = some line)
    (hlf : line.getLast? = some 10)
    (h3 : isdigit (peek line 3) = true) (h4 : isdigit (peek line 4) = true)
    (h5 : isdigit (peek line 5) = true) (h6 : isdigit (peek line 6) = true) :
    info.firstmsg = some (((1000 * (peek line 3 - 48) + 100 * (peek line 4 - 48)
      + 10 * (peek line 5 - 48) + (peek line 6 - 48) : Nat) : Int)) := by
  obtain ⟨a, b, c, fp, hf, e1, e2, _, e4, _⟩ := setupheader_parts fciSize input info h
  rw [e1] at hid hfind
  rw [e2] at hfind
  obtain ⟨s1, s2, _⟩ := findIdentifier_stream _ _ _ fp (by intro h; cases h) hf
  have ha : a ≠ 0 := hid a (by simp)
  have hb : b ≠ 0 := hid b (by simp)
  have hc : c ≠ 0 := hid c (by simp)
  have h7 : 7 ≤ line.length := by
    by_contra hlt
    have : peek line 6 = 0 := peek_past _ _ (by omega)
    rw [this] at h6
    simp [isdigit] at h6
  have hne : fp.eof = false := by
    cases he : fp.eof with
    | false => rfl
    | true =>
      rw [s2 he] at hfind
      simp [splitLines] at hfind
  have hfp : fp = { rest := fp.rest, eof := false } := by
    cases fp; simp only at hne; rw [hne]
  have hlen : fp.rest.length < input.length + 1 := by
    have := s1.length_le
    simp only at this
    omega
  rw [e4, hfp, countMessages_first a b c ha hb hc _ _ _ _ line hlen hfind hlf h7,
    atoi_digits _ _ _ _ h3 h4 h5 h6]


theorem leBytes_length (width v : Nat) : (leBytes width v).length = width := by
  simp [leBytes]

theorem indexBytes_length (offsetid : Nat) (index : List Nat) :
    (indexBytes offsetid index).length = (if offsetid != 0 then 2 else 4) * index.length := by
  unfold indexBytes
  induction index with
  | nil => simp
  | cons v vs ih =>
    rw [List.flatMap_cons, List.length_append, ih, leBytes_length, List.length_cons]
    ring

theorem getline_ret_ne_zero (buf : List Nat) (fp : Stream) : (getline buf fp).1 ≠ 0 := by
  unfold getline
  cases hr : fp.rest with
  | nil => simp
  | cons c cs =>
    have := takeLine_ne_nil c cs
    simp only [ne_eq, Int.natCast_eq_zero, List.length_eq_zero]
    exact this

/-! ## The binary file: lengths and bytes after positioned writes -/

theorem poke_length (m : List Nat) (i v : Nat) :
    (poke m i v).length = if i < m.length then m.length else i + 1 := by
  unfold poke
  by_cases h : i < m.length
  · simp [h]
  · simp only [h, if_false, List.length_append, List.length_replicate, List.length_cons,
      List.length_nil]
    omega

theorem writeAt_length (bs : List Nat) :
    ∀ (f : List Nat) (pos : Nat),
      (writeAt f pos bs).length
        = if bs = [] ∨ pos + bs.length ≤ f.length then f.length else pos + bs.length := by
  induction bs with
  | nil => intro f pos; simp [writeAt]
  | cons b bs ih =>
    intro f pos
    unfold writeAt
    rw [ih, poke_length]
    simp only [List.length_cons, List.cons_ne_nil, false_or]
    by_cases hb : bs = []
    · subst hb
      simp only [true_or, if_true, List.length_nil]
      split_ifs <;> omega
    · have hl : 0 < bs.length := List.length_pos.mpr hb
      simp only [hb, false_or]
      split_ifs <;> omega

theorem writeAt_length_ge (f : List Nat) (pos : Nat) (bs : List Nat) :
    f.length ≤ (writeAt f pos bs).length := by
  rw [writeAt_length]
  split <;> omega

theorem peek_writeAt (bs : List Nat) :
    ∀ (f : List Nat) (pos j : Nat),
      peek (writeAt f pos bs) j
        = if pos ≤ j ∧ j < pos + bs.length then peek bs (j - pos) else peek f j := by
  induction bs with
  | nil =>
    intro f pos j
    simp only [writeAt, List.length_nil]
    rw [if_neg (by omega)]
  | cons b bs ih =>
    intro f pos j
    unfold writeAt
    rw [ih, peek_poke]
    simp only [List.length_cons]
    by_cases h1 : j = pos
    · subst h1
      rw [if_neg (by omega), if_pos rfl, if_pos (by omega)]
      simp [peek]
    · by_cases h2 : pos + 1 ≤ j ∧ j < pos + 1 + bs.length
      · rw [if_pos h2, if_pos (by omega)]
        have e : j - pos = (j - (pos + 1)) + 1 := by omega
        rw [e, peek_cons_succ]
      · rw [if_neg h2, if_neg h1, if_neg (by omega)]

theorem foldl_writeAt_length_ge (ws : List Written) :
    ∀ f : List Nat, f.length ≤ (ws.foldl (fun f w => writeAt f w.pos w.bytes) f).length := by
  induction ws with
  | nil => intro f; exact Nat.le_refl _
  | cons w ws ih =>
    intro f
    rw [List.foldl_cons]
    exact Nat.le_trans (writeAt_length_ge f w.pos w.bytes) (ih _)

theorem writeheader_length (fciSize : Nat) (msgheader cntryheader : List Nat)
    (info : MESSAGEINFO) :
    (writeheader fciSize msgheader cntryheader info).length
      = info.hdroffset + info.indexsize + fciSize := by
  simp [writeheader, writecountryblock, bytesAt_length]
  omega

theorem finishMsgFile_length_ge (extfake : List Nat) (info : MESSAGEINFO)
    (headerFile : List Nat) (run : MsgRun) :
    headerFile.length ≤ (finishMsgFile extfake 0 info headerFile run).length := by
  unfold finishMsgFile
  simp only [bne_self_eq_false, Bool.false_eq_true, if_false]
  exact Nat.le_trans (foldl_writeAt_length_ge _ _) (writeAt_length_ge _ _ _)

theorem leBytes_peek (v k : Nat) (h : k < 4) : peek (leBytes 4 v) k = v / 256 ^ k % 256 := by
  interval_cases k <;> simp [leBytes, peek, List.range_succ]

/-- The first call of `fwrite` of the loop of `writemsgfile` goes to the
position the output file had when the loop was entered. -/
theorem msgLoop_first_write (identifier : List Nat) (offsetid p0 : Nat) :
    ∀ (fuel : Nat) (st st' : MsgRun),
      ((st.writes = [] → st.fpo = p0) ∧ ∀ w, st.writes.head? = some w → w.pos = p0) →
      msgLoop identifier offsetid fuel st = .ok st' →
      ∀ w, st'.writes.head? = some w → w.pos = p0 := by
  intro fuel
  induction fuel with
  | zero => intro st st' _ h; simp [msgLoop] at h
  | succ fuel ih =>
    intro st st' hc h
    obtain ⟨sw, sf, _, _⟩ := storeIndex_fields offsetid st
    have hs : ((storeIndex offsetid st).writes = [] → (storeIndex offsetid st).fpo = p0) ∧
        ∀ w, (storeIndex offsetid st).writes.head? = some w → w.pos = p0 := by
      rw [sw, sf]; exact hc
    unfold msgLoop at h
    split at h
    · cases h; exact hc.2
    · simp only at h
      split at h
      · cases h
        exact hs.2
      · split at h
        · have key := fun hh => ih _ st' hh h
          exact key hs
        · cases h
        · rename_i newmsg bytes pre1 _
          have key := fun hh => ih _ st' hh h
          apply key
          simp only
          constructor
          · intro he
            simp at he
          · intro w hw
            cases hws : (storeIndex offsetid st).writes with
            | nil =>
              rw [hws] at hw
              simp only [List.nil_append, List.head?_cons, Option.some.injEq] at hw
              rw [← hw]
              exact hs.1 hws
            | cons x xs =>
              rw [hws] at hw
              simp only [List.cons_append, List.head?_cons, Option.some.injEq] at hw
              apply hs.2
              rw [hws, ← hw]
              rfl

/-! ## The textual emitter: labels and literals -/

theorem emitBody_char (size c : Nat) (rest : List Nat) (outlen : Int) (hc : c ≠ 13) :
    emitBody size (c :: rest) outlen
      = if outlen > (size : Int) then .split :: .char c :: emitBody size rest 1
        else .char c :: emitBody size rest (outlen + 1) :=
  emitBody.eq_3 size outlen c rest (fun _ h _ => hc h)

theorem emitBody_crlf (size : Nat) (rest : List Nat) (outlen : Int) :
    emitBody size (13 :: 10 :: rest) outlen
      = if outlen > (size : Int) then .split :: .crlf :: emitBody size rest 0
        else .crlf :: emitBody size rest 0 :=
  emitBody.eq_2 size outlen rest

theorem chunkSizes_char (c : Nat) (ps : List Piece) (n : Nat) :
    chunkSizes (.char c :: ps) n = chunkSizes ps (n + 1) := rfl

theorem chunkSizes_split (ps : List Piece) (n : Nat) :
    chunkSizes (.split :: ps) n = n :: chunkSizes ps 0 := rfl

theorem chunkSizes_crlf (ps : List Piece) (n : Nat) :
    chunkSizes (.crlf :: ps) n = n :: chunkSizes ps 0 := rfl

theorem chunkSizes_close (ps : List Piece) (n : Nat) :
    chunkSizes (.close :: ps) n = n :: chunkSizes ps 0 := rfl

/-- A run of `k` bytes `c` that fits into the literal that is open is copied
without a split. -/
theorem emitBody_run (size c : Nat) (hc : c ≠ 13) (t : List Nat) :
    ∀ (k : Nat) (outlen : Int), outlen + (k : Int) ≤ (size : Int) + 1 →
      emitBody size (List.replicate k c ++ t) outlen
        = List.replicate k (.char c) ++ emitBody size t (outlen + (k : Int)) := by
  intro k
  induction k with
  | zero => intro outlen _; simp
  | succ k ih =>
    intro outlen h
    rw [List.replicate_succ, List.cons_append, emitBody_char _ _ _ _ hc]
    have hle : ¬ (outlen > (size : Int)) := by push_cast at h; omega
    have e : outlen + 1 + (k : Int) = outlen + ((k + 1 : Nat) : Int) := by push_cast; omega
    rw [if_neg hle, ih (outlen + 1) (by push_cast at h ⊢; omega), e]
    simp only [List.replicate_succ, List.cons_append]

theorem chunkSizes_run (c : Nat) (t : List Piece) :
    ∀ (k n : Nat), chunkSizes (List.replicate k (.char c) ++ t) n = chunkSizes t (n + k) := by
  intro k
  induction k with
  | zero => intro n; simp
  | succ k ih =>
    intro n
    rw [List.replicate_succ, List.cons_append, chunkSizes_char, ih]
    congr 1
    omega

/-- The three shapes of a body the loop of lines 849-869 distinguishes: empty,
starting with CR LF, or starting with a byte that is copied. -/
theorem emitBody_cases (size : Nat) (body : List Nat) (outlen : Int) :
    (body = [] ∧ emitBody size body outlen = if (outlen != 0) = true then [.close] else []) ∨
    (∃ rest, body = 13 :: 10 :: rest ∧
      emitBody size body outlen
        = if outlen > (size : Int) then .split :: .crlf :: emitBody size rest 0
          else .crlf :: emitBody size rest 0) ∨
    (∃ c rest, body = c :: rest ∧
      emitBody size body outlen
        = if outlen > (size : Int) then .split :: .char c :: emitBody size rest 1
          else .char c :: emitBody size rest (outlen + 1)) := by
  match body with
  | [] => left; exact ⟨rfl, emitBody.eq_1 size outlen⟩
  | [c] =>
    right; right
    exact ⟨c, [], rfl, emitBody.eq_3 size outlen c [] (fun _ _ h => by cases h)⟩
  | c :: d :: rest =>
    by_cases h : c = 13 ∧ d = 10
    · right; left
      obtain ⟨h1, h2⟩ := h
      subst h1; subst h2
      exact ⟨rest, rfl, emitBody.eq_2 size outlen rest⟩
    · right; right
      refine ⟨c, d :: rest, rfl, emitBody.eq_3 size outlen c (d :: rest) ?_⟩
      intro r hc hr
      simp only [List.cons.injEq] at hr
      exact h ⟨hc, hr.1⟩

/-- Every string literal of a body holds at most `ASM_MSG_SIZE + 1` body
bytes. -/
theorem chunkSizes_bound (size : Nat) :
    ∀ (n : Nat) (body : List Nat) (outlen : Int) (c : Nat),
      body.length ≤ n → 0 ≤ outlen → outlen ≤ (size : Int) + 1 → (c : Int) ≤ outlen →
      ∀ x, x ∈ chunkSizes (emitBody size body outlen) c → x ≤ size + 1 := by
  intro n
  induction n with
  | zero =>
    intro body outlen c hl h0 h1 hc x hx
    have hb : body = [] := List.length_eq_zero.mp (by omega)
    subst hb
    rw [emitBody.eq_1] at hx
    split at hx
    · rw [chunkSizes_close] at hx
      simp [chunkSizes] at hx
      omega
    · simp only [chunkSizes] at hx
      split at hx
      · simp at hx
      · simp at hx; omega
  | succ n ih =>
    intro body outlen c hl h0 h1 hc x hx
    rcases emitBody_cases size body outlen with ⟨hb, he⟩ | ⟨rest, hb, he⟩ | ⟨ch, rest, hb, he⟩
    · rw [he] at hx
      split at hx
      · rw [chunkSizes_close] at hx
        simp [chunkSizes] at hx
        omega
      · simp only [chunkSizes] at hx
        split at hx
        · simp at hx
        · simp at hx; omega
    · rw [he] at hx
      have hlen : rest.length ≤ n := by rw [hb] at hl; simp at hl; omega
      have key := ih rest 0 0 hlen (by omega) (by omega) (by simp)
      split at hx
      · rw [chunkSizes_split, chunkSizes_crlf] at hx
        simp only [List.mem_cons] at hx
        rcases hx with hx | hx | hx
        · omega
        · omega
        · exact key x hx
      · rw [chunkSizes_crlf] at hx
        simp only [List.mem_cons] at hx
        rcases hx with hx | hx
        · omega
        · exact key x hx
    · rw [he] at hx
      have hlen : rest.length ≤ n := by rw [hb] at hl; simp at hl; omega
      split at hx
      · rw [chunkSizes_split, chunkSizes_char] at hx
        simp only [List.mem_cons] at hx
        rcases hx with hx | hx
        · omega
        · exact ih rest 1 1 hlen (by omega) (by omega) (by simp) x hx
      · rw [chunkSizes_char] at hx
        exact ih rest (outlen + 1) (c + 1) hlen (by omega) (by omega) (by push_cast; omega) x hx

/-- The first string literal of a body holds at most `ASM_MSG_SIZE` body
bytes. -/
theorem chunkSizes_first_bound (size : Nat) :
    ∀ (n : Nat) (body : List Nat) (outlen : Int) (c : Nat),
      body.length ≤ n → outlen ≤ (size : Int) + 1 → (c : Int) + 1 ≤ outlen →
      ∀ x, (chunkSizes (emitBody size body outlen) c).head? = some x → x ≤ size := by
  intro n
  induction n with
  | zero =>
    intro body outlen c hl h1 hc x hx
    have hb : body = [] := List.length_eq_zero.mp (by omega)
    subst hb
    rw [emitBody.eq_1] at hx
    have hne : (outlen != 0) = true := by simp; omega
    rw [if_pos hne, chunkSizes_close] at hx
    simp at hx
    omega
  | succ n ih =>
    intro body outlen c hl h1 hc x hx
    rcases emitBody_cases size body outlen with ⟨hb, he⟩ | ⟨rest, hb, he⟩ | ⟨ch, rest, hb, he⟩
    · rw [he] at hx
      have hne : (outlen != 0) = true := by simp; omega
      rw [if_pos hne, chunkSizes_close] at hx
      simp at hx
      omega
    · rw [he] at hx
      split at hx
      · rw [chunkSizes_split] at hx
        simp at hx
        omega
      · rw [chunkSizes_crlf] at hx
        simp at hx
        omega
    · rw [he] at hx
      have hlen : rest.length ≤ n := by rw [hb] at hl; simp at hl; omega
      split at hx
      · rw [chunkSizes_split] at hx
        simp at hx
        omega
      · rw [chunkSizes_char] at hx
        exact ih rest (outlen + 1) (c + 1) hlen (by omega) (by push_cast; omega) x hx

/-! ## The language option -/

/-- What `DecodeLangOpt` returns, by the language fields it leaves: the code
`MKMSG_LANG_OUT_RANGE` for a family id outside 1..34, the code
`MKMSG_SUBID_OUT_RANGE` when no entry of the table has the family and sub id,
and 1 otherwise. -/
theorem DecodeLangOpt_reports (langOutRange subidOutRange : Int) (langinfo : Nat → Int × Int)
    (dargs : List Nat) (ret : Int) (lang : Lang)
    (h : DecodeLangOpt langOutRange subidOutRange langinfo dargs = some (ret, lang)) :
    ((lang.langfamilyID < 1 ∨ 34 < lang.langfamilyID) → ret = langOutRange) ∧
    (1 ≤ lang.langfamilyID → lang.langfamilyID ≤ 34 →
      findLang langinfo lang.langfamilyID lang.langversionID = 0 → ret = subidOutRange) ∧
    (1 ≤ lang.langfamilyID → lang.langfamilyID ≤ 34 →
      findLang langinfo lang.langfamilyID lang.langversionID ≠ 0 → ret = 1) := by
  unfold DecodeLangOpt at h
  simp only at h
  split at h
  · cases h
  · rename_i family sub _
    by_cases h1 : (family < 1 || family > 34) = true
    · rw [if_pos h1] at h
      simp only [Option.some.injEq, Prod.mk.injEq] at h
      obtain ⟨hr, hl⟩ := h
      subst hr; subst hl
      simp only [Bool.or_eq_true, decide_eq_true_eq] at h1
      refine ⟨fun _ => rfl, ?_, ?_⟩
      · intro a b; simp only at a b; omega
      · intro a b; simp only at a b; omega
    · rw [if_neg h1] at h
      simp only [Bool.or_eq_true, decide_eq_true_eq, not_or, not_lt] at h1
      by_cases h2 : (findLang langinfo family sub == 0) = true
      · rw [if_pos h2] at h
        simp only [Option.some.injEq, Prod.mk.injEq] at h
        obtain ⟨hr, hl⟩ := h
        subst hr; subst hl
        refine ⟨?_, fun _ _ _ => rfl, ?_⟩
        · intro a; simp only at a; omega
        · intro _ _ c
          simp only at c
          exact absurd (beq_iff_eq.mp h2) c
      · rw [if_neg h2] at h
        simp only [Option.some.injEq, Prod.mk.injEq] at h
        obtain ⟨hr, hl⟩ := h
        subst hr; subst hl
        refine ⟨?_, ?_, fun _ _ _ => rfl⟩
        · intro a; simp only at a; omega
        · intro _ _ c
          simp only at c
          rw [c] at h2
          simp at h2

/-- The first language option of a command line never ends the program:
whatever `DecodeLangOpt` returns is stored in `proclang`, reduced to 8 bits,
and the option loop goes on. -/
theorem handleOption_language (env : Env) (o : Options) (arg : List Nat) (ret : Int)
    (lang : Lang) (hp : o.proclang = 0)
    (h : DecodeLangOpt env.langOutRange env.subidOutRange env.langinfo arg = some (ret, lang)) :
    handleOption env o (.L arg)
      = .ok { o with langfamilyID := lang.langfamilyID, langversionID := lang.langversionID,
                     proclang := (ret % 256).toNat } := by
  unfold handleOption
  simp only [hp, h]
  rfl

/-! ## The fixups: positions inside the body slice -/

/-- On a slice of at least two bytes the second check touches positions of
the slice only. -/
theorem touchedLineEndMsg_inside (m : List Nat) (readptr len : Nat) (h : 2 ≤ len) :
    ∀ o, o ∈ touchedLineEndMsg m readptr len → 0 ≤ o ∧ o < (len : Int) := by
  intro o ho
  unfold touchedLineEndMsg at ho
  split at ho
  · split at ho
    · split at ho
      · simp only [List.mem_cons, List.mem_singleton, List.mem_nil_iff, or_false] at ho
        omega
      · simp only [List.mem_cons, List.mem_singleton, List.mem_nil_iff, or_false] at ho
        omega
    · simp only [List.mem_cons, List.mem_singleton, List.mem_nil_iff, or_false] at ho
      omega
  · simp at ho

/-- On a slice of at least four bytes the third check touches positions of
the slice only. -/
theorem touchedPlaceholder_inside (m : List Nat) (readptr len : Nat) (h : 4 ≤ len) :
    ∀ o, o ∈ touchedPlaceholder m readptr len → 0 ≤ o ∧ o < (len : Int) := by
  intro o ho
  unfold touchedPlaceholder at ho
  split at ho
  · split at ho
    · simp only [List.mem_cons, List.mem_singleton, List.mem_nil_iff, or_false] at ho
      omega
    · simp only [List.mem_cons, List.mem_singleton, List.mem_nil_iff, or_false] at ho
      omega
  · simp only [List.mem_cons, List.mem_singleton, List.mem_nil_iff, or_false] at ho
    omega

/-! ## The fixups: bounds on the length of the body -/

theorem strlen_le_of_zero (m : List Nat) (p n : Nat) (h : peek m (p + n) = 0) :
    strlen m p ≤ n := by
  by_contra hlt
  exact strlen_nonzero m p n (by omega) h

theorem strlen_pos (m : List Nat) (p : Nat) (h : peek m p ≠ 0) : 1 ≤ strlen m p := by
  by_contra hlt
  have h0 : strlen m p = 0 := by omega
  have := strlen_stops m p
  rw [h0] at this
  exact h this

theorem strlen_ge_two (m : List Nat) (p : Nat) (h0 : peek m p ≠ 0) (h1 : peek m (p + 1) ≠ 0) :
    2 ≤ strlen m p := by
  by_contra hlt
  have hs := strlen_stops m p
  have hp := strlen_pos m p h0
  have h1' : strlen m p = 1 := by omega
  rw [h1'] at hs
  exact h1 hs

/-- The line-ending fixup of `writemsgfile` returns the length of the string
at `readptr`, makes the string at most one byte longer, and leaves the bytes
before the last byte of the string as they are. -/
theorem fixLineEndMsg_len (m : List Nat) (rp : Nat) :
    (fixLineEndMsg m rp (strlen m rp)).2 = strlen (fixLineEndMsg m rp (strlen m rp)).1 rp ∧
    (fixLineEndMsg m rp (strlen m rp)).2 ≤ strlen m rp + 1 ∧
    (∀ j, j + 1 < rp + strlen m rp → peek (fixLineEndMsg m rp (strlen m rp)).1 j = peek m j) := by
  unfold fixLineEndMsg
  split
  · refine ⟨rfl, ?_, ?_⟩
    · apply strlen_le_of_zero
      rw [peek_poke, if_pos (by omega)]
    · intro j hj
      rw [peek_poke, peek_poke, peek_poke, if_neg (by omega), if_neg (by omega),
        if_neg (by omega)]
  · exact ⟨rfl, by omega, fun _ _ => rfl⟩

/-- The placeholder fixup returns the length of the string at `readptr` and
does not make the string longer. -/
theorem fixPlaceholder_len (m : List Nat) (rp len : Nat) (hlen : len = strlen m rp) :
    (fixPlaceholder m rp len).2 = strlen (fixPlaceholder m rp len).1 rp ∧
    (fixPlaceholder m rp len).2 ≤ len := by
  unfold fixPlaceholder
  split
  · refine ⟨rfl, ?_⟩
    apply strlen_le_of_zero
    have h0 : peek m (rp + len) = 0 := by rw [hlen]; exact strlen_stops m rp
    rw [peek_poke, peek_poke, peek_poke, peek_poke]
    split_ifs <;> first | rfl | exact h0
  · exact ⟨hlen, Nat.le_refl _⟩

/-- The two fixups of `writemsgfile` make the string at `readptr` at most one
byte longer, and not longer when it is empty or ends in LF. -/
theorem normalizeMsg_le (m : List Nat) (rp : Nat) :
    (normalizeMsg m rp).2 ≤ strlen m rp + 1 ∧
    ((strlen m rp = 0 ∨ peek m (rp + strlen m rp - 1) = 10) →
      (normalizeMsg m rp).2 ≤ strlen m rp) := by
  obtain ⟨a1, a2, _⟩ := fixLineEndMsg_len m rp
  have b := fixPlaceholder_len (fixLineEndMsg m rp (strlen m rp)).1 rp
    (fixLineEndMsg m rp (strlen m rp)).2 a1
  have e : normalizeMsg m rp
      = fixPlaceholder (fixLineEndMsg m rp (strlen m rp)).1 rp
          (fixLineEndMsg m rp (strlen m rp)).2 := rfl
  rw [e]
  refine ⟨by omega, ?_⟩
  intro h
  have hskip : fixLineEndMsg m rp (strlen m rp) = (m, strlen m rp) := by
    rcases h with h | h
    · simp [fixLineEndMsg, h]
    · exact fixLineEndMsg_of_lf m rp _ h
  rw [hskip] at b ⊢
  exact b.2

/-- A string that starts with a type letter, with the type letter also one or
two bytes before it, keeps at least one byte through the two fixups of
`writemsgfile`. -/
theorem normalizeMsg_pos (m : List Nat) (rp t : Nat) (h3 : 3 ≤ rp)
    (ht : t = 69 ∨ t = 72 ∨ t = 73 ∨ t = 80 ∨ t = 87)
    (hrp : peek m rp = t)
    (hB : peek m (rp - 2) = t ∨ peek m (rp - 1) = t) :
    1 ≤ (normalizeMsg m rp).2 := by
  have ht0 : t ≠ 0 := by omega
  have hlen0 : 1 ≤ strlen m rp := strlen_pos m rp (by rw [hrp]; exact ht0)
  -- the line-ending fixup
  have step1 :
      (fixLineEndMsg m rp (strlen m rp)).2 = strlen (fixLineEndMsg m rp (strlen m rp)).1 rp ∧
      (∀ j, j < rp → peek (fixLineEndMsg m rp (strlen m rp)).1 j = peek m j) ∧
      (peek (fixLineEndMsg m rp (strlen m rp)).1 rp = t ∨
        peek (fixLineEndMsg m rp (strlen m rp)).1 rp = 13) ∧
      (peek m (rp - 1) = t → 2 ≤ (fixLineEndMsg m rp (strlen m rp)).2) := by
    by_cases hfire : peek m (rp + strlen m rp - 1) = 10 ∨ peek m (rp + strlen m rp - 2) = 13
    · rw [fixLineEndMsg_skip m rp _ hfire]
      refine ⟨rfl, fun _ _ => rfl, Or.inl hrp, ?_⟩
      intro hb
      simp only
      by_contra hlt
      have h1 : strlen m rp = 1 := by omega
      rw [h1] at hfire
      have e1 : rp + 1 - 1 = rp := by omega
      have e2 : rp + 1 - 2 = rp - 1 := by omega
      rw [e1, e2, hrp, hb] at hfire
      omega
    · have hf1 : peek m (rp + strlen m rp - 1) ≠ 10 := fun h => hfire (Or.inl h)
      have hf2 : peek m (rp + strlen m rp - 2) ≠ 13 := fun h => hfire (Or.inr h)
      rw [fixLineEndMsg_fire m rp (strlen m rp) (rp + strlen m rp - 1) (rp + strlen m rp - 2)
        (by omega) rfl rfl (by omega) hf1 hf2]
      simp only
      have hpk : ∀ j, peek (poke (poke (poke m (rp + strlen m rp - 1) 13)
            (rp + strlen m rp - 1 + 1) 10) (rp + strlen m rp - 1 + 2) 0) j
          = if j = rp + strlen m rp - 1 + 2 then 0
            else if j = rp + strlen m rp - 1 + 1 then 10
            else if j = rp + strlen m rp - 1 then 13 else peek m j := by
        intro j
        rw [peek_poke, peek_poke, peek_poke]
      have hc : peek (poke (poke (poke m (rp + strlen m rp - 1) 13)
            (rp + strlen m rp - 1 + 1) 10) (rp + strlen m rp - 1 + 2) 0) rp = t ∨
          peek (poke (poke (poke m (rp + strlen m rp - 1) 13)
            (rp + strlen m rp - 1 + 1) 10) (rp + strlen m rp - 1 + 2) 0) rp = 13 := by
        rw [hpk]
        by_cases h1 : strlen m rp = 1
        · right
          rw [if_neg (by omega), if_neg (by omega), if_pos (by omega)]
        · left
          rw [if_neg (by omega), if_neg (by omega), if_neg (by omega)]
          exact hrp
      refine ⟨trivial, ?_, hc, ?_⟩
      · intro j hj
        rw [hpk, if_neg (by omega), if_neg (by omega), if_neg (by omega)]
      · intro _
        apply strlen_ge_two
        · rcases hc with hc | hc <;> rw [hc] <;> omega
        · rw [hpk]
          by_cases h1 : strlen m rp = 1
          · rw [if_neg (by omega), if_pos (by omega)]
            omega
          · by_cases h2 : strlen m rp = 2
            · rw [if_neg (by omega), if_neg (by omega), if_pos (by omega)]
              omega
            · rw [if_neg (by omega), if_neg (by omega), if_neg (by omega)]
              exact strlen_nonzero m rp 1 (by omega)
  obtain ⟨s1, s2, s3, s4⟩ := step1
  have e : normalizeMsg m rp
      = fixPlaceholder (fixLineEndMsg m rp (strlen m rp)).1 rp
          (fixLineEndMsg m rp (strlen m rp)).2 := rfl
  rw [e]
  generalize (fixLineEndMsg m rp (strlen m rp)).1 = m1 at s1 s2 s3 s4 ⊢
  generalize (fixLineEndMsg m rp (strlen m rp)).2 = len1 at s1 s4 ⊢
  have hrp1 : peek m1 rp ≠ 0 := by rcases s3 with h | h <;> rw [h] <;> omega
  have hlen1 : 1 ≤ len1 := by rw [s1]; exact strlen_pos m1 rp hrp1
  by_cases hfire : peek m1 (rp + len1 - 3) = 48 ∧ peek m1 (rp + len1 - 4) = 37
  · obtain ⟨f3, f4⟩ := hfire
    have h5 : 5 ≤ len1 := by
      by_contra hlt
      have hcases : len1 = 1 ∨ len1 = 2 ∨ len1 = 3 ∨ len1 = 4 := by omega
      rcases hcases with h | h | h | h
      · subst h
        have e1 : rp + 1 - 3 = rp - 2 := by omega
        rw [e1, s2 _ (by omega)] at f3
        rcases hB with hb | hb
        · rw [hb] at f3; omega
        · have := s4 hb; omega
      · subst h
        have e1 : rp + 2 - 3 = rp - 1 := by omega
        have e2 : rp + 2 - 4 = rp - 2 := by omega
        rw [e1, s2 _ (by omega)] at f3
        rw [e2, s2 _ (by omega)] at f4
        rcases hB with hb | hb
        · rw [hb] at f4; omega
        · rw [hb] at f3; omega
      · subst h
        have e1 : rp + 3 - 3 = rp := by omega
        rw [e1] at f3
        rcases s3 with h | h <;> rw [h] at f3 <;> omega
      · subst h
        have e2 : rp + 4 - 4 = rp := by omega
        rw [e2] at f4
        rcases s3 with h | h <;> rw [h] at f4 <;> omega
    have e3 : rp + len1 - 3 = (rp + len1 - 4) + 1 := by omega
    rw [e3] at f3
    rw [fixPlaceholder_fire m1 rp len1 (rp + len1 - 4) (by omega) f3 f4]
    simp only
    apply strlen_pos
    rw [peek_cut, if_neg (by omega)]
    exact hrp1
  · rw [fixPlaceholder_skip m1 rp len1 hfire]
    exact hlen1

/-! ## The loop of the binary emitter: what one line writes -/

theorem strlen_image (pre : Pre) (rb : List Nat) : strlen (image pre rb) 4 = strlen rb 0 := by
  unfold strlen
  rw [drop_image, List.drop_zero]

theorem lineMsg_continuation (identifier : List Nat) (pre : Pre) (rb : List Nat)
    (hc : peek rb 0 ≠ 59) (hid : strncmpEq 3 identifier rb = false) :
    lineMsg identifier pre rb
      = .emit false (bytesAt (normalizeMsg (image pre rb) 4).1 4 (normalizeMsg (image pre rb) 4).2)
          (preOf (normalizeMsg (image pre rb) 4).1) := by
  have s4 : peek (image pre rb) 4 = peek rb 0 := peek_image_buf pre rb 0
  have hc' : (peek rb 0 != 59) = true := by simpa using hc
  unfold lineMsg startMsg
  rw [s4, drop_image, hid]
  simp only [hc', if_true, Bool.false_eq_true, if_false]

theorem lineMsg_unspaced (identifier : List Nat) (pre : Pre) (rb : List Nat)
    (hc : peek rb 0 ≠ 59) (hid : strncmpEq 3 identifier rb = true)
    (hb : badTypeLetter (peek rb 7) = false) (hq : peek rb 7 ≠ 63) (hs : peek rb 9 ≠ 32) :
    lineMsg identifier pre rb
      = .emit true
          (bytesAt (normalizeMsg (poke (image pre rb) 12 (peek rb 7)) 12).1 12
            (normalizeMsg (poke (image pre rb) 12 (peek rb 7)) 12).2)
          (preOf (normalizeMsg (poke (image pre rb) 12 (peek rb 7)) 12).1) := by
  have s4 : peek (image pre rb) 4 = peek rb 0 := peek_image_buf pre rb 0
  have hc' : (peek rb 0 != 59) = true := by simpa using hc
  have hq' : (peek rb 7 == 63) = false := by simpa using hq
  have hs' : (peek rb 9 != 32) = true := by simpa using hs
  unfold lineMsg startMsg
  rw [s4, peek_image_buf, peek_image_buf, drop_image, hid, hb, hq', hs']
  simp only [hc', if_true, Bool.false_eq_true, if_false]

theorem lineMsg_spaced (identifier : List Nat) (pre : Pre) (rb : List Nat)
    (hc : peek rb 0 ≠ 59) (hid : strncmpEq 3 identifier rb = true)
    (hb : badTypeLetter (peek rb 7) = false) (hq : peek rb 7 ≠ 63) (hs : peek rb 9 = 32) :
    lineMsg identifier pre rb
      = .emit true
          (bytesAt (normalizeMsg (poke (image pre rb) 13 (peek rb 7)) 13).1 13
            (normalizeMsg (poke (image pre rb) 13 (peek rb 7)) 13).2)
          (preOf (normalizeMsg (poke (image pre rb) 13 (peek rb 7)) 13).1) := by
  unfold lineMsg
  rw [startMsg_spaced identifier pre rb hc hid hb hq hs]

theorem length_of_peek_ne_zero (l : List Nat) (k : Nat) (h : peek l k ≠ 0) : k < l.length := by
  by_contra hlt
  exact h (peek_past l k (by omega))

/-- What the loop body of `writemsgfile` writes for one line.  For a
new-message line: the line starts with the identifier, at least one byte is
written, and the bytes written are at least five fewer than the bytes of the
buffer.  For another line: the line does not start with the identifier, and
the bytes written are at most one more than the string in the buffer, and not
more when the string is empty or ends in LF. -/
theorem lineMsg_emit (identifier : List Nat) (pre : Pre) (rb : List Nat) (newmsg : Bool)
    (bytes : List Nat) (pre1 : Pre)
    (h : lineMsg identifier pre rb = .emit newmsg bytes pre1) :
    peek rb 0 ≠ 59 ∧
    (newmsg = true →
      strncmpEq 3 identifier rb = true ∧ 1 ≤ bytes.length ∧ bytes.length + 5 ≤ rb.length) ∧
    (newmsg = false →
      strncmpEq 3 identifier rb = false ∧ bytes.length ≤ strlen rb 0 + 1 ∧
      ((strlen rb 0 = 0 ∨ peek rb (strlen rb 0 - 1) = 10) → bytes.length ≤ strlen rb 0)) := by
  rcases kindOf_cases identifier rb with ⟨_, hc⟩ | ⟨_, hc, hid⟩ | ⟨_, hc, hid, hb⟩ |
    ⟨_, hc, hid, hq⟩ | ⟨_, hc, hid, hb, hq, hs⟩ | ⟨_, hc, hid, hb, hq, hs⟩
  · rw [(comment_lines identifier pre rb hc).1] at h
    cases h
  · rw [lineMsg_continuation identifier pre rb hc hid] at h
    simp only [Outcome.emit.injEq] at h
    obtain ⟨h1, h2, _⟩ := h
    subst h1; subst h2
    refine ⟨hc, ?_, ?_⟩
    · intro hh; cases hh
    intro _
    refine ⟨hid, ?_, ?_⟩
    · rw [bytesAt_length, ← strlen_image pre rb]
      exact (normalizeMsg_le _ _).1
    · intro hz
      rw [bytesAt_length, ← strlen_image pre rb]
      apply (normalizeMsg_le _ _).2
      rw [strlen_image]
      rcases hz with hz | hz
      · left; exact hz
      · by_cases h0 : strlen rb 0 = 0
        · left; exact h0
        · right
          have e : 4 + strlen rb 0 - 1 = 4 + (strlen rb 0 - 1) := by omega
          rw [e, peek_image_buf]
          exact hz
  · rw [(badType_lines identifier pre rb hc hid hb).1] at h
    cases h
  · rw [question_msg identifier pre rb hc hid hq] at h
    simp only [Outcome.emit.injEq] at h
    obtain ⟨h1, h2, _⟩ := h
    subst h1; subst h2
    have h8 : 7 < rb.length := length_of_peek_ne_zero rb 7 (by rw [hq]; omega)
    refine ⟨hc, ?_, ?_⟩
    · intro _
      refine ⟨hid, by simp, ?_⟩
      simp only [List.length_cons, List.length_nil]
      omega
    · intro hh; cases hh
  · rw [lineMsg_unspaced identifier pre rb hc hid hb hq hs] at h
    simp only [Outcome.emit.injEq] at h
    obtain ⟨h1, h2, _⟩ := h
    subst h1; subst h2
    have ht := letter_of_not_bad _ hb hq
    have h8 : 7 < rb.length := length_of_peek_ne_zero rb 7 (by omega)
    have hm12 : peek (poke (image pre rb) 12 (peek rb 7)) 12 = peek rb 7 := by
      rw [peek_poke, if_pos rfl]
    have hm11 : peek (poke (image pre rb) 12 (peek rb 7)) (12 - 1) = peek rb 7 := by
      rw [peek_poke, if_neg (by omega)]
      exact peek_image_buf pre rb 7
    have hlow := normalizeMsg_pos (poke (image pre rb) 12 (peek rb 7)) 12 (peek rb 7)
      (by omega) ht hm12 (Or.inr hm11)
    have hup := (normalizeMsg_le (poke (image pre rb) 12 (peek rb 7)) 12).1
    have hs1 : strlen (poke (image pre rb) 12 (peek rb 7)) 12 ≤ rb.length - 8 + 1 := by
      apply strlen_le_of_zero
      rw [peek_poke, if_neg (by omega)]
      have e : 12 + (rb.length - 8 + 1) = 4 + (rb.length + 1) := by omega
      rw [e, peek_image_buf]
      exact peek_past rb _ (by omega)
    refine ⟨hc, ?_, ?_⟩
    swap
    · intro hh; cases hh
    intro _
    refine ⟨hid, ?_, ?_⟩
    · rw [bytesAt_length]; exact hlow
    · rw [bytesAt_length]
      by_cases h9 : rb.length = 8
      · have hs2 : strlen (poke (image pre rb) 12 (peek rb 7)) 12 ≤ 1 := by
          apply strlen_le_of_zero
          rw [peek_poke, if_neg (by omega)]
          have e : 12 + 1 = 4 + 9 := by omega
          rw [e, peek_image_buf]
          exact peek_past rb _ (by omega)
        omega
      · have hs2 : strlen (poke (image pre rb) 12 (peek rb 7)) 12 ≤ rb.length - 8 := by
          apply strlen_le_of_zero
          rw [peek_poke, if_neg (by omega)]
          have e : 12 + (rb.length - 8) = 4 + rb.length := by omega
          rw [e, peek_image_buf]
          exact peek_past rb _ (by omega)
        omega
  · rw [lineMsg_spaced identifier pre rb hc hid hb hq hs] at h
    simp only [Outcome.emit.injEq] at h
    obtain ⟨h1, h2, _⟩ := h
    subst h1; subst h2
    have ht := letter_of_not_bad _ hb hq
    have h10 : 9 < rb.length := length_of_peek_ne_zero rb 9 (by rw [hs]; omega)
    have hm13 : peek (poke (image pre rb) 13 (peek rb 7)) 13 = peek rb 7 := by
      rw [peek_poke, if_pos rfl]
    have hm11 : peek (poke (image pre rb) 13 (peek rb 7)) (13 - 2) = peek rb 7 := by
      rw [peek_poke, if_neg (by omega)]
      exact peek_image_buf pre rb 7
    have hlow := normalizeMsg_pos (poke (image pre rb) 13 (peek rb 7)) 13 (peek rb 7)
      (by omega) ht hm13 (Or.inl hm11)
    have hup := (normalizeMsg_le (poke (image pre rb) 13 (peek rb 7)) 13).1
    have hs2 : strlen (poke (image pre rb) 13 (peek rb 7)) 13 ≤ rb.length - 9 := by
      apply strlen_le_of_zero
      rw [peek_poke, if_neg (by omega)]
      have e : 13 + (rb.length - 9) = 4 + rb.length := by omega
      rw [e, peek_image_buf]
      exact peek_past rb _ (by omega)
    refine ⟨hc, ?_, ?_⟩
    swap
    · intro hh; cases hh
    intro _
    refine ⟨hid, ?_, ?_⟩
    · rw [bytesAt_length]; exact hlow
    · rw [bytesAt_length]
      omega

theorem laid_append (start : Nat) (writes : List Written) (fpo : Nat) (newmsg : Bool)
    (bytes : List Nat) (h : Laid start writes fpo) (hb : newmsg = true → bytes ≠ []) :
    Laid start (writes ++ [{ pos := fpo, newmsg := newmsg, bytes := bytes }])
      (fpo + bytes.length) := by
  obtain ⟨h1, h2, h3⟩ := h
  refine ⟨?_, ?_, by omega⟩
  · rw [List.pairwise_append]
    refine ⟨h1, List.pairwise_singleton _ _, ?_⟩
    intro a ha b hb1
    simp only [List.mem_singleton] at hb1
    subst hb1
    exact (h2 a ha).2.1
  · intro w hw
    rw [List.mem_append] at hw
    rcases hw with hw | hw
    · obtain ⟨a, b, c⟩ := h2 w hw
      exact ⟨a, by omega, c⟩
    · simp only [List.mem_singleton] at hw
      subst hw
      exact ⟨h3, Nat.le_refl _, hb⟩

/-- The loop of `writemsgfile` keeps its calls of `fwrite` laid one after the
other, and every call made for a new-message line writes at least one
byte. -/
theorem msgLoop_laid (identifier : List Nat) (offsetid start : Nat) :
    ∀ (fuel : Nat) (st st1 : MsgRun),
      Laid start st.writes st.fpo →
      msgLoop identifier offsetid fuel st = .ok st1 →
      Laid start st1.writes st1.fpo := by
  intro fuel
  induction fuel with
  | zero => intro st st1 _ h; simp [msgLoop] at h
  | succ fuel ih =>
    intro st st1 hc h
    obtain ⟨sw, sf, _, _⟩ := storeIndex_fields offsetid st
    have hs : Laid start (storeIndex offsetid st).writes (storeIndex offsetid st).fpo := by
      rw [sw, sf]; exact hc
    unfold msgLoop at h
    split at h
    · cases h; exact hc
    · simp only at h
      split at h
      · cases h
        exact hs
      · split at h
        · have key := fun hh => ih _ st1 hh h
          exact key hs
        · cases h
        · rename_i newmsg bytes pre1 heq
          have key := fun hh => ih _ st1 hh h
          apply key
          simp only
          apply laid_append _ _ _ _ _ hs
          intro hn
          have := ((lineMsg_emit _ _ _ _ _ _ heq).2.1 hn).2.1
          intro hnil
          rw [hnil] at this
          simp at this

theorem compileMsg_parts (fciSize : Nat) (pre : Pre) (input : List Nat) (info : MESSAGEINFO)
    (run : MsgRun) (h : compileMsg fciSize pre input = .ok (info, run)) :
    setupheader fciSize input = .ok info ∧ writemsgfile info pre input = .ok run := by
  unfold compileMsg at h
  cases hs : setupheader fciSize input with
  | error e => rw [hs] at h; cases h
  | ok info1 =>
    rw [hs] at h
    simp only at h
    cases hw : writemsgfile info1 pre input with
    | error e => rw [hw] at h; cases h
    | ok run1 =>
      rw [hw] at h
      simp only [Except.ok.injEq, Prod.mk.injEq] at h
      obtain ⟨h1, h2⟩ := h
      subst h1; subst h2
      exact ⟨rfl, hw⟩

theorem writemsgfile_laid (info : MESSAGEINFO) (pre : Pre) (input : List Nat) (run : MsgRun)
    (h : writemsgfile info pre input = .ok run) : Laid info.msgoffset run.writes run.fpo := by
  unfold writemsgfile at h
  exact msgLoop_laid info.identifier info.offsetid info.msgoffset _ _ run
    ⟨List.Pairwise.nil, fun w hw => by simp at hw, Nat.le_refl _⟩ h

theorem castIndex_small (offsetid p : Nat)
    (h : p < (if offsetid != 0 then 65536 else 4294967296)) : castIndex offsetid p = p := by
  unfold castIndex
  split
  · rename_i h1
    rw [if_pos h1] at h
    exact Nat.mod_eq_of_lt h
  · rename_i h1
    rw [if_neg h1] at h
    exact Nat.mod_eq_of_lt h

/-! ## The codepage options and the country block -/

/-- What one option does to the codepages recorded: a codepage option adds
its value while fewer than 16 are recorded and is dropped otherwise, which
takes a negative error code to get through; other options leave them. -/
theorem handleOption_codepages (env : Env) (o o1 : Options) (opt : Opt)
    (h : handleOption env o opt = .ok o1) :
    (∀ arg, opt = .P arg →
      (o.codepages.length < 16 ∧ o1.codepages = o.codepages ++ [atoi arg]) ∨
      (16 ≤ o.codepages.length ∧ env.getoptError < 0 ∧ o1.codepages = o.codepages)) ∧
    ((∀ arg, opt ≠ .P arg) → o1.codepages = o.codepages) := by
  cases opt with
  | P arg =>
    refine ⟨?_, fun hne => absurd rfl (hne arg)⟩
    intro arg1 harg
    cases harg
    unfold handleOption at h
    simp only at h
    by_cases hlt : o.codepages.length < 16
    · rw [if_pos hlt] at h
      cases h
      exact Or.inl ⟨hlt, rfl⟩
    · rw [if_neg hlt] at h
      right
      by_cases hneg : env.getoptError < 0
      · simp [ProgError, hneg, bind, Except.bind, pure, Except.pure] at h
        subst h
        exact ⟨by omega, hneg, rfl⟩
      · simp [ProgError, hneg, bind, Except.bind] at h
  | D arg =>
    refine And.intro (fun _ hh => by cases hh) (fun _ => ?_)
    unfold handleOption at h
    simp only at h
    by_cases hneg : env.getoptError < 0
    · simp [ProgError, hneg, bind, Except.bind, pure, Except.pure] at h
      subst h; rfl
    · simp [ProgError, hneg, bind, Except.bind] at h
  | E =>
    refine And.intro (fun _ hh => by cases hh) (fun _ => ?_)
    cases h; rfl
  | L arg =>
    refine And.intro (fun _ hh => by cases hh) (fun _ => ?_)
    unfold handleOption at h
    simp only at h
    simp only [bind, Except.bind, pure, Except.pure] at h
    split at h
    · split at h
      · cases h
      · split at h
        · cases h
        · cases h; rfl
    · split at h
      · cases h
      · cases h; rfl
  | V =>
    refine And.intro (fun _ hh => by cases hh) (fun _ => ?_)
    cases h; rfl
  | H =>
    cases h
  | A =>
    refine And.intro (fun _ hh => by cases hh) (fun _ => ?_)
    cases h; rfl
  | I arg =>
    refine And.intro (fun _ hh => by cases hh) (fun _ => ?_)
    cases h; rfl
  | C =>
    refine And.intro (fun _ hh => by cases hh) (fun _ => ?_)
    cases h; rfl
  | Q =>
    refine And.intro (fun _ hh => by cases hh) (fun _ => ?_)
    cases h; rfl

theorem codepageArgs_other (opt : Opt) (opts : List Opt) (h : ∀ arg, opt ≠ .P arg) :
    codepageArgs (opt :: opts) = codepageArgs opts := by
  cases opt with
  | P arg => exact absurd rfl (h arg)
  | _ => rfl

/-- The option loop records the values of the first 16 codepage options, in
order; with a non-negative error code it does not get through a command line
with more than 16 of them. -/
theorem scanOptions_codepages (env : Env) :
    ∀ (opts : List Opt) (o o1 : Options),
      scanOptions env opts o = .ok o1 → o.codepages.length ≤ 16 →
      o1.codepages = (o.codepages ++ (codepageArgs opts).map atoi).take 16 ∧
      (0 ≤ env.getoptError → o.codepages.length + (codepageArgs opts).length ≤ 16) := by
  intro opts
  induction opts with
  | nil =>
    intro o o1 h hlen
    cases h
    simp only [codepageArgs, List.map_nil, List.append_nil, List.length_nil, Nat.add_zero]
    exact ⟨(List.take_of_length_le hlen).symm, fun _ => hlen⟩
  | cons opt opts ih =>
    intro o o1 h hlen
    unfold scanOptions at h
    cases ho : handleOption env o opt with
    | error e => rw [ho] at h; cases h
    | ok o2 =>
      rw [ho] at h
      simp only at h
      obtain ⟨k1, k2⟩ := handleOption_codepages env o o2 opt ho
      by_cases hp : ∃ arg, opt = .P arg
      · obtain ⟨arg, rfl⟩ := hp
        rcases k1 arg rfl with ⟨hlt, he⟩ | ⟨hge, hneg, he⟩
        · obtain ⟨r1, r2⟩ := ih o2 o1 h (by rw [he]; simp; omega)
          rw [he] at r1 r2
          simp only [codepageArgs, List.map_cons, List.length_cons]
          refine ⟨?_, ?_⟩
          · rw [r1, List.append_assoc]; rfl
          · intro hh
            have := r2 hh
            simp only [List.length_append, List.length_cons, List.length_nil] at this
            omega
        · obtain ⟨r1, r2⟩ := ih o2 o1 h (by rw [he]; exact hlen)
          rw [he] at r1
          have h16 : o.codepages.length = 16 := by omega
          simp only [codepageArgs, List.map_cons, List.length_cons]
          refine ⟨?_, fun hh => by omega⟩
          rw [r1, List.take_append_of_le_length (by omega),
            List.take_append_of_le_length (by omega)]
      · have hne : ∀ arg, opt ≠ .P arg := fun arg he => hp ⟨arg, he⟩
        have he := k2 hne
        obtain ⟨r1, r2⟩ := ih o2 o1 h (by rw [he]; exact hlen)
        rw [he] at r1 r2
        rw [codepageArgs_other opt opts hne]
        exact ⟨r1, r2⟩

theorem countryFields_codepages (o : Options) : (countryFields o).codepages = o.codepages := by
  unfold countryFields
  simp only
  apply List.ext_getElem
  · simp
  · intro i h1 h2
    simp [List.getD_eq_getElem?_getD, List.getElem?_eq_getElem h2]

theorem foldl_writeAt_peek (ws : List Written) (j : Nat) :
    ∀ f : List Nat, (∀ w, w ∈ ws → j < w.pos) →
      peek (ws.foldl (fun f w => writeAt f w.pos w.bytes) f) j = peek f j := by
  induction ws with
  | nil => intro f _; rfl
  | cons w ws ih =>
    intro f h
    rw [List.foldl_cons, ih _ (fun x hx => h x (List.mem_cons_of_mem _ hx)), peek_writeAt,
      if_neg]
    have := h w (List.mem_cons_self _ _)
    omega

theorem writeheader_country (fciSize : Nat) (msgheader cntryheader : List Nat)
    (info : MESSAGEINFO) (k : Nat) (hk : k < fciSize) :
    peek (writeheader fciSize msgheader cntryheader info)
        (info.hdroffset + info.indexsize + k) = peek cntryheader k := by
  unfold writeheader writecountryblock
  have hlen : (bytesAt msgheader 0 info.hdroffset ++ List.replicate info.indexsize 0).length
      = info.hdroffset + info.indexsize := by
    rw [List.length_append, bytesAt_length, List.length_replicate]
  rw [← hlen, peek_append_right, peek_bytesAt _ _ _ _ hk, Nat.zero_add]

/-- The country block of the finished binary file is the one `writeheader`
wrote: the calls of `fwrite` of the loop, the index and the extension leave
it as it is. -/
theorem finishMsgFile_country (fciSize : Nat) (pre : Pre) (input : List Nat)
    (info : MESSAGEINFO) (run : MsgRun) (extfake msgheader cntryheader : List Nat)
    (fakeextend k : Nat)
    (hset : setupheader fciSize input = .ok info)
    (hrun : writemsgfile info pre input = .ok run) (hk : k < fciSize) :
    peek (finishMsgFile extfake fakeextend info
        (writeheader fciSize msgheader cntryheader info) run) (info.countryinfo + k)
      = peek cntryheader k := by
  obtain ⟨a, b, c, fp, _, _, _, _, _, e5, e6, e7, e8, e9, e10⟩ :=
    setupheader_parts fciSize input info hset
  obtain ⟨_, l2, _⟩ := writemsgfile_laid info pre input run hrun
  obtain ⟨hil, _⟩ := writemsgfile_index info pre input run hrun
  have hsize : (indexBytes info.offsetid run.index).length = info.indexsize := by
    rw [indexBytes_length, hil, e6, e5]
    by_cases h4 : input.length ≤ 40000
    · simp [h4]; omega
    · simp [h4]; omega
  have hbody : peek (writeAt (run.writes.foldl (fun f w => writeAt f w.pos w.bytes)
        (writeheader fciSize msgheader cntryheader info)) info.indexoffset
        (indexBytes info.offsetid run.index)) (info.countryinfo + k) = peek cntryheader k := by
    rw [peek_writeAt, if_neg (by rw [hsize]; omega), foldl_writeAt_peek]
    · rw [e9, ← e7]
      exact writeheader_country fciSize msgheader cntryheader info k hk
    · intro w hw
      have := (l2 w hw).1
      omega
  have hlen : info.countryinfo + k
      < (writeAt (run.writes.foldl (fun f w => writeAt f w.pos w.bytes)
        (writeheader fciSize msgheader cntryheader info)) info.indexoffset
        (indexBytes info.offsetid run.index)).length := by
    have h1 := writeAt_length_ge (run.writes.foldl (fun f w => writeAt f w.pos w.bytes)
      (writeheader fciSize msgheader cntryheader info)) info.indexoffset
      (indexBytes info.offsetid run.index)
    have h2 := foldl_writeAt_length_ge run.writes
      (writeheader fciSize msgheader cntryheader info)
    rw [writeheader_length] at h2
    omega
  unfold finishMsgFile
  simp only
  split
  · unfold appendExtension
    rw [peek_writeAt, peek_writeAt]
    simp only [leBytes_length, bytesAt_length]
    rw [if_neg (by omega), if_neg (by omega)]
    exact hbody
  · exact hbody

/-! ## The output positions stored in the index -/

/-- A string that starts with a type letter, with the type letter also one or
two bytes before it, and that holds at least one more byte, keeps the type
letter as its first byte through the two fixups of `writemsgfile`. -/
theorem normalizeMsg_first (m : List Nat) (rp t : Nat) (h3 : 3 ≤ rp)
    (ht : t = 69 ∨ t = 72 ∨ t = 73 ∨ t = 80 ∨ t = 87)
    (hrp : peek m rp = t)
    (hB : peek m (rp - 2) = t ∨ peek m (rp - 1) = t)
    (h1 : peek m (rp + 1) ≠ 0) :
    peek (normalizeMsg m rp).1 rp = t := by
  have ht0 : t ≠ 0 := by omega
  have hlen0 : 2 ≤ strlen m rp := strlen_ge_two m rp (by rw [hrp]; exact ht0) h1
  have step1 :
      (fixLineEndMsg m rp (strlen m rp)).2 = strlen (fixLineEndMsg m rp (strlen m rp)).1 rp ∧
      (∀ j, j ≤ rp → peek (fixLineEndMsg m rp (strlen m rp)).1 j = peek m j) ∧
      peek (fixLineEndMsg m rp (strlen m rp)).1 (rp + 1) ≠ 0 := by
    obtain ⟨a1, _, a3⟩ := fixLineEndMsg_len m rp
    refine ⟨a1, fun j hj => a3 j (by omega), ?_⟩
    by_cases hfire : peek m (rp + strlen m rp - 1) = 10 ∨ peek m (rp + strlen m rp - 2) = 13
    · rw [fixLineEndMsg_skip m rp _ hfire]
      exact h1
    · have hf1 : peek m (rp + strlen m rp - 1) ≠ 10 := fun h => hfire (Or.inl h)
      have hf2 : peek m (rp + strlen m rp - 2) ≠ 13 := fun h => hfire (Or.inr h)
      rw [fixLineEndMsg_fire m rp (strlen m rp) (rp + strlen m rp - 1) (rp + strlen m rp - 2)
        (by omega) rfl rfl (by omega) hf1 hf2]
      simp only
      rw [peek_poke, peek_poke, peek_poke]
      by_cases h2 : strlen m rp = 2
      · rw [if_neg (by omega), if_neg (by omega), if_pos (by omega)]
        omega
      · rw [if_neg (by omega), if_neg (by omega), if_neg (by omega)]
        exact h1
  obtain ⟨s1, s2, s3⟩ := step1
  have e : normalizeMsg m rp
      = fixPlaceholder (fixLineEndMsg m rp (strlen m rp)).1 rp
          (fixLineEndMsg m rp (strlen m rp)).2 := rfl
  rw [e]
  generalize (fixLineEndMsg m rp (strlen m rp)).1 = m1 at s1 s2 s3 ⊢
  generalize (fixLineEndMsg m rp (strlen m rp)).2 = len1 at s1 ⊢
  have hrp1 : peek m1 rp = t := by rw [s2 rp (Nat.le_refl _)]; exact hrp
  have hlen1 : 2 ≤ len1 := by
    rw [s1]
    exact strlen_ge_two m1 rp (by rw [hrp1]; exact ht0) s3
  by_cases hfire : peek m1 (rp + len1 - 3) = 48 ∧ peek m1 (rp + len1 - 4) = 37
  · obtain ⟨f3, f4⟩ := hfire
    have h5 : 5 ≤ len1 := by
      by_contra hlt
      have hcases : len1 = 2 ∨ len1 = 3 ∨ len1 = 4 := by omega
      rcases hcases with h | h | h
      · rw [h] at f3 f4
        have e1 : rp + 2 - 3 = rp - 1 := by omega
        have e2 : rp + 2 - 4 = rp - 2 := by omega
        rw [e1, s2 _ (by omega)] at f3
        rw [e2, s2 _ (by omega)] at f4
        rcases hB with hb | hb
        · rw [hb] at f4; omega
        · rw [hb] at f3; omega
      · rw [h] at f3
        have e1 : rp + 3 - 3 = rp := by omega
        rw [e1, hrp1] at f3
        omega
      · rw [h] at f4
        have e2 : rp + 4 - 4 = rp := by omega
        rw [e2, hrp1] at f4
        omega
    have e3 : rp + len1 - 4 + 1 = rp + len1 - 3 := by omega
    rw [fixPlaceholder_fire m1 rp len1 (rp + len1 - 4) (by omega) (by rw [e3]; exact f3) f4]
    simp only
    rw [peek_poke, peek_poke, peek_poke, peek_poke, if_neg (by omega), if_neg (by omega),
      if_neg (by omega), if_neg (by omega)]
    exact hrp1
  · rw [fixPlaceholder_skip m1 rp len1 hfire]
    exact hrp1

/-- The first byte the loop body of `writemsgfile` writes for a new-message
line is the type letter of the line, when the line is a `?` line or the
buffer holds at least one byte after the position the type letter is moved
to. -/
theorem lineMsg_letter (identifier : List Nat) (pre : Pre) (rb bytes : List Nat) (pre1 : Pre)
    (h : lineMsg identifier pre rb = .emit true bytes pre1)
    (hc : peek rb 7 = 63 ∨ (peek rb 9 ≠ 32 ∧ peek rb 9 ≠ 0) ∨
      (peek rb 9 = 32 ∧ peek rb 10 ≠ 0)) :
    bytes.head? = some (peek rb 7) := by
  rcases kindOf_cases identifier rb with ⟨_, hcm⟩ | ⟨_, hcm, hid⟩ | ⟨_, hcm, hid, hb⟩ |
    ⟨_, hcm, hid, hq⟩ | ⟨_, hcm, hid, hb, hq, hs⟩ | ⟨_, hcm, hid, hb, hq, hs⟩
  · rw [(comment_lines identifier pre rb hcm).1] at h
    cases h
  · rw [lineMsg_continuation identifier pre rb hcm hid] at h
    simp at h
  · rw [(badType_lines identifier pre rb hcm hid hb).1] at h
    cases h
  · rw [question_msg identifier pre rb hcm hid hq] at h
    simp only [Outcome.emit.injEq, true_and] at h
    obtain ⟨h2, _⟩ := h
    subst h2
    rw [hq]
    rfl
  · rw [lineMsg_unspaced identifier pre rb hcm hid hb hq hs] at h
    simp only [Outcome.emit.injEq, true_and] at h
    obtain ⟨h2, _⟩ := h
    subst h2
    have ht := letter_of_not_bad _ hb hq
    have h9 : peek rb 9 ≠ 0 := by
      rcases hc with hc | hc | hc
      · exact absurd hc hq
      · exact hc.2
      · exact absurd hc.1 hs
    have hm12 : peek (poke (image pre rb) 12 (peek rb 7)) 12 = peek rb 7 := by
      rw [peek_poke, if_pos rfl]
    have hm11 : peek (poke (image pre rb) 12 (peek rb 7)) (12 - 1) = peek rb 7 := by
      rw [peek_poke, if_neg (by omega)]
      exact peek_image_buf pre rb 7
    have hm13 : peek (poke (image pre rb) 12 (peek rb 7)) (12 + 1) ≠ 0 := by
      rw [peek_poke, if_neg (by omega)]
      have e : 12 + 1 = 4 + 9 := by omega
      rw [e, peek_image_buf]
      exact h9
    have hlow := normalizeMsg_pos (poke (image pre rb) 12 (peek rb 7)) 12 (peek rb 7)
      (by omega) ht hm12 (Or.inr hm11)
    have hfirst := normalizeMsg_first (poke (image pre rb) 12 (peek rb 7)) 12 (peek rb 7)
      (by omega) ht hm12 (Or.inr hm11) hm13
    obtain ⟨n, hn⟩ : ∃ n, (normalizeMsg (poke (image pre rb) 12 (peek rb 7)) 12).2 = n + 1 :=
      ⟨(normalizeMsg (poke (image pre rb) 12 (peek rb 7)) 12).2 - 1, by omega⟩
    rw [hn, bytesAt_succ, List.head?_cons, hfirst]
  · rw [lineMsg_spaced identifier pre rb hcm hid hb hq hs] at h
    simp only [Outcome.emit.injEq, true_and] at h
    obtain ⟨h2, _⟩ := h
    subst h2
    have ht := letter_of_not_bad _ hb hq
    have h10 : peek rb 10 ≠ 0 := by
      rcases hc with hc | hc | hc
      · exact absurd hc hq
      · exact absurd hs hc.1
      · exact hc.2
    have hm13 : peek (poke (image pre rb) 13 (peek rb 7)) 13 = peek rb 7 := by
      rw [peek_poke, if_pos rfl]
    have hm11 : peek (poke (image pre rb) 13 (peek rb 7)) (13 - 2) = peek rb 7 := by
      rw [peek_poke, if_neg (by omega)]
      exact peek_image_buf pre rb 7
    have hm14 : peek (poke (image pre rb) 13 (peek rb 7)) (13 + 1) ≠ 0 := by
      rw [peek_poke, if_neg (by omega)]
      have e : 13 + 1 = 4 + 10 := by omega
      rw [e, peek_image_buf]
      exact h10
    have hlow := normalizeMsg_pos (poke (image pre rb) 13 (peek rb 7)) 13 (peek rb 7)
      (by omega) ht hm13 (Or.inl hm11)
    have hfirst := normalizeMsg_first (poke (image pre rb) 13 (peek rb 7)) 13 (peek rb 7)
      (by omega) ht hm13 (Or.inl hm11) hm14
    obtain ⟨n, hn⟩ : ∃ n, (normalizeMsg (poke (image pre rb) 13 (peek rb 7)) 13).2 = n + 1 :=
      ⟨(normalizeMsg (poke (image pre rb) 13 (peek rb 7)) 13).2 - 1, by omega⟩
    rw [hn, bytesAt_succ, List.head?_cons, hfirst]

/-- Every call of `fwrite` of the loop of `writemsgfile` writes what the loop
body makes of some buffer. -/
theorem msgLoop_origin (id : List Nat) (off : Nat) :
    ∀ (fuel : Nat) (st run : MsgRun),
      msgLoop id off fuel st = .ok run →
      ∀ w, w ∈ run.writes → w ∈ st.writes ∨
        ∃ pre1 rb pre2, lineMsg id pre1 rb = .emit w.newmsg w.bytes pre2 := by
  intro fuel
  induction fuel with
  | zero => intro st run h; simp [msgLoop] at h
  | succ fuel ih =>
    intro st run h w hw
    obtain ⟨sw, _, _, _⟩ := storeIndex_fields off st
    unfold msgLoop at h
    split at h
    · cases h
      exact Or.inl hw
    · simp only at h
      split at h
      · cases h
        simp only at hw
        rw [sw] at hw
        exact Or.inl hw
      · split at h
        · rcases ih _ run h w hw with h1 | h1
          · simp only at h1
            rw [sw] at h1
            exact Or.inl h1
          · exact Or.inr h1
        · cases h
        · rename_i nm bytes pre1 heq
          rcases ih _ run h w hw with h1 | h1
          · simp only [List.mem_append, List.mem_singleton] at h1
            rcases h1 with h1 | h1
            · rw [sw] at h1
              exact Or.inl h1
            · right
              subst h1
              exact ⟨_, _, _, heq⟩
          · exact Or.inr h1

/-! ## The properties -/

/-- C1, the code evaluated at a failing input.  For the file `inputOpenEnd`
the scanner counts one message, so the index region has one entry.
`writemsgfile` writes two message bodies, at the offsets 335 and 339: entry 0
holds 335, the store of 339 goes to slot 1, which is not an entry of the index
buffer, and the patched index region has no entry for the second body. -/
theorem index_lacks_entry_for_second_body :
    ∃ info run, compileMsg 302 preZero inputOpenEnd = .ok (info, run) ∧
      info.numbermsg = 1 ∧ info.msgoffset = 335 ∧
      run.writes = [{ pos := 335, newmsg := true, bytes := [69, 97, 13, 10] },
                    { pos := 339, newmsg := true, bytes := [69, 98, 13, 10] }] ∧
      run.index = [335] ∧ run.index.get? 1 = none ∧ run.stray = [(1, 339)] :=
  ⟨_, _, rfl, rfl, rfl, rfl, rfl, rfl, rfl⟩

/-- C2, the code evaluated at a failing input.  In the file `inputLastOpen`
two lines after the identifier line start with the identifier `ABC`, the last
of them without a line terminator; `setupheader` stores the message count 1,
while `writemsgfile` does write a body for that last line. -/
theorem scanner_misses_open_last_line :
    ∃ info run, setupheader 302 inputLastOpen = .ok info ∧
      info.identifier = [65, 66, 67] ∧
      specMessageCount info.identifier (splitLines (inputLastOpen.drop info.msgstartline)) = 2 ∧
      info.numbermsg = 1 ∧
      writemsgfile info preZero inputLastOpen = .ok run ∧
      run.writes = [{ pos := 335, newmsg := true, bytes := [69, 13, 10] }] :=
  ⟨_, _, rfl, rfl, rfl, rfl, rfl, rfl⟩

/-- C3, the code evaluated at a failing input.  The file `inputTwoMessages`
has two message lines and `setupheader` counts 2.  One pass of the loop of
`writemsgfile` calls `getline` twice and handles only the second line read:
the line of message 1 is never handled, one message body is written (that of
message 2, followed by an empty write of the pass at the end of the file),
while `writeasmfile`, which calls `getline` once per pass, handles both. -/
theorem first_of_two_messages_skipped :
    ∃ info run arun, compileMsg 302 preZero inputTwoMessages = .ok (info, run) ∧
      info.numbermsg = 2 ∧ run.msg_num_check = 1 ∧
      run.writes = [{ pos := 337, newmsg := true, bytes := [69, 98, 13, 10] },
                    { pos := 341, newmsg := false, bytes := [] }] ∧
      writeasmfile info preZero inputTwoMessages = .ok arun ∧
      arun.items = [{ num := 1, newmsg := true, body := [97, 13, 10] },
                    { num := 2, newmsg := true, body := [98, 13, 10] }] :=
  ⟨_, _, _, rfl, rfl, rfl, rfl, rfl, rfl⟩

/-- C4, counterexample.  The slice `Hi%0` CR LF has six bytes; after the two
fixups `current_msg_len` is 2 and the bytes emitted are `Hi`, for both
emitters: the slice is shortened by four bytes, and no NUL byte is emitted. -/
theorem placeholder_not_kept_as_nul :
    strlen (image preZero [72, 105, 37, 48, 13, 10]) 4 = 6 ∧
    (normalizeMsg (image preZero [72, 105, 37, 48, 13, 10]) 4).2 = 2 ∧
    bytesAt (normalizeMsg (image preZero [72, 105, 37, 48, 13, 10]) 4).1 4
      (normalizeMsg (image preZero [72, 105, 37, 48, 13, 10]) 4).2 = [72, 105] ∧
    bytesAt (normalizeAsm (image preZero [72, 105, 37, 48, 13, 10]) 4).1 4
      (strlen (normalizeAsm (image preZero [72, 105, 37, 48, 13, 10]) 4).1 4) = [72, 105] ∧
    lineMsg [65, 66, 67] preZero lineHiPlaceholder = .emit true [69, 72, 105] preZero ∧
    lineAsm [65, 66, 67] preZero lineHiPlaceholder = .emit true [72, 105] preZero :=
  ⟨rfl, rfl, rfl, rfl, rfl, rfl⟩

/-- C4, amended.  For every body slice (the C string at `readptr`) that ends in
`%`, `0`, CR, LF, the two fixups of either emitter overwrite those four bytes
of the buffer with NUL and set `current_msg_len` to the length of the slice
minus four: the bytes emitted are exactly the bytes before those four, so the
body is shortened by four bytes and the NUL bytes are not emitted. -/
theorem placeholder_cut_from_body (m : List Nat) (rp : Nat) (body : List Nat)
    (h : bytesAt m rp (strlen m rp) = body ++ [37, 48, 13, 10]) :
    ((normalizeMsg m rp).2 = body.length ∧
      bytesAt (normalizeMsg m rp).1 rp (normalizeMsg m rp).2 = body ∧
      bytesAt (normalizeMsg m rp).1 rp (strlen m rp) = body ++ [0, 0, 0, 0]) ∧
    (strlen (normalizeAsm m rp).1 rp = body.length ∧
      bytesAt (normalizeAsm m rp).1 rp (strlen (normalizeAsm m rp).1 rp) = body ∧
      bytesAt (normalizeAsm m rp).1 rp (strlen m rp) = body ++ [0, 0, 0, 0]) := by
  have hlen : strlen m rp = body.length + 4 := by
    have := congrArg List.length h
    simpa [bytesAt_length] using this
  have hpk : ∀ k, k < body.length + 4 → peek m (rp + k) = peek (body ++ [37, 48, 13, 10]) k := by
    intro k hk
    exact peek_of_bytesAt_eq m _ rp _ k h (by omega)
  have h0 : peek m (rp + body.length) = 37 := by
    rw [hpk _ (by omega)]
    exact peek_append_right body _ 0
  have h1 : peek m (rp + body.length + 1) = 48 := by
    rw [Nat.add_assoc, hpk _ (by omega)]
    exact peek_append_right body _ 1
  have h3 : peek m (rp + (body.length + 4) - 1) = 10 := by
    have : rp + (body.length + 4) - 1 = rp + (body.length + 3) := by omega
    rw [this, hpk _ (by omega)]
    exact peek_append_right body _ 3
  obtain ⟨f2, fp⟩ := fixPlaceholder_fires m rp body.length hlen h0 h1
  have hbody : bytesAt (fixPlaceholder m rp (body.length + 4)).1 rp body.length = body := by
    apply bytesAt_list
    intro k hk
    rw [fp]
    have : ¬ (rp + body.length ≤ rp + k ∧ rp + k < rp + body.length + 4) := by omega
    simp only [this, if_false]
    rw [hpk k (by omega)]
    exact peek_append_left body _ k hk
  have hnul : bytesAt (fixPlaceholder m rp (body.length + 4)).1 rp (body.length + 4)
      = body ++ [0, 0, 0, 0] := by
    have hl : (body ++ [0, 0, 0, 0]).length = body.length + 4 := by simp
    have key := bytesAt_list (fixPlaceholder m rp (body.length + 4)).1 (body ++ [0, 0, 0, 0]) rp
    rw [hl] at key
    apply key
    intro k hk
    rw [fp]
    by_cases hkb : k < body.length
    · have : ¬ (rp + body.length ≤ rp + k ∧ rp + k < rp + body.length + 4) := by omega
      simp only [this, if_false]
      rw [hpk k (by omega), peek_append_left body _ k hkb, peek_append_left body _ k hkb]
    · have hin : rp + body.length ≤ rp + k ∧ rp + k < rp + body.length + 4 := by omega
      simp only [hin, and_self, if_true]
      obtain ⟨i, rfl⟩ : ∃ i, k = body.length + i := ⟨k - body.length, by omega⟩
      rw [peek_append_right]
      have hi : i < 4 := by omega
      interval_cases i <;> simp [peek]
  have hM : normalizeMsg m rp = fixPlaceholder m rp (body.length + 4) := by
    simp only [normalizeMsg]
    rw [hlen, fixLineEndMsg_of_lf m rp _ h3]
  have hA : normalizeAsm m rp = fixPlaceholder m rp (body.length + 4) := by
    simp only [normalizeAsm]
    rw [hlen, fixLineEndAsm_of_lf m rp _ h3]
  have hstr : strlen (fixPlaceholder m rp (body.length + 4)).1 rp = body.length := by
    apply strlen_eq
    · intro k hk
      rw [fp]
      have : ¬ (rp + body.length ≤ rp + k ∧ rp + k < rp + body.length + 4) := by omega
      simp only [this, if_false]
      exact strlen_nonzero m rp k (by omega)
    · rw [fp]; simp
  rw [hM, hA, hlen, f2, hstr]
  exact ⟨⟨rfl, hbody, hnul⟩, rfl, hbody, hnul⟩

/-- C4, witness: the amended statement at the slice `Hi%0` CR LF. -/
theorem placeholder_cut_from_body_witness :
    bytesAt (image preZero [72, 105, 37, 48, 13, 10]) 4
        (strlen (image preZero [72, 105, 37, 48, 13, 10]) 4) = [72, 105] ++ [37, 48, 13, 10] ∧
    bytesAt (normalizeMsg (image preZero [72, 105, 37, 48, 13, 10]) 4).1 4
        (normalizeMsg (image preZero [72, 105, 37, 48, 13, 10]) 4).2 = [72, 105] :=
  ⟨rfl, (placeholder_cut_from_body (image preZero [72, 105, 37, 48, 13, 10]) 4 [72, 105] rfl).1.2.1⟩

/-- C5, the code evaluated at failing inputs.  A slice that ends in a bare LF
(`Hi` LF) is left as it is by the line-ending fixup of both emitters, so the
body emitted for the line `ABC0001E: Hi` LF ends in LF without CR.  A slice
without any line end (`Hi`) loses its last byte: the fixup stores CR over it,
then LF. -/
theorem line_end_fixup_failures :
    fixLineEndMsg (image preZero [72, 105, 10]) 4 3 = (image preZero [72, 105, 10], 3) ∧
    fixLineEndAsm (image preZero [72, 105, 10]) 4 3 = (image preZero [72, 105, 10], 3) ∧
    lineMsg [65, 66, 67] preZero lineHiBareLf = .emit true [69, 72, 105, 10] preZero ∧
    lineAsm [65, 66, 67] preZero lineHiBareLf = .emit true [72, 105, 10] preZero ∧
    bytesAt (fixLineEndMsg (image preZero [72, 105]) 4 2).1 4
      (fixLineEndMsg (image preZero [72, 105]) 4 2).2 = [72, 13, 10] ∧
    bytesAt (fixLineEndAsm (image preZero [72, 105]) 4 2).1 4
      (fixLineEndAsm (image preZero [72, 105]) 4 2).2 = [72, 13, 10] ∧
    lineMsg [65, 66, 67] preZero lineHiOpen = .emit true [69, 72, 13, 10] preZero :=
  ⟨rfl, rfl, rfl, rfl, rfl, rfl, rfl⟩

/-- C6.  For every body slice (the C string at `readptr`) that already ends in
CR LF, the line-ending fixup of either emitter returns the buffer and
`current_msg_len` unchanged: same length, same bytes. -/
theorem line_end_kept (m : List Nat) (rp : Nat) (body : List Nat)
    (h : bytesAt m rp (strlen m rp) = body ++ [13, 10]) :
    fixLineEndMsg m rp (strlen m rp) = (m, strlen m rp) ∧
    fixLineEndAsm m rp (strlen m rp) = (m, strlen m rp) := by
  have hlen : strlen m rp = body.length + 2 := by
    have := congrArg List.length h
    simpa [bytesAt_length] using this
  have h3 : peek m (rp + strlen m rp - 1) = 10 := by
    have e : rp + strlen m rp - 1 = rp + (body.length + 1) := by omega
    rw [e, peek_of_bytesAt_eq m _ rp _ (body.length + 1) h (by omega)]
    exact peek_append_right body _ 1
  exact ⟨fixLineEndMsg_of_lf m rp _ h3, fixLineEndAsm_of_lf m rp _ h3⟩

/-- C6, witness: the statement at the slice `Hi` CR LF. -/
theorem line_end_kept_witness :
    bytesAt (image preZero [72, 105, 13, 10]) 4 (strlen (image preZero [72, 105, 13, 10]) 4)
      = [72, 105] ++ [13, 10] ∧
    fixLineEndMsg (image preZero [72, 105, 13, 10]) 4 (strlen (image preZero [72, 105, 13, 10]) 4)
      = (image preZero [72, 105, 13, 10], strlen (image preZero [72, 105, 13, 10]) 4) ∧
    fixLineEndAsm (image preZero [72, 105, 13, 10]) 4 (strlen (image preZero [72, 105, 13, 10]) 4)
      = (image preZero [72, 105, 13, 10], strlen (image preZero [72, 105, 13, 10]) 4) :=
  ⟨rfl, line_end_kept (image preZero [72, 105, 13, 10]) 4 [72, 105] rfl⟩

/-- C7.  For every line that is not a comment, starts with the identifier and
has `?` at column 7, whatever the rest of the line holds: the binary emitter
writes the type letter `?` followed by the body CR LF, and the textual emitter
yields the body CR LF.  The placeholder check of the textual emitter reads the
two bytes below the read buffer (`readptr[-1]`, `readptr[-2]`); the statement
for the textual emitter is for every content of those bytes other than `0`
preceded by `%`. -/
theorem question_line_body (identifier : List Nat) (pre : Pre) (read_buffer : List Nat)
    (hc : peek read_buffer 0 ≠ 59) (hid : strncmpEq 3 identifier read_buffer = true)
    (hq : peek read_buffer 7 = 63) :
    lineMsg identifier pre read_buffer = .emit true (63 :: [13, 10]) pre ∧
    (¬ (pre.b1 = 48 ∧ pre.b2 = 37) →
      lineAsm identifier pre read_buffer = .emit true [13, 10] pre) :=
  ⟨question_msg identifier pre read_buffer hc hid hq,
   question_asm identifier pre read_buffer hc hid hq⟩

/-- C7, witness: the statement at the line `ABC0001?: anything` CR LF. -/
theorem question_line_body_witness :
    peek lineQuestion 0 ≠ 59 ∧ strncmpEq 3 [65, 66, 67] lineQuestion = true ∧
    peek lineQuestion 7 = 63 ∧ ¬ (preZero.b1 = 48 ∧ preZero.b2 = 37) ∧
    lineMsg [65, 66, 67] preZero lineQuestion = .emit true (63 :: [13, 10]) preZero ∧
    lineAsm [65, 66, 67] preZero lineQuestion = .emit true [13, 10] preZero :=
  ⟨by decide, rfl, rfl, by decide,
   (question_line_body [65, 66, 67] preZero lineQuestion (by decide) rfl rfl).1,
   (question_line_body [65, 66, 67] preZero lineQuestion (by decide) rfl rfl).2 (by decide)⟩

/-- C8, counterexample.  For the line `ABC0001E: Hello world%0` CR LF of the
scenario, the body of the textual emitter is the eleven bytes `Hello world`
and the bytes of the binary emitter are `E` followed by them: no NUL byte
follows the text, the body is not `Hello world` followed by four NUL bytes. -/
theorem hello_body_without_nul :
    lineAsm [65, 66, 67] preZero lineHello
      = .emit true [72, 101, 108, 108, 111, 32, 119, 111, 114, 108, 100] preZero ∧
    lineAsm [65, 66, 67] preZero lineHello
      ≠ .emit true [72, 101, 108, 108, 111, 32, 119, 111, 114, 108, 100, 0, 0, 0, 0] preZero ∧
    lineMsg [65, 66, 67] preZero lineHello
      = .emit true [69, 72, 101, 108, 108, 111, 32, 119, 111, 114, 108, 100] preZero ∧
    lineMsg [65, 66, 67] preZero lineHello
      ≠ .emit true [69, 72, 101, 108, 108, 111, 32, 119, 111, 114, 108, 100, 0, 0, 0, 0]
          preZero :=
  ⟨rfl, by decide, rfl, by decide⟩

/-- C8, amended.  For every line made of an identifier (not starting with
`;`), four bytes, a type letter among E, W, I, H, P, one byte, a space and a
text: when the text does not start with a NUL byte, the binary emitter writes
the letter of column 7 followed by the body of the textual emitter, which is
the normalized text of column 10; when the text is `body` CR LF, without NUL
byte and not ending in `%0`, that body is `body` CR LF; when the text is `body`
`%0` CR LF, that body is `body`: the four bytes `%0` CR LF are cut, no NUL byte
is emitted.  For the input of the scenario this gives one record, number 1,
type letter `E`, body `Hello world` (eleven bytes). -/
theorem message_line_body (a0 a1 a2 d0 d1 d2 d3 t c : Nat) (body : List Nat) (pre : Pre)
    (hc : a0 ≠ 59) (ht : t = 69 ∨ t = 87 ∨ t = 73 ∨ t = 72 ∨ t = 80)
    (hb : ∀ x, x ∈ body → x ≠ 0) :
    (∀ text : List Nat, peek text 0 ≠ 0 →
      ∃ b, lineAsm [a0, a1, a2] pre ([a0, a1, a2, d0, d1, d2, d3, t, c, 32] ++ text)
          = .emit true b pre ∧
        lineMsg [a0, a1, a2] pre ([a0, a1, a2, d0, d1, d2, d3, t, c, 32] ++ text)
          = .emit true (t :: b) pre) ∧
    ((∀ b, body ≠ b ++ [37, 48]) →
      lineAsm [a0, a1, a2] pre ([a0, a1, a2, d0, d1, d2, d3, t, c, 32] ++ (body ++ [13, 10]))
        = .emit true (body ++ [13, 10]) pre ∧
      lineMsg [a0, a1, a2] pre ([a0, a1, a2, d0, d1, d2, d3, t, c, 32] ++ (body ++ [13, 10]))
        = .emit true (t :: (body ++ [13, 10])) pre) ∧
    (lineAsm [a0, a1, a2] pre
        ([a0, a1, a2, d0, d1, d2, d3, t, c, 32] ++ (body ++ [37, 48, 13, 10]))
        = .emit true body pre ∧
      lineMsg [a0, a1, a2] pre
        ([a0, a1, a2, d0, d1, d2, d3, t, c, 32] ++ (body ++ [37, 48, 13, 10]))
        = .emit true (t :: body) pre) ∧
    (∃ info run, compileAsm 302 preZero inputHello = .ok (info, run) ∧
      info.numbermsg = 1 ∧ info.firstmsg = some 1 ∧
      run.items = [{ num := 1, newmsg := true,
                     body := [72, 101, 108, 108, 111, 32, 119, 111, 114, 108, 100] }]) ∧
    (∃ info run, compileMsg 302 preZero inputHello = .ok (info, run) ∧
      run.index = [335] ∧
      run.writes = [{ pos := 335, newmsg := true,
                      bytes := [69, 72, 101, 108, 108, 111, 32, 119, 111, 114, 108, 100] }]) := by
  have first : ∀ tail : List Nat, peek (body ++ (13 :: tail)) 0 ≠ 0 ∧
      peek (body ++ (37 :: tail)) 0 ≠ 0 := by
    intro tail
    cases body with
    | nil => simp [peek]
    | cons x xs =>
      have := hb x (by simp)
      simp [peek, this]
  refine ⟨fun text h0 => ?_, fun hne => ?_, ?_, ⟨_, _, rfl, rfl, rfl, rfl⟩,
    ⟨_, _, rfl, rfl, rfl⟩⟩
  · obtain ⟨k1, k2⟩ := wellformed_lines a0 a1 a2 d0 d1 d2 d3 t c text pre hc ht h0
    exact ⟨_, k1, k2⟩
  · obtain ⟨k1, k2⟩ := wellformed_lines a0 a1 a2 d0 d1 d2 d3 t c (body ++ [13, 10]) pre hc ht
      (first [10]).1
    have hA := asm_text_plain
      (image pre ([a0, a1, a2, d0, d1, d2, d3, t, c, 32] ++ (body ++ [13, 10]))) body hb
      (peek_line_text pre a0 a1 a2 d0 d1 d2 d3 t c 32 (body ++ [13, 10]))
      (peek_line_head pre a0 a1 a2 d0 d1 d2 d3 t c 32 (body ++ [13, 10])).2.2.2 hne
    rw [k1, k2, hA]
    exact ⟨rfl, rfl⟩
  · obtain ⟨k1, k2⟩ := wellformed_lines a0 a1 a2 d0 d1 d2 d3 t c (body ++ [37, 48, 13, 10]) pre
      hc ht (first [48, 13, 10]).2
    have hA := asm_text_placeholder
      (image pre ([a0, a1, a2, d0, d1, d2, d3, t, c, 32] ++ (body ++ [37, 48, 13, 10]))) body hb
      (peek_line_text pre a0 a1 a2 d0 d1 d2 d3 t c 32 (body ++ [37, 48, 13, 10]))
    rw [k1, k2, hA]
    exact ⟨rfl, rfl⟩

/-- C8, witness: the amended statement at the lines `ABC0001E: Hi` CR LF and
`ABC0001E: Hi%0` CR LF. -/
theorem message_line_body_witness :
    (65 : Nat) ≠ 59 ∧ (∀ x, x ∈ [72, 105] → x ≠ 0) ∧ (∀ b : List Nat, [72, 105] ≠ b ++ [37, 48]) ∧
    lineAsm [65, 66, 67] preZero ([65, 66, 67, 48, 48, 48, 49, 69, 58, 32] ++ ([72, 105] ++ [13, 10]))
      = .emit true ([72, 105] ++ [13, 10]) preZero ∧
    lineMsg [65, 66, 67] preZero
        ([65, 66, 67, 48, 48, 48, 49, 69, 58, 32] ++ ([72, 105] ++ [37, 48, 13, 10]))
      = .emit true (69 :: [72, 105]) preZero :=
  have hb : ∀ x, x ∈ [72, 105] → x ≠ 0 := by decide
  have hne : ∀ b : List Nat, [72, 105] ≠ b ++ [37, 48] := by
    intro b h
    have h2 : b.length = 0 := by
      have := congrArg List.length h
      simp only [List.length_append, List.length_cons, List.length_nil] at this
      omega
    have hb0 : b = [] := List.length_eq_zero.mp h2
    rw [hb0] at h
    simp at h
  ⟨by decide, hb, hne,
   ((message_line_body 65 66 67 48 48 48 49 69 58 [72, 105] preZero (by decide)
      (Or.inl rfl) hb).2.1 hne).1,
   ((message_line_body 65 66 67 48 48 48 49 69 58 [72, 105] preZero (by decide)
      (Or.inl rfl) hb).2.2.1).2⟩

/-- C9, counterexample.  On the line `ABC0001E:Hello` CR LF, which has no
space at column 9, the binary emitter accepts the line and emits `EHello`
CR LF, while the textual emitter rejects it with `MKMSG_BAD_TYPE`.  The two
loop bodies also part on a continuation line that starts with a NUL byte (the
binary one skips the line-ending fixup of an empty slice, the textual one has
no such test), and on a `?` line when the two bytes below the buffer, which
the placeholder check of the textual emitter reads, are `%0`. -/
theorem unspaced_line_diverges :
    (lineMsg [65, 66, 67] preZero lineNoSpace
        = .emit true [69, 72, 101, 108, 108, 111, 13, 10] preZero ∧
      lineAsm [65, 66, 67] preZero lineNoSpace = .stop .noSpace) ∧
    (lineMsg [65, 66, 67] preZero [0, 10] = .emit false [] preZero ∧
      lineAsm [65, 66, 67] preZero [0, 10]
        = .emit false [10] { b4 := 0, b3 := 0, b2 := 0, b1 := 13 }) ∧
    (lineMsg [65, 66, 67] { b4 := 0, b3 := 0, b2 := 37, b1 := 48 } lineQuestion
        = .emit true [63, 13, 10] { b4 := 0, b3 := 0, b2 := 37, b1 := 48 } ∧
      lineAsm [65, 66, 67] { b4 := 0, b3 := 0, b2 := 37, b1 := 48 } lineQuestion
        = .emit true [] preZero) :=
  ⟨⟨rfl, rfl⟩, ⟨rfl, rfl⟩, ⟨rfl, rfl⟩⟩

/-- C9, amended.  For every identifier, every content of the read buffer and
of the bytes below it: on a message line with a type letter among E, H, I, P,
W and no space at column 9 the textual emitter rejects the line
(`MKMSG_BAD_TYPE`) while the binary emitter accepts it; on every other line
whose body cursor does not point at a NUL byte the two emitters agree: both
skip a comment, both stop on a bad type letter, both emit, the binary bytes
being the type letter followed by the textual body on a new-message line and
the textual body itself on a continuation line (for a `?` line, provided the
two bytes below the buffer are not `%0`). -/
theorem emitters_agree_except_unspaced (identifier : List Nat) (pre : Pre) (rb : List Nat) :
    (kindOf identifier rb = .unspaced →
      lineAsm identifier pre rb = .stop .noSpace ∧
      ∃ bytes p, lineMsg identifier pre rb = .emit true bytes p) ∧
    (kindOf identifier rb ≠ .unspaced →
      (kindOf identifier rb = .question → ¬ (pre.b1 = 48 ∧ pre.b2 = 37)) →
      (kindOf identifier rb = .spaced → peek rb 10 ≠ 0) →
      (kindOf identifier rb = .continuation → peek rb 0 ≠ 0) →
      Agree (peek rb 7) (lineMsg identifier pre rb) (lineAsm identifier pre rb)) := by
  rcases kindOf_cases identifier rb with
    ⟨hk, hc⟩ | ⟨hk, hc, hid⟩ | ⟨hk, hc, hid, hb⟩ | ⟨hk, hc, hid, hq⟩ |
    ⟨hk, hc, hid, hb, hq, hs⟩ | ⟨hk, hc, hid, hb, hq, hs⟩
  · refine ⟨fun h => ?_, fun _ _ _ _ => ?_⟩
    · rw [hk] at h; cases h
    · obtain ⟨h1, h2⟩ := comment_lines identifier pre rb hc
      rw [h1, h2]; simp [Agree]
  · refine ⟨fun h => ?_, fun _ _ _ h0 => ?_⟩
    · rw [hk] at h; cases h
    · obtain ⟨h1, h2⟩ := continuation_lines identifier pre rb hc hid (h0 hk)
      rw [h1, h2]; simp [Agree]
  · refine ⟨fun h => ?_, fun _ _ _ _ => ?_⟩
    · rw [hk] at h; cases h
    · obtain ⟨h1, h2⟩ := badType_lines identifier pre rb hc hid hb
      rw [h1, h2]; simp [Agree]
  · refine ⟨fun h => ?_, fun _ hp _ _ => ?_⟩
    · rw [hk] at h; cases h
    · rw [question_msg identifier pre rb hc hid hq,
        question_asm identifier pre rb hc hid hq (hp hk), hq]
      simp [Agree]
  · refine ⟨fun _ => unspaced_lines identifier pre rb hc hid hb hq hs, fun h => ?_⟩
    exact absurd hk h
  · refine ⟨fun h => ?_, fun _ _ ht _ => ?_⟩
    · rw [hk] at h; cases h
    · obtain ⟨h1, h2⟩ := spaced_lines identifier pre rb hc hid hb hq hs (ht hk)
      rw [h1, h2]; simp [Agree]

/-- C9, witness: the amended statement at the line `ABC0001E:Hello` CR LF
(no space) and at the line `ABC0001E: Hello world%0` CR LF. -/
theorem emitters_agree_except_unspaced_witness :
    kindOf [65, 66, 67] lineNoSpace = .unspaced ∧
    lineAsm [65, 66, 67] preZero lineNoSpace = .stop .noSpace ∧
    kindOf [65, 66, 67] lineHello = .spaced ∧ peek lineHello 10 ≠ 0 ∧
    Agree (peek lineHello 7) (lineMsg [65, 66, 67] preZero lineHello)
      (lineAsm [65, 66, 67] preZero lineHello) :=
  ⟨rfl, ((emitters_agree_except_unspaced [65, 66, 67] preZero lineNoSpace).1 rfl).1,
   rfl, by decide,
   (emitters_agree_except_unspaced [65, 66, 67] preZero lineHello).2 (by decide)
     (fun h => by cases h) (fun _ => by decide) (fun h => by cases h)⟩

/-- C10, the code evaluated at a failing input.  In the file `inputContinued`
the first message (number 1) has one continuation line.  `writeasmfile`
increments `msg_num_check` after every line that is not a comment: the
continuation line is emitted under the number 2 and the second new-message
line (k = 1) under the number 3, not under firstmsg + 1 = 2. -/
theorem continuation_advances_number :
    ∃ info run, compileAsm 302 preZero inputContinued = .ok (info, run) ∧
      info.firstmsg = some 1 ∧
      run.items = [{ num := 1, newmsg := true, body := [97, 13, 10] },
                   { num := 2, newmsg := false, body := [109, 111, 114, 101, 13, 10] },
                   { num := 3, newmsg := true, body := [98, 13, 10] }] :=
  ⟨_, _, rfl, rfl, rfl⟩

/-- C11: the width of the index entries chosen by `setupheader` is decided by
the length of the input file alone: for every input of at most 40000 bytes
that `setupheader` accepts the index size is 2 times the message count and
every entry is written as 2 bytes, for every input of 40001 bytes or more it
is 4 times the message count and every entry is written as 4 bytes. -/
theorem index_width_by_input_length (fciSize : Nat) (input : List Nat) (info : MESSAGEINFO)
    (h : setupheader fciSize input = .ok info) :
    (input.length ≤ 40000 →
      info.offsetid = 1 ∧ info.indexsize = 2 * info.numbermsg ∧
      ∀ index, (indexBytes info.offsetid index).length = 2 * index.length) ∧
    (40001 ≤ input.length →
      info.offsetid = 0 ∧ info.indexsize = 4 * info.numbermsg ∧
      ∀ index, (indexBytes info.offsetid index).length = 4 * index.length) := by
  obtain ⟨a, b, c, fp, _, _, _, _, _, e5, e6, _⟩ := setupheader_parts fciSize input info h
  constructor
  · intro hle
    rw [if_pos hle] at e5 e6
    refine ⟨e5, by omega, ?_⟩
    intro index
    rw [indexBytes_length, e5]
    rfl
  · intro hgt
    have hn : ¬ input.length ≤ 40000 := by omega
    rw [if_neg hn] at e5 e6
    refine ⟨e5, by omega, ?_⟩
    intro index
    rw [indexBytes_length, e5]
    rfl

theorem index_width_by_input_length_witness :
    ∃ info, setupheader 302 inputHello = .ok info ∧
      (inputHello.length ≤ 40000 →
        info.offsetid = 1 ∧ info.indexsize = 2 * info.numbermsg ∧
        ∀ index, (indexBytes info.offsetid index).length = 2 * index.length) ∧
      (40001 ≤ inputHello.length →
        info.offsetid = 0 ∧ info.indexsize = 4 * info.numbermsg ∧
        ∀ index, (indexBytes info.offsetid index).length = 4 * index.length) :=
  ⟨_, rfl, index_width_by_input_length 302 inputHello _ rfl⟩

/-- C12: for every line in the read buffer that does not begin with `;`,
starts with the identifier and has in column 7 none of E, W, I, H, P and `?`,
the loop body of the binary emitter and the loop body of the textual emitter
both stop with the bad-message-type error, and the pass of either loop that
handles the line ends the compilation with that error. -/
theorem bad_type_aborts (identifier rb : List Nat)
    (hc : peek rb 0 ≠ 59) (hid : strncmpEq 3 identifier rb = true)
    (hE : peek rb 7 ≠ 69) (hW : peek rb 7 ≠ 87) (hI : peek rb 7 ≠ 73)
    (hH : peek rb 7 ≠ 72) (hP : peek rb 7 ≠ 80) (hQ : peek rb 7 ≠ 63) :
    (∀ pre, lineMsg identifier pre rb = .stop .badType ∧
      lineAsm identifier pre rb = .stop .badType) ∧
    (∀ (offsetid fuel : Nat) (st : MsgRun), st.fpi.eof = false →
      (getline (getline [] st.fpi).2.1 (getline [] st.fpi).2.2).2.1 = rb →
      msgLoop identifier offsetid (fuel + 1) st = .error .badType) ∧
    (∀ (fuel : Nat) (st : AsmRun), (getline [] st.fpi).2.2.eof = false →
      (getline [] st.fpi).2.1 = rb →
      asmLoop identifier (fuel + 1) st = .error .badType) := by
  have hb : badTypeLetter (peek rb 7) = true := by
    simp [badTypeLetter, hE, hW, hI, hH, hP, hQ]
  have key := fun pre => badType_lines identifier pre rb hc hid hb
  refine ⟨key, ?_, ?_⟩
  · intro offsetid fuel st he hrb
    have hz := getline_ret_ne_zero (getline [] st.fpi).2.1 (getline [] st.fpi).2.2
    unfold msgLoop
    rw [if_neg (by simp [he])]
    generalize getline [] st.fpi = g1 at hrb hz
    obtain ⟨r1, buf1, fp1⟩ := g1
    simp only at hrb hz ⊢
    generalize getline buf1 fp1 = g2 at hrb hz
    obtain ⟨r2, buf2, fp2⟩ := g2
    simp only at hrb hz ⊢
    subst hrb
    have hne : ¬ ((r2 == 0 && fp2.eof) = true) := by simp [hz]
    rw [if_neg hne, (key st.pre).1]
  · intro fuel st he hrb
    unfold asmLoop
    generalize getline [] st.fpi = g1 at hrb he
    obtain ⟨r1, buf1, fp1⟩ := g1
    simp only at hrb he ⊢
    subst hrb
    rw [if_neg (by simp [he]), (key st.pre).2]

theorem bad_type_aborts_witness :
    ((∀ pre, lineMsg [65, 66, 67] pre lineBadType = .stop .badType ∧
      lineAsm [65, 66, 67] pre lineBadType = .stop .badType) ∧
    (∀ (offsetid fuel : Nat) (st : MsgRun), st.fpi.eof = false →
      (getline (getline [] st.fpi).2.1 (getline [] st.fpi).2.2).2.1 = lineBadType →
      msgLoop [65, 66, 67] offsetid (fuel + 1) st = .error .badType) ∧
    (∀ (fuel : Nat) (st : AsmRun), (getline [] st.fpi).2.2.eof = false →
      (getline [] st.fpi).2.1 = lineBadType →
      asmLoop [65, 66, 67] (fuel + 1) st = .error .badType)) ∧
    compileMsg 302 preZero inputBadType = .error .badType ∧
    compileAsm 302 preZero inputBadType = .error .badType :=
  ⟨bad_type_aborts [65, 66, 67] lineBadType (by decide) (by decide) (by decide) (by decide)
    (by decide) (by decide) (by decide) (by decide), rfl, rfl⟩

/-- C13 (counterexample): the input whose first line is `AB` LF is accepted
and the identifier stored is `A`, `B`, LF; the input whose first line is
`ABCD` LF is accepted and the identifier stored is `ABC`. -/
theorem identifier_line_of_other_length_accepted :
    (∃ info, setupheader 302 inputShortId = .ok info ∧ info.identifier = [65, 66, 10]) ∧
    (∃ info, setupheader 302 inputLongId = .ok info ∧ info.identifier = [65, 66, 67]) :=
  ⟨⟨_, rfl, rfl⟩, ⟨_, rfl, rfl⟩⟩

/-- C13 (amended): for every input with a line that does not begin with `;`,
`setupheader` looks at the first such line with its terminator: when it has
more than 5 bytes before its first NUL the program ends with status 99; when
it has at most 5 and is at least 2 bytes long `setupheader` succeeds and the
identifier stored is the first three bytes of the line, a NUL standing for a
byte the line does not have.  A line of exactly 3 characters followed by a
terminator is accepted with these 3 characters as identifier. -/
theorem identifier_line_length (fciSize : Nat) (input line : List Nat)
    (hfirst : firstNonComment input = some line) :
    (5 < strlen line 0 → setupheader fciSize input = .error .exit99) ∧
    (strlen line 0 ≤ 5 → 2 ≤ line.length →
      ∃ info, setupheader fciSize input = .ok info ∧
        info.identifier = [peek line 0, peek line 1, peek line 2]) := by
  obtain ⟨k1, k2⟩ := findIdentifier_first (input.length + 1) input false line (by omega) hfirst
  constructor
  · intro h5
    unfold setupheader
    rw [k1 h5]
  · intro h5 h2
    obtain ⟨fp, hfp⟩ := k2 h5 h2
    unfold setupheader
    rw [hfp]
    exact ⟨_, rfl, rfl⟩

theorem identifier_line_length_witness :
    firstNonComment inputHello = some [65, 66, 67, 10] ∧
    (5 < strlen [65, 66, 67, 10] 0 → setupheader 302 inputHello = .error .exit99) ∧
    (strlen [65, 66, 67, 10] 0 ≤ 5 → 2 ≤ [65, 66, 67, 10].length →
      ∃ info, setupheader 302 inputHello = .ok info ∧
        info.identifier = [peek [65, 66, 67, 10] 0, peek [65, 66, 67, 10] 1,
          peek [65, 66, 67, 10] 2]) :=
  ⟨rfl, identifier_line_length 302 inputHello [65, 66, 67, 10] rfl⟩

/-- C14: on the input `ABC` LF `ABC0007E: x`, whose only message line has the
digits 0007 in columns 3 to 6 and no terminator, `setupheader` succeeds with
message count 0 and without assigning the first message number; on the same
input with CR LF after the line it stores the number 7. -/
theorem first_number_missed_on_open_line :
    (∃ info, setupheader 302 inputFirstOpen = .ok info ∧
      info.firstmsg = none ∧ info.numbermsg = 0) ∧
    (∃ info, setupheader 302 (inputFirstOpen ++ [13, 10]) = .ok info ∧
      info.firstmsg = some 7 ∧ info.numbermsg = 1) :=
  ⟨⟨_, rfl, rfl, rfl⟩, ⟨_, rfl, rfl, rfl⟩⟩

/-- C16: for every compilation that `setupheader` and `writemsgfile` carry
through, the output file with the extension requested differs from the output
file without it in this way only: it is 4 bytes longer, the 4 bytes added at
the end are those of `extfake`, and the bytes at offsets 0x16 to 0x19 hold the
length of the file without the extension (as a 32-bit value), low byte first;
every other byte is the same. -/
theorem extension_block (fciSize : Nat) (input : List Nat) (info : MESSAGEINFO)
    (extfake msgheader cntryheader : List Nat) (run : MsgRun) (fakeextend : Nat)
    (h : setupheader fciSize input = .ok info) (he : fakeextend ≠ 0) :
    (finishMsgFile extfake fakeextend info
        (writeheader fciSize msgheader cntryheader info) run).length
      = (finishMsgFile extfake 0 info
        (writeheader fciSize msgheader cntryheader info) run).length + 4 ∧
    (∀ k, k < 4 →
      peek (finishMsgFile extfake fakeextend info
          (writeheader fciSize msgheader cntryheader info) run)
        ((finishMsgFile extfake 0 info
          (writeheader fciSize msgheader cntryheader info) run).length + k)
        = peek extfake k) ∧
    (∀ k, k < 4 →
      peek (finishMsgFile extfake fakeextend info
          (writeheader fciSize msgheader cntryheader info) run) (0x16 + k)
        = (finishMsgFile extfake 0 info
          (writeheader fciSize msgheader cntryheader info) run).length % 4294967296
            / 256 ^ k % 256) ∧
    (∀ j, j < (finishMsgFile extfake 0 info
          (writeheader fciSize msgheader cntryheader info) run).length →
      (j < 0x16 ∨ 0x1A ≤ j) →
      peek (finishMsgFile extfake fakeextend info
          (writeheader fciSize msgheader cntryheader info) run) j
        = peek (finishMsgFile extfake 0 info
          (writeheader fciSize msgheader cntryheader info) run) j) := by
  obtain ⟨a, b, c, fp, _, _, _, _, _, _, _, e7, _⟩ := setupheader_parts fciSize input info h
  have hge := finishMsgFile_length_ge extfake info
    (writeheader fciSize msgheader cntryheader info) run
  rw [writeheader_length, e7] at hge
  have hext : finishMsgFile extfake fakeextend info
        (writeheader fciSize msgheader cntryheader info) run
      = appendExtension extfake (finishMsgFile extfake 0 info
        (writeheader fciSize msgheader cntryheader info) run) := by
    unfold finishMsgFile
    have : (fakeextend != 0) = true := by simpa using he
    simp [this]
  rw [hext]
  generalize finishMsgFile extfake 0 info
    (writeheader fciSize msgheader cntryheader info) run = a0 at hge
  unfold appendExtension
  refine ⟨?_, ?_, ?_, ?_⟩
  · have n1 : bytesAt extfake 0 4 ≠ [] := by
      intro hnil
      have := bytesAt_length extfake 0 4
      rw [hnil] at this
      simp at this
    have n2 : leBytes 4 (a0.length % 4294967296) ≠ [] := by
      intro hnil
      have := leBytes_length 4 (a0.length % 4294967296)
      rw [hnil] at this
      simp at this
    rw [writeAt_length, writeAt_length]
    simp only [n1, n2, false_or, leBytes_length, bytesAt_length]
    split_ifs <;> omega
  · intro k hk
    rw [peek_writeAt, peek_writeAt]
    simp only [leBytes_length, bytesAt_length]
    rw [if_neg (by omega), if_pos (by omega)]
    have e : a0.length + k - a0.length = k := by omega
    rw [e, peek_bytesAt _ _ _ _ hk, Nat.zero_add]
  · intro k hk
    rw [peek_writeAt]
    simp only [leBytes_length]
    rw [if_pos (by omega)]
    have e : 0x16 + k - 0x16 = k := by omega
    rw [e, leBytes_peek _ _ hk]
  · intro j hj hout
    rw [peek_writeAt, peek_writeAt]
    simp only [leBytes_length, bytesAt_length]
    rw [if_neg (by omega), if_neg (by omega)]

set_option maxRecDepth 20000 in
theorem extension_block_witness :
    ∃ info run, setupheader 302 inputHello = .ok info ∧
      writemsgfile info preZero inputHello = .ok run ∧ (1 : Nat) ≠ 0 ∧
      (finishMsgFile [1, 2, 3, 4] 0 info
        (writeheader 302 headerSample countrySample info) run).length = 347 ∧
      ((finishMsgFile [1, 2, 3, 4] 1 info
          (writeheader 302 headerSample countrySample info) run).length
        = (finishMsgFile [1, 2, 3, 4] 0 info
          (writeheader 302 headerSample countrySample info) run).length + 4 ∧
      (∀ k, k < 4 →
        peek (finishMsgFile [1, 2, 3, 4] 1 info
            (writeheader 302 headerSample countrySample info) run)
          ((finishMsgFile [1, 2, 3, 4] 0 info
            (writeheader 302 headerSample countrySample info) run).length + k)
          = peek [1, 2, 3, 4] k) ∧
      (∀ k, k < 4 →
        peek (finishMsgFile [1, 2, 3, 4] 1 info
            (writeheader 302 headerSample countrySample info) run) (0x16 + k)
          = (finishMsgFile [1, 2, 3, 4] 0 info
            (writeheader 302 headerSample countrySample info) run).length % 4294967296
              / 256 ^ k % 256) ∧
      (∀ j, j < (finishMsgFile [1, 2, 3, 4] 0 info
            (writeheader 302 headerSample countrySample info) run).length →
        (j < 0x16 ∨ 0x1A ≤ j) →
        peek (finishMsgFile [1, 2, 3, 4] 1 info
            (writeheader 302 headerSample countrySample info) run) j
          = peek (finishMsgFile [1, 2, 3, 4] 0 info
            (writeheader 302 headerSample countrySample info) run) j)) :=
  ⟨_, _, rfl, rfl, by decide, rfl,
    extension_block 302 inputHello _ [1, 2, 3, 4] headerSample countrySample _ 1 rfl
      (by decide)⟩

/-- C18: for every value `size` of `ASM_MSG_SIZE`, the body of `2 * size + 1`
bytes `a` followed by CR LF is written as a literal of `size` bytes and a
literal of `size + 1` bytes (and an empty one, closed by the CR LF text): the
literal opened after the split exceeds `ASM_MSG_SIZE` by one.  With
`ASM_MSG_SIZE` = 3 the input `ABC` LF `ABC0001E: aaaaaaa` CR LF gives the
literals `aaa` and `aaaa`. -/
theorem chunk_after_split_exceeds :
    (∀ size : Nat,
      emitBody size (List.replicate (2 * size + 1) 97 ++ [13, 10]) 1
        = List.replicate size (.char 97) ++ .split ::
          (List.replicate (size + 1) (.char 97) ++ [.split, .crlf]) ∧
      chunkSizes (emitBody size (List.replicate (2 * size + 1) 97 ++ [13, 10]) 1) 0
        = [size, size + 1, 0]) ∧
    (∃ info run, compileAsm 302 preZero inputSevenChars = .ok (info, run) ∧
      run.items = [{ num := 1, newmsg := true, body := [97, 97, 97, 97, 97, 97, 97, 13, 10] }] ∧
      asmText 3 info.identifier [] 0 run.items
        = [9, 68, 66, 9, 39, 65, 66, 67, 48, 48, 48, 49, 58, 32, 39, 13, 10,
           9, 68, 66, 9, 39, 97, 97, 97, 39, 13, 10,
           9, 68, 66, 9, 39, 97, 97, 97, 97, 39, 13, 10,
           9, 68, 66, 9, 39, 39, 44, 32, 48, 68, 72, 44, 32, 48, 65, 72, 13, 10]) := by
  refine ⟨?_, ⟨_, _, rfl, rfl, rfl⟩⟩
  intro size
  have e : emitBody size (List.replicate (2 * size + 1) 97 ++ [13, 10]) 1
      = List.replicate size (.char 97) ++ .split ::
        (List.replicate (size + 1) (.char 97) ++ [.split, .crlf]) := by
    have h1 : List.replicate (2 * size + 1) 97 ++ [13, 10]
        = List.replicate size 97 ++ (97 :: (List.replicate size 97 ++ [13, 10])) := by
      have : 2 * size + 1 = size + (1 + size) := by omega
      rw [this, List.replicate_add, List.append_assoc, List.replicate_add]
      rfl
    rw [h1, emitBody_run size 97 (by decide) _ size 1 (by omega),
      emitBody_char _ _ _ _ (by decide), if_pos (by omega),
      emitBody_run size 97 (by decide) _ size 1 (by omega),
      emitBody_crlf, if_pos (by omega)]
    have h2 : emitBody size [] 0 = [] := by simp [emitBody]
    rw [h2, List.replicate_succ]
    rfl
  refine ⟨e, ?_⟩
  rw [e, chunkSizes_run, chunkSizes_split, chunkSizes_run, chunkSizes_split, chunkSizes_crlf]
  simp [chunkSizes]

/-- C19: on the input `ABC` LF `ABC0001E: Hi` LF, whose message line ends in
a bare LF, the textual emitter processes the body `Hi` LF; for every value of
`ASM_MSG_SIZE` the body loop copies the LF with `fputc` into the literal, and
with `ASM_MSG_SIZE` = 60 the text written is the heading followed by quote,
`Hi`, LF, quote, CR LF. -/
theorem bare_lf_inside_literal :
    (∃ info run, compileAsm 302 preZero inputBareLf = .ok (info, run) ∧
      run.items = [{ num := 1, newmsg := true, body := [72, 105, 10] }] ∧
      asmText 60 info.identifier [] 0 run.items
        = [9, 68, 66, 9, 39, 65, 66, 67, 48, 48, 48, 49, 58, 32, 39, 13, 10,
           9, 68, 66, 9, 39, 72, 105, 10, 39, 13, 10]) ∧
    (∀ size : Nat, Piece.char 10 ∈ emitBody size [72, 105, 10] 1) ∧
    emitBody 60 [72, 105, 10] 1 = [.char 72, .char 105, .char 10, .close] := by
  refine ⟨⟨_, _, rfl, rfl, rfl⟩, ?_, rfl⟩
  intro size
  rw [emitBody_char _ _ _ _ (by decide)]
  split
  · rw [emitBody_char _ _ _ _ (by decide)]
    split
    · rw [emitBody_char _ _ _ _ (by decide)]
      split <;> simp
    · rw [emitBody_char _ _ _ _ (by decide)]
      split <;> simp
  · rw [emitBody_char _ _ _ _ (by decide)]
    split
    · rw [emitBody_char _ _ _ _ (by decide)]
      split <;> simp
    · rw [emitBody_char _ _ _ _ (by decide)]
      split <;> simp

set_option maxRecDepth 20000 in
/-- C20: for the language option `99,1`, whose family id is outside 1..34,
`DecodeLangOpt` returns `MKMSG_LANG_OUT_RANGE`, whatever the table and the
error codes are; `processparams` only stores the returned value (reduced to 8
bits) in `proclang` and goes on to compile with the language fields 99 and 1.
With the sample environment the option `99,1`, and likewise the option `1,7`
whose pair is not in the table, leaves a finished binary file of 347 bytes
for the input of the scenario. -/
theorem language_error_not_propagated :
    (∀ (langOutRange subidOutRange : Int) (langinfo : Nat → Int × Int),
      DecodeLangOpt langOutRange subidOutRange langinfo argFamily99
        = some (langOutRange,
            { langfamilyID := 99, langversionID := 1, langfamilyIDcode := 0 })) ∧
    (∀ (env : Env) (input : List Nat),
      processparams env [.L argFamily99] input
        = compile env { Options.start with
            langfamilyID := 99, langversionID := 1,
            proclang := (env.langOutRange % 256).toNat } input) ∧
    (∃ bytes, processparams envSample [.L argFamily99] inputHello = .ok (.binary bytes) ∧
      bytes.length = 347) ∧
    DecodeLangOpt envSample.langOutRange envSample.subidOutRange envSample.langinfo argSub7
      = some (3, { langfamilyID := 1, langversionID := 7, langfamilyIDcode := 0 }) ∧
    (∃ bytes, processparams envSample [.L argSub7] inputHello = .ok (.binary bytes) ∧
      bytes.length = 347) :=
  ⟨fun _ _ _ => rfl, fun _ _ => rfl, ⟨_, rfl, rfl⟩, rfl, ⟨_, rfl, rfl⟩⟩

/-- C22: on the input `ABC` LF `;c` LF `ABC0001E: a` CR LF, every line of
which is terminated, `setupheader` counts one message and `writemsgfile`
stores the output position 335 into slot 0 of the index buffer and then, in
the pass that meets the end of the file, the position 339 into slot 1, which
is not a slot of the buffer of one entry. -/
theorem store_past_index_buffer :
    ∃ info run, compileMsg 302 preZero inputCommentMessage = .ok (info, run) ∧
      info.numbermsg = 1 ∧ run.index = [335] ∧ run.msg_num_check = 1 ∧
      run.stray = [(1, 339)] :=
  ⟨_, _, rfl, rfl, rfl, rfl, rfl⟩

/-- C23: the blank continuation line CR LF makes the third check of the
binary emitter read offset -1 from the body cursor, the empty buffer of the
pass that meets the end of the file makes it read offset -3, and the `?` line
makes the third check of the textual emitter read offset -1: positions before
the body slice and below the read buffer.  What is found there decides the
output of both emitters: the continuation line `0` CR LF is emitted when the
byte below the buffer is 0 and dropped when it is `%`, and with `%`, `0` four
bytes below the buffer the empty pass stores four NUL bytes below the
buffer. -/
theorem fixups_touch_below_slice :
    touchedMsg [65, 66, 67] preZero [13, 10, 0] = [1, -1] ∧
    touchedMsg [65, 66, 67] preZero [] = [-3] ∧
    touchedAsm [65, 66, 67] preZero lineQuestion = [1, -1] ∧
    lineMsg [65, 66, 67] preZero [48, 13, 10, 0] = .emit false [48, 13, 10] preZero ∧
    lineMsg [65, 66, 67] prePercent [48, 13, 10, 0] = .emit false [] preZero ∧
    touchedMsg [65, 66, 67] prePercent [48, 13, 10, 0] = [2, 0, -1, 2, 1, 0, -1] ∧
    lineMsg [65, 66, 67] { b4 := 37, b3 := 48, b2 := 1, b1 := 2 } [] = .emit false [] preZero ∧
    (∃ info run, compileMsg 302 preZero inputShortContinuation = .ok (info, run) ∧
      run.writes = [{ pos := 335, newmsg := false, bytes := [48, 13, 10] },
                    { pos := 338, newmsg := false, bytes := [] }]) ∧
    (∃ info run, compileMsg 302 prePercent inputShortContinuation = .ok (info, run) ∧
      run.writes = [{ pos := 335, newmsg := false, bytes := [] },
                    { pos := 335, newmsg := false, bytes := [] }]) ∧
    (∃ info run, compileAsm 302 preZero inputShortContinuation = .ok (info, run) ∧
      run.items = [{ num := 1, newmsg := true, body := [97, 13, 10] },
                   { num := 2, newmsg := false, body := [48, 13, 10] }]) ∧
    (∃ info run, compileAsm 302 prePercent inputShortContinuation = .ok (info, run) ∧
      run.items = [{ num := 1, newmsg := true, body := [97, 13, 10] },
                   { num := 2, newmsg := false, body := [] }]) :=
  ⟨rfl, rfl, rfl, rfl, rfl, rfl, rfl, ⟨_, _, rfl, rfl⟩, ⟨_, _, rfl, rfl⟩, ⟨_, _, rfl, rfl⟩,
    ⟨_, _, rfl, rfl⟩⟩

/-- C25 (counterexample): on the input `ABC` LF `;c` LF `foo` CR LF `;c` LF
`ABC0001E: a` CR LF the text line `foo` is written at the message-area offset
335 and the only message at 340, so the first index entry is 340 and not
`msgoffset`; on the input `ABC` LF `;c` LF `ABC0001E` LF, which has one
message and every line terminated, the bytes written for the message are
CR LF, without its type letter `E`. -/
theorem first_entry_after_text_line :
    (∃ info run, compileMsg 302 preZero inputOrphan = .ok (info, run) ∧
      info.msgoffset = 335 ∧ info.numbermsg = 1 ∧ run.index = [340] ∧
      bodiesOf run.writes = [{ pos := 340, newmsg := true, bytes := [69, 97, 13, 10] }]) ∧
    (∃ info run, compileMsg 302 preZero inputLetterOnly = .ok (info, run) ∧
      info.numbermsg = 1 ∧ run.index = [335] ∧
      bodiesOf run.writes = [{ pos := 335, newmsg := true, bytes := [13, 10] }]) :=
  ⟨⟨_, _, rfl, rfl, rfl, rfl, rfl⟩, ⟨_, _, rfl, rfl, rfl, rfl⟩⟩

/-- C25 (amended): for every compilation that `setupheader` and
`writemsgfile` carry through and whose last output position fits the width of
the index entries: every call of `fwrite` made for a new-message line writes
at least one byte; the index entries of the messages written that have a slot
in the index buffer hold the file offsets of their bodies and are strictly
increasing in message order; the first of them is at or after `msgoffset`, and
equals `msgoffset` when the first line written is a new-message line.  Each
call of `fwrite` writes what the loop body makes of a buffer, and the first
byte the loop body writes for a new-message line is the type letter of the
line when the line is a `?` line or the buffer holds at least one byte after
the position the type letter is moved to. -/
theorem index_entries_increasing (fciSize : Nat) (pre : Pre) (input : List Nat)
    (info : MESSAGEINFO) (run : MsgRun)
    (h : compileMsg fciSize pre input = .ok (info, run))
    (hlim : run.fpo < (if info.offsetid != 0 then 65536 else 4294967296)) :
    (∀ w, w ∈ run.writes → w.newmsg = true → w.bytes ≠ []) ∧
    (∀ (i j : Nat) (wi wj : Written), i < j → j < info.numbermsg →
      (bodiesOf run.writes)[i]? = some wi → (bodiesOf run.writes)[j]? = some wj →
      run.index[i]? = some wi.pos ∧ run.index[j]? = some wj.pos ∧ wi.pos < wj.pos) ∧
    (∀ w, (bodiesOf run.writes)[0]? = some w → 0 < info.numbermsg →
      run.index[0]? = some w.pos ∧ info.msgoffset ≤ w.pos) ∧
    (∀ w, run.writes.head? = some w → w.newmsg = true → 0 < info.numbermsg →
      run.index[0]? = some info.msgoffset) ∧
    (∀ w, w ∈ run.writes →
      ∃ pre1 rb pre2, lineMsg info.identifier pre1 rb = .emit w.newmsg w.bytes pre2) ∧
    (∀ pre1 rb bytes pre2, lineMsg info.identifier pre1 rb = .emit true bytes pre2 →
      (peek rb 7 = 63 ∨ (peek rb 9 ≠ 32 ∧ peek rb 9 ≠ 0) ∨
        (peek rb 9 = 32 ∧ peek rb 10 ≠ 0)) →
      bytes.head? = some (peek rb 7)) := by
  obtain ⟨hset, hrun⟩ := compileMsg_parts fciSize pre input info run h
  obtain ⟨l1, l2, l3⟩ := writemsgfile_laid info pre input run hrun
  obtain ⟨_, hidx⟩ := writemsgfile_index info pre input run hrun
  have hmemb : ∀ w, w ∈ bodiesOf run.writes → w ∈ run.writes ∧ w.newmsg = true := by
    intro w hw
    unfold bodiesOf at hw
    rw [List.mem_filter] at hw
    exact hw
  have hcast : ∀ w, w ∈ run.writes → castIndex info.offsetid w.pos = w.pos := by
    intro w hw
    apply castIndex_small
    have := (l2 w hw).2.1
    omega
  have hentry : ∀ (j : Nat) (w : Written), (bodiesOf run.writes)[j]? = some w →
      j < info.numbermsg → run.index[j]? = some w.pos := by
    intro j w hj hjn
    rw [hidx j w hj hjn, hcast w (hmemb w (List.getElem?_mem hj)).1]
  have hpair : List.Pairwise (fun w w1 : Written => w.pos + w.bytes.length ≤ w1.pos)
      (bodiesOf run.writes) := List.Pairwise.filter _ l1
  refine ⟨fun w hw hn => (l2 w hw).2.2 hn, ?_, ?_, ?_, ?_, ?_⟩
  · intro i j wi wj hij hjn hi hj
    refine ⟨hentry i wi hi (by omega), hentry j wj hj hjn, ?_⟩
    obtain ⟨hi1, hi2⟩ := List.getElem?_eq_some.mp hi
    obtain ⟨hj1, hj2⟩ := List.getElem?_eq_some.mp hj
    have hr := List.pairwise_iff_getElem.mp hpair i j hi1 hj1 hij
    rw [hi2, hj2] at hr
    obtain ⟨hwi, hni⟩ := hmemb wi (List.getElem?_mem hi)
    have hne := (l2 wi hwi).2.2 hni
    have hpos : 0 < wi.bytes.length := List.length_pos.mpr hne
    omega
  · intro w hw hn
    exact ⟨hentry 0 w hw hn, (l2 w (hmemb w (List.getElem?_mem hw)).1).1⟩
  · intro w hw hnew hn
    have hfirst : w.pos = info.msgoffset := by
      unfold writemsgfile at hrun
      exact msgLoop_first_write info.identifier info.offsetid info.msgoffset _ _ run
        ⟨fun _ => rfl, fun w hw => by simp at hw⟩ hrun w hw
    have hb : (bodiesOf run.writes)[0]? = some w := by
      cases hws : run.writes with
      | nil => rw [hws] at hw; simp at hw
      | cons x xs =>
        rw [hws] at hw
        simp only [List.head?_cons, Option.some.injEq] at hw
        subst hw
        unfold bodiesOf
        rw [List.filter_cons, if_pos hnew]
        simp
    rw [← hfirst]
    exact hentry 0 w hb hn
  · intro w hw
    unfold writemsgfile at hrun
    rcases msgLoop_origin _ _ _ _ run hrun w hw with h1 | h1
    · simp at h1
    · exact h1
  · intro pre1 rb bytes pre2 hl hc
    exact lineMsg_letter _ _ _ _ _ hl hc

theorem index_entries_increasing_witness :
    ∃ info run, compileMsg 302 preZero inputTwoWritten = .ok (info, run) ∧
      info.numbermsg = 2 ∧ run.index = [337, 341] ∧
      bodiesOf run.writes = [{ pos := 337, newmsg := true, bytes := [69, 97, 13, 10] },
                             { pos := 341, newmsg := true, bytes := [69, 98, 13, 10] }] ∧
      run.fpo < (if info.offsetid != 0 then 65536 else 4294967296) ∧
      ((∀ w, w ∈ run.writes → w.newmsg = true → w.bytes ≠ []) ∧
      (∀ (i j : Nat) (wi wj : Written), i < j → j < info.numbermsg →
        (bodiesOf run.writes)[i]? = some wi → (bodiesOf run.writes)[j]? = some wj →
        run.index[i]? = some wi.pos ∧ run.index[j]? = some wj.pos ∧ wi.pos < wj.pos) ∧
      (∀ w, (bodiesOf run.writes)[0]? = some w → 0 < info.numbermsg →
        run.index[0]? = some w.pos ∧ info.msgoffset ≤ w.pos) ∧
      (∀ w, run.writes.head? = some w → w.newmsg = true → 0 < info.numbermsg →
        run.index[0]? = some info.msgoffset) ∧
      (∀ w, w ∈ run.writes →
        ∃ pre1 rb pre2, lineMsg info.identifier pre1 rb = .emit w.newmsg w.bytes pre2) ∧
      (∀ pre1 rb bytes pre2, lineMsg info.identifier pre1 rb = .emit true bytes pre2 →
        (peek rb 7 = 63 ∨ (peek rb 9 ≠ 32 ∧ peek rb 9 ≠ 0) ∨
          (peek rb 9 = 32 ∧ peek rb 10 ≠ 0)) →
        bytes.head? = some (peek rb 7))) :=
  ⟨_, _, rfl, rfl, rfl, rfl, by decide,
    index_entries_increasing 302 preZero inputTwoWritten _ _ rfl (by decide)⟩

/-- C21: for every command line the option loop gets through, the codepages
recorded are the values of the first 16 codepage options, in the order given,
so never more than 16; a codepage option met with 16 codepages recorded is
not stored and is handed to `ProgError`, which ends the program unless the
error code is negative, so that with a non-negative code no command line with
more than 16 codepage options gets through; and the country block of the
binary file is the image of a structure whose `codepagesnumber` is the number
recorded and whose `codepages` are the values recorded. -/
theorem codepages_recorded (env : Env) (opts : List Opt) (o : Options)
    (h : scanOptions env opts Options.start = .ok o) :
    o.codepages = ((codepageArgs opts).map atoi).take 16 ∧
    o.codepages.length ≤ 16 ∧
    (0 ≤ env.getoptError → (codepageArgs opts).length ≤ 16) ∧
    (∀ arg, o.codepages.length = 16 →
      handleOption env o (.P arg)
        = if env.getoptError < 0 then .ok o else .error (.exit env.getoptError)) ∧
    (countryFields o).codepagesnumber = o.codepages.length ∧
    (countryFields o).codepages = o.codepages ∧
    (∀ input bytes, compile env o input = .ok (.binary bytes) →
      ∃ info, setupheader env.fciSize input = .ok info ∧
        ∀ k, k < env.fciSize →
          peek bytes (info.countryinfo + k) = peek (env.cntryheader (countryFields o)) k) := by
  obtain ⟨r1, r2⟩ := scanOptions_codepages env opts Options.start o h (by simp [Options.start])
  have e0 : Options.start.codepages = [] := rfl
  rw [e0, List.nil_append] at r1
  rw [e0] at r2
  refine ⟨r1, ?_, ?_, ?_, rfl, countryFields_codepages o, ?_⟩
  · rw [r1, List.length_take]
    omega
  · intro hh
    have := r2 hh
    simp only [List.length_nil, Nat.zero_add] at this
    exact this
  · intro arg h16
    unfold handleOption
    simp only
    rw [if_neg (by omega)]
    by_cases hneg : env.getoptError < 0
    · simp [ProgError, hneg, bind, Except.bind, pure, Except.pure]
    · simp [ProgError, hneg, bind, Except.bind]
  · intro input bytes hc
    unfold compile at hc
    cases hs : setupheader env.fciSize input with
    | error e => rw [hs] at hc; cases hc
    | ok info =>
      rw [hs] at hc
      simp only at hc
      split at hc
      · split at hc
        · cases hc
        · cases hc
      · cases hw : writemsgfile info env.pre input with
        | error e => rw [hw] at hc; cases hc
        | ok run =>
          rw [hw] at hc
          simp only [Except.ok.injEq, Artifact.binary.injEq] at hc
          subst hc
          exact ⟨info, rfl, fun k hk =>
            finishMsgFile_country env.fciSize env.pre input info run _ _ _ _ k hs hw hk⟩

theorem codepages_recorded_witness :
    ∃ o, scanOptions envSample argsTwoCodepages Options.start = .ok o ∧
      o.codepages = [437, 850] ∧
      scanOptions envSample (List.replicate 17 (.P [52, 51, 55])) Options.start
        = .error (.exit 1) ∧
      (o.codepages = ((codepageArgs argsTwoCodepages).map atoi).take 16 ∧
      o.codepages.length ≤ 16 ∧
      (0 ≤ envSample.getoptError → (codepageArgs argsTwoCodepages).length ≤ 16) ∧
      (∀ arg, o.codepages.length = 16 →
        handleOption envSample o (.P arg)
          = if envSample.getoptError < 0 then .ok o
            else .error (.exit envSample.getoptError)) ∧
      (countryFields o).codepagesnumber = o.codepages.length ∧
      (countryFields o).codepages = o.codepages ∧
      (∀ input bytes, compile envSample o input = .ok (.binary bytes) →
        ∃ info, setupheader envSample.fciSize input = .ok info ∧
          ∀ k, k < envSample.fciSize →
            peek bytes (info.countryinfo + k)
              = peek (envSample.cntryheader (countryFields o)) k)) :=
  ⟨_, rfl, rfl, rfl, codepages_recorded envSample argsTwoCodepages _ rfl⟩

end Mkmsgf
